import Mathlib

/-!
# Page replacement simulator: FIFO, LRU, Optimal and Clock

A shallow embedding of `src/main.c`.

* A C `vector` is a record of its cells (`array`, a list holding `size` cells),
  its capacity `size` and its occupancy `count`.
* Loop counters, `size`, `count` and the fault counter are natural numbers; page
  identifiers are integers.  The counters never pass the length of the trace, so
  no `int` arithmetic on them wraps.
* `getFarthestReferenceAfter` and `getFarthestReferenceBefore` declare
  `int resultIndex;` without an initial value.  Their embeddings return
  `Option Nat`, where `none` says that the function returns `resultIndex`
  without ever having assigned it.  The drivers `leastRecentlyUsed` and
  `optimal` take a function `indeterminate : Nat → Int`; `indeterminate i` is
  the integer the machine yields for that unassigned variable in iteration `i`.
* `vector_insert` tests its index against `count` only.  A negative index passes
  that test and the store lands before the first cell of the array, where C
  defines no behaviour.  Only the index that `leastRecentlyUsed` and `optimal`
  take from a scan can be negative; their loop bodies, their loops and the
  drivers themselves return an `Option`, and `none` says that such a store was
  reached.
* `printBody` writes one line; its embedding returns the line as a `Row`, and
  every driver state carries the list of rows written so far.
* The `while` loop of `clock` is embedded with a fuel argument that bounds the
  number of executions of its body; `none` means that the fuel ran out.
* A C string is the list of its characters; `strcasecmp` and `tolower` are the C
  library functions in the C locale.  `pickPolicy` returns an `Outcome`, which
  records whether the function returned, called `exit`, or called a driver that
  stored outside the array, together with the lines printed by a driver that
  returned.
-/

set_option autoImplicit false

namespace PageReplacement

/-! ## The growable array -/

/-- The C struct `vector`: `array` holds the allocated cells. -/
structure vector where
  array : List Int
  size : Nat
  count : Nat
  deriving DecidableEq, Repr

/-- `vector_construct`: no cells, `count = 0`, `size = 0`. -/
def vector_construct : vector :=
  { array := [], size := 0, count := 0 }

/-- `vector_reserve`: when `size` is 0, allocate `size` zeroed cells. -/
def vector_reserve (v : vector) (size : Nat) : vector :=
  if v.size = 0 then { array := List.replicate size 0, size := size, count := v.count }
  else v

/-- `vector_push_back`: allocate 10 zeroed cells when `size` is 0, double the
capacity when `size = count` (the new cells are never read before they are
written; they are taken as 0), then store `value` in cell `count`. -/
def vector_push_back (v : vector) (value : Int) : vector :=
  let v1 : vector :=
    if v.size = 0 then { array := List.replicate 10 0, size := 10, count := v.count } else v
  let v2 : vector :=
    if v1.size = v1.count then
      { array := v1.array ++ List.replicate v1.size 0, size := v1.size * 2, count := v1.count }
    else v1
  { array := v2.array.set v2.count value, size := v2.size, count := v2.count + 1 }

/-- `vector_insert`: nothing happens when `index >= count`; otherwise cell
`index` is overwritten.  The C function has no test against 0: with a negative
index it stores before the first cell, which has no defined result.  The index
is therefore taken here as a natural number, and a caller whose `int` index may
be negative tests its sign before the call (see `lruBody` and `optimalBody`). -/
def vector_insert (v : vector) (index : Nat) (value : Int) : vector :=
  if index ≥ v.count then v
  else { array := v.array.set index value, size := v.size, count := v.count }

/-- `vector_get`: `-1` when `index >= count`, else the cell.  Every call site
passes a loop counter, which is never negative. -/
def vector_get (v : vector) (index : Nat) : Int :=
  if index ≥ v.count then -1 else v.array.getD index 0

/-- The read `pages->array[i]` of the drivers. -/
def pageAt (pages : vector) (i : Nat) : Int :=
  pages.array.getD i 0

/-- The pages vector as `main` builds it: one `vector_push_back` per page read. -/
def readPages (trace : List Int) : vector :=
  trace.foldl vector_push_back vector_construct

/-- The frames vector as `main` builds it: `vector_construct`, then
`vector_reserve` with the number of frames. -/
def emptyFrames (numberOfFrames : Nat) : vector :=
  vector_reserve vector_construct numberOfFrames

/-! ## Helpers shared by the drivers -/

/-- The occupied prefix of a vector: cells `0 .. count - 1`. -/
def resident (frames : vector) : List Int :=
  frames.array.take frames.count

/-- `isPageInAFrame`: linear search over the first `count` cells. -/
def isPageInAFrame (frames : vector) (currentPage : Int) : Bool :=
  (resident frames).any (fun cell => decide (currentPage = cell))

/-- One line of the trace table: the page, the fault mark and the cells printed. -/
structure Row where
  pageNumber : Int
  fault : Bool
  content : List Int
  deriving DecidableEq, Repr

/-- `printBody`: the page, the fault mark, then cells `0 .. count - 1`. -/
def printBody (frames : vector) (fault : Bool) (pageNumber : Int) : Row :=
  { pageNumber := pageNumber, fault := fault, content := resident frames }

/-- The loop of `setUseBit` from slot `i` on, over the cells not yet visited:
the first cell equal to `currentPage` gets its bit set, and the loop returns. -/
def setUseBitFrom (useBit : List Bool) (currentPage : Int) : List Int → Nat → List Bool
  | [], _ => useBit
  | cell :: rest, i =>
    if currentPage = cell then useBit.set i true
    else setUseBitFrom useBit currentPage rest (i + 1)

/-- `setUseBit`. -/
def setUseBit (useBit : List Bool) (frames : vector) (currentPage : Int) : List Bool :=
  setUseBitFrom useBit currentPage (resident frames) 0

/-! ## Look-ahead and look-behind scans -/

/-- The inner loop of `getFarthestReferenceAfter`, `n` iterations before
`j` reaches `numberOfPages`: the value of `j` when the loop is left. -/
def scanAfter (pages : vector) (currentFrame : Int) : Nat → Nat → Nat
  | 0, j => j
  | n + 1, j =>
    if vector_get pages j = currentFrame then j
    else scanAfter pages currentFrame n (j + 1)

/-- The outer loop of `getFarthestReferenceAfter` with `n` slots left, at slot
`i`.  The inner loop is left by `break` exactly when `j < numberOfPages`. -/
def farthestAfterLoop (pages frames : vector) (currentIndex : Nat) :
    Nat → Nat → Option Nat → Nat → Option Nat
  | 0, _, resultIndex, _ => resultIndex
  | n + 1, i, resultIndex, farthest =>
    let currentFrame := vector_get frames i
    let j := scanAfter pages currentFrame (pages.count - (currentIndex + 1)) (currentIndex + 1)
    if j < pages.count then
      if j > farthest then farthestAfterLoop pages frames currentIndex n (i + 1) (some i) j
      else farthestAfterLoop pages frames currentIndex n (i + 1) resultIndex farthest
    else if j = pages.count then some i
    else farthestAfterLoop pages frames currentIndex n (i + 1) resultIndex farthest

/-- `getFarthestReferenceAfter`; `none` is the unassigned `resultIndex`. -/
def getFarthestReferenceAfter (pages frames : vector) (currentIndex : Nat) : Option Nat :=
  farthestAfterLoop pages frames currentIndex frames.count 0 none (currentIndex + 1)

/-- The inner loop of `getFarthestReferenceBefore` started at `j`, running
while `j > 0`: the value of `j` when the loop is left. -/
def scanBefore (pages : vector) (currentFrame : Int) : Nat → Nat
  | 0 => 0
  | j + 1 =>
    if vector_get pages (j + 1) = currentFrame then j + 1
    else scanBefore pages currentFrame j

/-- The outer loop of `getFarthestReferenceBefore` with `n` slots left, at
slot `i`.  `j` starts at `currentIndex - 1`, which is `-1` for `currentIndex = 0`;
the inner loop is left by `break` exactly when `j > 0`. -/
def farthestBeforeLoop (pages frames : vector) (currentIndex : Nat) :
    Nat → Nat → Option Nat → Int → Option Nat
  | 0, _, resultIndex, _ => resultIndex
  | n + 1, i, resultIndex, farthest =>
    let currentFrame := vector_get frames i
    let j : Int :=
      if currentIndex = 0 then -1 else (scanBefore pages currentFrame (currentIndex - 1) : Nat)
    if j > 0 then
      if j < farthest then farthestBeforeLoop pages frames currentIndex n (i + 1) (some i) j
      else farthestBeforeLoop pages frames currentIndex n (i + 1) resultIndex farthest
    else if j = 0 then some i
    else farthestBeforeLoop pages frames currentIndex n (i + 1) resultIndex farthest

/-- `getFarthestReferenceBefore`; `none` is the unassigned `resultIndex`. -/
def getFarthestReferenceBefore (pages frames : vector) (currentIndex : Nat) : Option Nat :=
  farthestBeforeLoop pages frames currentIndex frames.count 0 none ((currentIndex : Int) - 1)

/-- The value a driver reads from the `int` a scan returned. -/
def readIndex (returned : Option Nat) (unassigned : Int) : Int :=
  match returned with
  | some i => (i : Int)
  | none => unassigned

/-! ## First in, first out -/

/-- The local variables of `firstInFirstOut`, with the lines printed so far. -/
structure FifoState where
  frames : vector
  oldestPageIndex : Nat
  numberOfPageFaults : Nat
  output : List Row
  deriving DecidableEq, Repr

/-- The body of the loop of `firstInFirstOut` at loop counter `i`. -/
def fifoBody (pages : vector) (s : FifoState) (i : Nat) : FifoState :=
  let currentPage := pageAt pages i
  if isPageInAFrame s.frames currentPage then
    { s with output := s.output ++ [printBody s.frames false currentPage] }
  else if s.frames.count < s.frames.size then
    let frames := vector_push_back s.frames currentPage
    { s with frames := frames, output := s.output ++ [printBody frames false currentPage] }
  else
    let frames := vector_insert s.frames s.oldestPageIndex currentPage
    let oldestPageIndex := s.oldestPageIndex + 1
    { frames := frames
      oldestPageIndex := if oldestPageIndex = frames.size then 0 else oldestPageIndex
      numberOfPageFaults := s.numberOfPageFaults + 1
      output := s.output ++ [printBody frames true currentPage] }

/-- The state of `firstInFirstOut` after `i` iterations of its loop. -/
def fifoLoop (pages frames : vector) : Nat → FifoState
  | 0 => { frames := frames, oldestPageIndex := 0, numberOfPageFaults := 0, output := [] }
  | i + 1 => fifoBody pages (fifoLoop pages frames i) i

/-- `firstInFirstOut`: the fault counter after `pages->count` iterations. -/
def firstInFirstOut (pages frames : vector) : Nat :=
  (fifoLoop pages frames pages.count).numberOfPageFaults

/-! ## Least recently used and optimal -/

/-- The local variables of `leastRecentlyUsed` and of `optimal`, with the lines
printed so far. -/
structure ScanState where
  frames : vector
  numberOfPageFaults : Nat
  output : List Row
  deriving DecidableEq, Repr

/-- The body of the loop of `leastRecentlyUsed` at loop counter `i`.  In the
third branch `vector_insert` receives the `int` that `getFarthestReferenceBefore`
returned; when it is negative the store is outside the array and the body has no
result. -/
def lruBody (pages : vector) (indeterminate : Nat → Int) (s : ScanState) (i : Nat) :
    Option ScanState :=
  let currentPage := pageAt pages i
  if isPageInAFrame s.frames currentPage then
    some { s with output := s.output ++ [printBody s.frames false currentPage] }
  else if s.frames.count < s.frames.size then
    let frames := vector_push_back s.frames currentPage
    some { s with frames := frames, output := s.output ++ [printBody frames false currentPage] }
  else
    let resultIndex := readIndex (getFarthestReferenceBefore pages s.frames i) (indeterminate i)
    if resultIndex < 0 then none
    else
      let frames := vector_insert s.frames resultIndex.toNat currentPage
      some { frames := frames
             numberOfPageFaults := s.numberOfPageFaults + 1
             output := s.output ++ [printBody frames true currentPage] }

/-- The state of `leastRecentlyUsed` after `i` iterations of its loop. -/
def lruLoop (pages frames : vector) (indeterminate : Nat → Int) : Nat → Option ScanState
  | 0 => some { frames := frames, numberOfPageFaults := 0, output := [] }
  | i + 1 =>
    match lruLoop pages frames indeterminate i with
    | some s => lruBody pages indeterminate s i
    | none => none

/-- `leastRecentlyUsed`: the fault counter after `pages->count` iterations. -/
def leastRecentlyUsed (pages frames : vector) (indeterminate : Nat → Int) : Option Nat :=
  (lruLoop pages frames indeterminate pages.count).map (fun s => s.numberOfPageFaults)

/-- The body of the loop of `optimal` at loop counter `i`.  In the third branch
`vector_insert` receives the `int` that `getFarthestReferenceAfter` returned;
when it is negative the store is outside the array and the body has no result. -/
def optimalBody (pages : vector) (indeterminate : Nat → Int) (s : ScanState) (i : Nat) :
    Option ScanState :=
  let currentPage := pageAt pages i
  if isPageInAFrame s.frames currentPage then
    some { s with output := s.output ++ [printBody s.frames false currentPage] }
  else if s.frames.count < s.frames.size then
    let frames := vector_push_back s.frames currentPage
    some { s with frames := frames, output := s.output ++ [printBody frames false currentPage] }
  else
    let resultIndex := readIndex (getFarthestReferenceAfter pages s.frames i) (indeterminate i)
    if resultIndex < 0 then none
    else
      let frames := vector_insert s.frames resultIndex.toNat currentPage
      some { frames := frames
             numberOfPageFaults := s.numberOfPageFaults + 1
             output := s.output ++ [printBody frames true currentPage] }

/-- The state of `optimal` after `i` iterations of its loop. -/
def optimalLoop (pages frames : vector) (indeterminate : Nat → Int) : Nat → Option ScanState
  | 0 => some { frames := frames, numberOfPageFaults := 0, output := [] }
  | i + 1 =>
    match optimalLoop pages frames indeterminate i with
    | some s => optimalBody pages indeterminate s i
    | none => none

/-- `optimal`: the fault counter after `pages->count` iterations. -/
def optimal (pages frames : vector) (indeterminate : Nat → Int) : Option Nat :=
  (optimalLoop pages frames indeterminate pages.count).map (fun s => s.numberOfPageFaults)

/-! ## Clock -/

/-- The `while (useBits[index] != false)` loop of `clock`.  The first argument
bounds the number of executions of the body; the result is the bit array, the
hand and the number of executions of the body when the loop is left. -/
def clockSweep (size : Nat) : Nat → List Bool → Nat → Option (List Bool × Nat × Nat)
  | 0, useBits, index => if useBits.getD index false then none else some (useBits, index, 0)
  | fuel + 1, useBits, index =>
    if useBits.getD index false then
      let useBits := useBits.set index false
      let index := index + 1
      let index := if index = size then 0 else index
      match clockSweep size fuel useBits index with
      | some (bits, hand, steps) => some (bits, hand, steps + 1)
      | none => none
    else some (useBits, index, 0)

/-- The local variables of `clock`, with the lines printed so far. -/
structure ClockState where
  frames : vector
  useBits : List Bool
  index : Nat
  numberOfPageFaults : Nat
  output : List Row
  deriving DecidableEq, Repr

/-- The third branch of the loop body of `clock`: the sweep, the overwrite, the
use bit and the advance of the hand.  The sweep is given `size` as fuel. -/
def clockEvict (s : ClockState) (currentPage : Int) : Option ClockState :=
  match clockSweep s.frames.size s.frames.size s.useBits s.index with
  | none => none
  | some (useBits, index, _) =>
    let frames := vector_insert s.frames index currentPage
    let useBits := setUseBit useBits frames currentPage
    let index := index + 1
    some { frames := frames
           useBits := useBits
           index := if index = frames.size then 0 else index
           numberOfPageFaults := s.numberOfPageFaults + 1
           output := s.output ++ [printBody frames true currentPage] }

/-- The body of the loop of `clock` at loop counter `i`. -/
def clockBody (pages : vector) (s : ClockState) (i : Nat) : Option ClockState :=
  let currentPage := pageAt pages i
  if isPageInAFrame s.frames currentPage then
    some { s with useBits := setUseBit s.useBits s.frames currentPage
                  output := s.output ++ [printBody s.frames false currentPage] }
  else if s.frames.count < s.frames.size then
    let frames := vector_push_back s.frames currentPage
    some { s with frames := frames
                  useBits := setUseBit s.useBits frames currentPage
                  output := s.output ++ [printBody frames false currentPage] }
  else clockEvict s currentPage

/-- The state of `clock` after `i` iterations of its loop; the bit array is
allocated with `size` cells, all false. -/
def clockLoop (pages frames : vector) : Nat → Option ClockState
  | 0 => some { frames := frames, useBits := List.replicate frames.size false, index := 0,
                numberOfPageFaults := 0, output := [] }
  | i + 1 =>
    match clockLoop pages frames i with
    | some s => clockBody pages s i
    | none => none

/-- `clock`: the fault counter after `pages->count` iterations. -/
def clock (pages frames : vector) : Option Nat :=
  (clockLoop pages frames pages.count).map (fun s => s.numberOfPageFaults)

/-! ## The choice of the policy -/

/-- A frames vector of capacity `C` in good shape: `size` is `C`, `C` cells are
allocated, at most `C` are occupied and the occupied cells are pairwise distinct. -/
def FramesOk (C : Nat) (f : vector) : Prop :=
  f.size = C ∧ f.array.length = C ∧ f.count ≤ C ∧ (resident f).Nodup

/-- The three branches every driver shares: a hit, a load into free capacity,
and an overwrite through `vector_insert` that is counted as a fault. -/
def Step (pages : vector) (i : Nat) (s t : ScanState) : Prop :=
  (pageAt pages i ∈ resident s.frames ∧ t.frames = s.frames ∧
      t.numberOfPageFaults = s.numberOfPageFaults ∧
      t.output = s.output ++ [printBody s.frames false (pageAt pages i)]) ∨
  (pageAt pages i ∉ resident s.frames ∧ s.frames.count < s.frames.size ∧
      t.frames = vector_push_back s.frames (pageAt pages i) ∧
      t.numberOfPageFaults = s.numberOfPageFaults ∧
      t.output = s.output ++ [printBody t.frames false (pageAt pages i)]) ∨
  (pageAt pages i ∉ resident s.frames ∧ ¬ s.frames.count < s.frames.size ∧
      (∃ idx : Nat, t.frames = vector_insert s.frames idx (pageAt pages i)) ∧
      t.numberOfPageFaults = s.numberOfPageFaults + 1 ∧
      t.output = s.output ++ [printBody t.frames true (pageAt pages i)])

/-- A sequence of states that starts from `frames` with no fault and no line
printed, and advances by `Step`. -/
structure IsRun (pages frames : vector) (v : Nat → ScanState) : Prop where
  start : v 0 = { frames := frames, numberOfPageFaults := 0, output := [] }
  step : ∀ i, Step pages i (v i) (v (i + 1))

/-- The frames, the counter and the lines of a `firstInFirstOut` state. -/
def FifoState.view (s : FifoState) : ScanState :=
  { frames := s.frames, numberOfPageFaults := s.numberOfPageFaults, output := s.output }

/-- The frames, the counter and the lines of a `clock` state. -/
def ClockState.view (s : ClockState) : ScanState :=
  { frames := s.frames, numberOfPageFaults := s.numberOfPageFaults, output := s.output }

/-- The frames, the counter and the lines of `leastRecentlyUsed` after `i`
iterations; the initial ones when the driver has no state after `i` iterations,
a store outside the array having been reached. -/
def lruView (pages frames : vector) (u : Nat → Int) (i : Nat) : ScanState :=
  match lruLoop pages frames u i with
  | some s => s
  | none => { frames := frames, numberOfPageFaults := 0, output := [] }

/-- The frames, the counter and the lines of `optimal` after `i` iterations; the
initial ones when the driver has no state after `i` iterations, a store outside
the array having been reached. -/
def optimalView (pages frames : vector) (u : Nat → Int) (i : Nat) : ScanState :=
  match optimalLoop pages frames u i with
  | some s => s
  | none => { frames := frames, numberOfPageFaults := 0, output := [] }

/-- The indeterminate values, with 0 in the place of every negative one. -/
def clamped (u : Nat → Int) : Nat → Int :=
  fun k => ((u k).toNat : Int)

/-- The state of `clock` in good shape: the frames are, there is one use bit per
frame and the hand points at a frame. -/
def ClockOk (C : Nat) (s : ClockState) : Prop :=
  FramesOk C s.frames ∧ s.useBits.length = C ∧ s.index < C

/-- The frames, the counter and the lines of `clock` after `i` iterations. -/
def clockView (pages frames : vector) (i : Nat) : ScanState :=
  match clockLoop pages frames i with
  | some s => s.view
  | none => { frames := frames, numberOfPageFaults := 0, output := [] }

/-- A run of a demand-paging policy with `C` frames over the references `σ`, from
the set `S` of resident pages, with `n` overwrites.  A resident page is a hit, a
page that is not resident is loaded into free capacity when there is some, and
otherwise replaces a victim `x` that `choice` allows for the references left. -/
inductive Paging (C : Nat) (choice : Finset Int → List Int → Int → Prop) :
    Finset Int → List Int → Nat → Prop
  | done (S : Finset Int) : Paging C choice S [] 0
  | hit {S : Finset Int} {r : Int} {σ : List Int} {n : Nat} :
      r ∈ S → Paging C choice S σ n → Paging C choice S (r :: σ) n
  | load {S : Finset Int} {r : Int} {σ : List Int} {n : Nat} :
      r ∉ S → S.card < C → Paging C choice (insert r S) σ n → Paging C choice S (r :: σ) n
  | evict {S : Finset Int} {r : Int} {σ : List Int} {n : Nat} (x : Int) :
      r ∉ S → ¬ S.card < C → x ∈ S → choice S σ x →
      Paging C choice (insert r (S.erase x)) σ n → Paging C choice S (r :: σ) (n + 1)

/-- Every resident page may be the victim. -/
def anyVictim : Finset Int → List Int → Int → Prop :=
  fun _ _ _ => True

/-- The victim is a page whose next reference is not before that of any other
resident page; a page that is never referenced again counts as referenced last. -/
def farthestVictim : Finset Int → List Int → Int → Prop :=
  fun S σ x => ∀ y ∈ S, σ.indexOf y ≤ σ.indexOf x

/-- The references `k .. pages->count - 1`, in order. -/
def suffixFrom (pages : vector) (k : Nat) : List Int :=
  (List.range (pages.count - k)).map (fun d => pageAt pages (k + d))

/-- The number of distinct page identifiers among the first `n` references. -/
def distinctPages (pages : vector) (n : Nat) : Nat :=
  ((List.range n).map (pageAt pages)).toFinset.card

/-- The slot in which `firstInFirstOut` stores the page at loop counter `i`:
none on a hit, the first free slot on a load into free capacity, the slot under
the cursor on a counted fault. -/
def fifoStoreSlot (pages frames : vector) (i : Nat) : Option Nat :=
  if isPageInAFrame (fifoLoop pages frames i).frames (pageAt pages i) then none
  else if (fifoLoop pages frames i).frames.count < (fifoLoop pages frames i).frames.size then
    some (fifoLoop pages frames i).frames.count
  else some (fifoLoop pages frames i).oldestPageIndex

/-- The most recent loop counter before `k` at which `firstInFirstOut` stored a
page in `slot`. -/
def fifoLoadedAt (pages frames : vector) (slot : Nat) : Nat → Option Nat
  | 0 => none
  | k + 1 =>
    if fifoStoreSlot pages frames k = some slot then some k
    else fifoLoadedAt pages frames slot k

/-- Slot `a` comes before slot `b` in the cyclic order that starts at `o`. -/
def cyclicBefore (o a b : Nat) : Prop :=
  (o ≤ a ∧ a < b) ∨ (a < b ∧ b < o) ∨ (o ≤ a ∧ b < o)

theorem emptyFrames_eq (C : Nat) :
    emptyFrames C = { array := List.replicate C 0, size := C, count := 0 } := by
  simp [emptyFrames, vector_reserve, vector_construct]

theorem framesOk_empty (C : Nat) : FramesOk C (emptyFrames C) := by
  simp [emptyFrames_eq, FramesOk, resident]

theorem isPageInAFrame_iff (f : vector) (p : Int) :
    isPageInAFrame f p = true ↔ p ∈ resident f := by
  simp [isPageInAFrame, List.any_eq_true]

theorem resident_length {C : Nat} {f : vector} (h : FramesOk C f) :
    (resident f).length = f.count := by
  obtain ⟨_, h2, h3, _⟩ := h
  simp [resident, List.length_take]; omega

/-- With free capacity `vector_push_back` takes neither its allocation branch
nor its doubling branch. -/
theorem vector_push_back_of_lt {f : vector} (h : f.count < f.size) (p : Int) :
    vector_push_back f p =
      { array := f.array.set f.count p, size := f.size, count := f.count + 1 } := by
  have h0 : f.size ≠ 0 := by omega
  have h1 : f.size ≠ f.count := by omega
  simp [vector_push_back, h0, h1]

theorem resident_push_back {C : Nat} {f : vector} (hf : FramesOk C f) (h : f.count < f.size)
    (p : Int) : resident (vector_push_back f p) = resident f ++ [p] := by
  obtain ⟨h1, h2, h3, _⟩ := hf
  rw [vector_push_back_of_lt h]
  have hlt : f.count < f.array.length := by omega
  simp only [resident]
  rw [List.take_succ, List.set_take]
  have : (List.take f.count f.array).set f.count p = List.take f.count f.array := by
    apply List.set_eq_of_length_le
    simp
  rw [this]
  simp [hlt]

theorem framesOk_push_back {C : Nat} {f : vector} (hf : FramesOk C f) (h : f.count < f.size)
    {p : Int} (hp : p ∉ resident f) : FramesOk C (vector_push_back f p) := by
  have hr := resident_push_back hf h p
  obtain ⟨h1, h2, h3, h4⟩ := hf
  refine ⟨?_, ?_, ?_, ?_⟩
  · rw [vector_push_back_of_lt h]; exact h1
  · rw [vector_push_back_of_lt h]; simpa using h2
  · rw [vector_push_back_of_lt h]; simp only; omega
  · rw [hr]
    exact List.Nodup.append h4 (List.nodup_singleton p) (by simpa using hp)

theorem vector_insert_size (f : vector) (idx : Nat) (p : Int) :
    (vector_insert f idx p).size = f.size := by
  unfold vector_insert; split_ifs <;> rfl

theorem vector_insert_count (f : vector) (idx : Nat) (p : Int) :
    (vector_insert f idx p).count = f.count := by
  unfold vector_insert; split_ifs <;> rfl

theorem vector_insert_length (f : vector) (idx : Nat) (p : Int) :
    (vector_insert f idx p).array.length = f.array.length := by
  unfold vector_insert; split_ifs <;> simp

/-- An in-range `vector_insert` overwrites one cell. -/
theorem vector_insert_of_lt {f : vector} {n : Nat} (h : n < f.count) (p : Int) :
    vector_insert f n p =
      { array := f.array.set n p, size := f.size, count := f.count } := by
  have h1 : ¬ (n ≥ f.count) := by omega
  simp [vector_insert, h1]

/-- What `vector_insert` does to the occupied prefix, for every index. -/
theorem resident_vector_insert (f : vector) (idx : Nat) (p : Int) :
    resident (vector_insert f idx p) = resident f ∨
      ∃ n : Nat, n < f.count ∧ idx = n ∧
        resident (vector_insert f idx p) = (resident f).set n p := by
  unfold vector_insert
  split_ifs with h1
  · exact Or.inl rfl
  · right
    refine ⟨idx, by omega, rfl, ?_⟩
    simp [resident, List.set_take]

theorem framesOk_vector_insert {C : Nat} {f : vector} (hf : FramesOk C f) (idx : Nat) {p : Int}
    (hp : p ∉ resident f) : FramesOk C (vector_insert f idx p) := by
  obtain ⟨h1, h2, h3, h4⟩ := hf
  refine ⟨by rw [vector_insert_size]; exact h1, by rw [vector_insert_length]; exact h2,
    by rw [vector_insert_count]; exact h3, ?_⟩
  rcases resident_vector_insert f idx p with h | ⟨n, _, _, h⟩
  · rw [h]; exact h4
  · rw [h]; exact List.Nodup.set h4 hp

/-! ## One iteration, seen on the frames, the counter and the printed lines -/

theorem step_framesOk {pages : vector} {i C : Nat} {s t : ScanState}
    (h : Step pages i s t) (hs : FramesOk C s.frames) : FramesOk C t.frames := by
  rcases h with ⟨_, hf, _, _⟩ | ⟨hp, hlt, hf, _, _⟩ | ⟨hp, _, ⟨idx, hf⟩, _, _⟩
  · rw [hf]; exact hs
  · rw [hf]; exact framesOk_push_back hs hlt hp
  · rw [hf]; exact framesOk_vector_insert hs idx hp

theorem step_count_le {pages : vector} {i : Nat} {s t : ScanState}
    (h : Step pages i s t) : s.frames.count ≤ t.frames.count := by
  rcases h with ⟨_, hf, _, _⟩ | ⟨hp, hlt, hf, _, _⟩ | ⟨hp, _, ⟨idx, hf⟩, _, _⟩
  · rw [hf]
  · rw [hf, vector_push_back_of_lt hlt]; simp
  · rw [hf, vector_insert_count]

theorem step_output_eq {pages : vector} {i : Nat} {s t : ScanState}
    (h : Step pages i s t) : ∃ row, t.output = s.output ++ [row] := by
  rcases h with ⟨_, _, _, ho⟩ | ⟨_, _, _, _, ho⟩ | ⟨_, _, _, _, ho⟩ <;> exact ⟨_, ho⟩

theorem step_faults_le {pages : vector} {i : Nat} {s t : ScanState}
    (h : Step pages i s t) : s.numberOfPageFaults ≤ t.numberOfPageFaults := by
  rcases h with ⟨_, _, hn, _⟩ | ⟨_, _, _, hn, _⟩ | ⟨_, _, _, hn, _⟩ <;> omega

theorem isRun_framesOk {pages : vector} {C : Nat} {v : Nat → ScanState}
    (h : IsRun pages (emptyFrames C) v) (i : Nat) : FramesOk C (v i).frames := by
  induction i with
  | zero => rw [h.start]; exact framesOk_empty C
  | succ i ih => exact step_framesOk (h.step i) ih

theorem isRun_count_mono {pages frames : vector} {v : Nat → ScanState}
    (h : IsRun pages frames v) {i j : Nat} (hij : i ≤ j) :
    (v i).frames.count ≤ (v j).frames.count := by
  induction j, hij using Nat.le_induction with
  | base => exact le_rfl
  | succ j _ ih => exact le_trans ih (step_count_le (h.step j))

/-- Once the frames are full the occupancy stays at the capacity. -/
theorem isRun_full_stays {pages : vector} {C : Nat} {v : Nat → ScanState}
    (h : IsRun pages (emptyFrames C) v) {i j : Nat} (hij : i ≤ j)
    (hfull : (v i).frames.count = C) : (v j).frames.count = C := by
  have h1 := isRun_count_mono h hij
  have h2 := (isRun_framesOk h j).2.2.1
  omega

theorem isRun_output_length {pages frames : vector} {v : Nat → ScanState}
    (h : IsRun pages frames v) (i : Nat) : (v i).output.length = i := by
  induction i with
  | zero => rw [h.start]; rfl
  | succ i ih =>
    obtain ⟨row, hrow⟩ := step_output_eq (h.step i)
    rw [hrow]; simp [ih]

theorem isRun_output_prefix {pages frames : vector} {v : Nat → ScanState}
    (h : IsRun pages frames v) {i j : Nat} (hij : i ≤ j) :
    (v i).output <+: (v j).output := by
  induction j, hij using Nat.le_induction with
  | base => exact List.prefix_refl _
  | succ j _ ih =>
    obtain ⟨row, hrow⟩ := step_output_eq (h.step j)
    rw [hrow]
    exact ih.trans (List.prefix_append _ _)

/-! ## The drivers advance by `Step` -/

theorem fifoBody_step (pages : vector) (s : FifoState) (i : Nat) :
    Step pages i s.view (fifoBody pages s i).view := by
  cases h1 : isPageInAFrame s.frames (pageAt pages i)
  · have h1' : pageAt pages i ∉ resident s.frames := by
      rw [← isPageInAFrame_iff, h1]; simp
    by_cases h2 : s.frames.count < s.frames.size
    · refine Or.inr (Or.inl ⟨h1', h2, ?_, ?_, ?_⟩) <;> simp [fifoBody, h1, h2, FifoState.view]
    · refine Or.inr (Or.inr ⟨h1', h2, ⟨s.oldestPageIndex, ?_⟩, ?_, ?_⟩) <;> simp [fifoBody, h1, h2, FifoState.view]
  · refine Or.inl ⟨(isPageInAFrame_iff _ _).1 h1, ?_, ?_, ?_⟩ <;> simp [fifoBody, h1, FifoState.view]

theorem fifo_isRun (pages frames : vector) :
    IsRun pages frames (fun i => (fifoLoop pages frames i).view) :=
  { start := rfl
    step := fun i => fifoBody_step pages (fifoLoop pages frames i) i }

theorem clamped_nonneg (u : Nat → Int) (k : Nat) : 0 ≤ clamped u k :=
  Int.ofNat_nonneg _

theorem clamped_of_nonneg {u : Nat → Int} {k : Nat} (h : 0 ≤ u k) : clamped u k = u k :=
  Int.toNat_of_nonneg h

theorem readIndex_nonneg (r : Option Nat) {x : Int} (h : 0 ≤ x) : 0 ≤ readIndex r x := by
  cases r with
  | none => exact h
  | some n => exact Int.ofNat_nonneg n

theorem lruBody_some_iff {pages : vector} {u : Nat → Int} {s t : ScanState} {i : Nat} :
    lruBody pages u s i = some t ↔
      (isPageInAFrame s.frames (pageAt pages i) = true ∧
        t = { s with output := s.output ++ [printBody s.frames false (pageAt pages i)] }) ∨
      (isPageInAFrame s.frames (pageAt pages i) = false ∧ s.frames.count < s.frames.size ∧
        t = { s with frames := vector_push_back s.frames (pageAt pages i)
                     output := s.output ++
                       [printBody (vector_push_back s.frames (pageAt pages i)) false
                         (pageAt pages i)] }) ∨
      (isPageInAFrame s.frames (pageAt pages i) = false ∧ ¬ s.frames.count < s.frames.size ∧
        0 ≤ readIndex (getFarthestReferenceBefore pages s.frames i) (u i) ∧
        t = { frames := vector_insert s.frames
                (readIndex (getFarthestReferenceBefore pages s.frames i) (u i)).toNat
                (pageAt pages i)
              numberOfPageFaults := s.numberOfPageFaults + 1
              output := s.output ++
                [printBody (vector_insert s.frames
                  (readIndex (getFarthestReferenceBefore pages s.frames i) (u i)).toNat
                  (pageAt pages i)) true (pageAt pages i)] }) := by
  cases h1 : isPageInAFrame s.frames (pageAt pages i)
  · by_cases h2 : s.frames.count < s.frames.size
    · simp [lruBody, h1, h2, eq_comm]
    · by_cases h3 : readIndex (getFarthestReferenceBefore pages s.frames i) (u i) < 0
      · simp [lruBody, h1, h2, h3]
      · simp [lruBody, h1, h2, h3, eq_comm, not_lt.1 h3]
  · simp [lruBody, h1, eq_comm]

theorem optimalBody_some_iff {pages : vector} {u : Nat → Int} {s t : ScanState} {i : Nat} :
    optimalBody pages u s i = some t ↔
      (isPageInAFrame s.frames (pageAt pages i) = true ∧
        t = { s with output := s.output ++ [printBody s.frames false (pageAt pages i)] }) ∨
      (isPageInAFrame s.frames (pageAt pages i) = false ∧ s.frames.count < s.frames.size ∧
        t = { s with frames := vector_push_back s.frames (pageAt pages i)
                     output := s.output ++
                       [printBody (vector_push_back s.frames (pageAt pages i)) false
                         (pageAt pages i)] }) ∨
      (isPageInAFrame s.frames (pageAt pages i) = false ∧ ¬ s.frames.count < s.frames.size ∧
        0 ≤ readIndex (getFarthestReferenceAfter pages s.frames i) (u i) ∧
        t = { frames := vector_insert s.frames
                (readIndex (getFarthestReferenceAfter pages s.frames i) (u i)).toNat
                (pageAt pages i)
              numberOfPageFaults := s.numberOfPageFaults + 1
              output := s.output ++
                [printBody (vector_insert s.frames
                  (readIndex (getFarthestReferenceAfter pages s.frames i) (u i)).toNat
                  (pageAt pages i)) true (pageAt pages i)] }) := by
  cases h1 : isPageInAFrame s.frames (pageAt pages i)
  · by_cases h2 : s.frames.count < s.frames.size
    · simp [optimalBody, h1, h2, eq_comm]
    · by_cases h3 : readIndex (getFarthestReferenceAfter pages s.frames i) (u i) < 0
      · simp [optimalBody, h1, h2, h3]
      · simp [optimalBody, h1, h2, h3, eq_comm, not_lt.1 h3]
  · simp [optimalBody, h1, eq_comm]

theorem lruBody_step {pages : vector} {u : Nat → Int} {s t : ScanState} {i : Nat}
    (h : lruBody pages u s i = some t) : Step pages i s t := by
  rcases lruBody_some_iff.1 h with ⟨h1, ht⟩ | ⟨h1, h2, ht⟩ | ⟨h1, h2, _, ht⟩
  · subst ht
    exact Or.inl ⟨(isPageInAFrame_iff _ _).1 h1, rfl, rfl, rfl⟩
  · subst ht
    exact Or.inr (Or.inl ⟨by rw [← isPageInAFrame_iff, h1]; simp, h2, rfl, rfl, rfl⟩)
  · subst ht
    exact Or.inr (Or.inr ⟨by rw [← isPageInAFrame_iff, h1]; simp, h2, ⟨_, rfl⟩, rfl, rfl⟩)

theorem optimalBody_step {pages : vector} {u : Nat → Int} {s t : ScanState} {i : Nat}
    (h : optimalBody pages u s i = some t) : Step pages i s t := by
  rcases optimalBody_some_iff.1 h with ⟨h1, ht⟩ | ⟨h1, h2, ht⟩ | ⟨h1, h2, _, ht⟩
  · subst ht
    exact Or.inl ⟨(isPageInAFrame_iff _ _).1 h1, rfl, rfl, rfl⟩
  · subst ht
    exact Or.inr (Or.inl ⟨by rw [← isPageInAFrame_iff, h1]; simp, h2, rfl, rfl, rfl⟩)
  · subst ht
    exact Or.inr (Or.inr ⟨by rw [← isPageInAFrame_iff, h1]; simp, h2, ⟨_, rfl⟩, rfl, rfl⟩)

/-- An iteration of `leastRecentlyUsed` has a result when the value read for an
unassigned index is not negative. -/
theorem lruBody_defined (pages : vector) {u : Nat → Int} (s : ScanState) {i : Nat}
    (hu : 0 ≤ u i) : ∃ t, lruBody pages u s i = some t := by
  cases h1 : isPageInAFrame s.frames (pageAt pages i)
  · by_cases h2 : s.frames.count < s.frames.size
    · exact ⟨_, lruBody_some_iff.2 (Or.inr (Or.inl ⟨h1, h2, rfl⟩))⟩
    · exact ⟨_, lruBody_some_iff.2 (Or.inr (Or.inr ⟨h1, h2, readIndex_nonneg _ hu, rfl⟩))⟩
  · exact ⟨_, lruBody_some_iff.2 (Or.inl ⟨h1, rfl⟩)⟩

theorem optimalBody_defined (pages : vector) {u : Nat → Int} (s : ScanState) {i : Nat}
    (hu : 0 ≤ u i) : ∃ t, optimalBody pages u s i = some t := by
  cases h1 : isPageInAFrame s.frames (pageAt pages i)
  · by_cases h2 : s.frames.count < s.frames.size
    · exact ⟨_, optimalBody_some_iff.2 (Or.inr (Or.inl ⟨h1, h2, rfl⟩))⟩
    · exact ⟨_, optimalBody_some_iff.2 (Or.inr (Or.inr ⟨h1, h2, readIndex_nonneg _ hu, rfl⟩))⟩
  · exact ⟨_, optimalBody_some_iff.2 (Or.inl ⟨h1, rfl⟩)⟩

theorem lruLoop_succ_some {pages frames : vector} {u : Nat → Int} {i : Nat} {t : ScanState}
    (h : lruLoop pages frames u (i + 1) = some t) :
    ∃ s, lruLoop pages frames u i = some s ∧ lruBody pages u s i = some t := by
  simp only [lruLoop] at h
  cases hs : lruLoop pages frames u i with
  | none => rw [hs] at h; exact absurd h (by simp)
  | some s => rw [hs] at h; exact ⟨s, rfl, h⟩

theorem optimalLoop_succ_some {pages frames : vector} {u : Nat → Int} {i : Nat} {t : ScanState}
    (h : optimalLoop pages frames u (i + 1) = some t) :
    ∃ s, optimalLoop pages frames u i = some s ∧ optimalBody pages u s i = some t := by
  simp only [optimalLoop] at h
  cases hs : optimalLoop pages frames u i with
  | none => rw [hs] at h; exact absurd h (by simp)
  | some s => rw [hs] at h; exact ⟨s, rfl, h⟩

theorem lruLoop_succ_of_some {pages frames : vector} {u : Nat → Int} {i : Nat} {s : ScanState}
    (h : lruLoop pages frames u i = some s) :
    lruLoop pages frames u (i + 1) = lruBody pages u s i := by
  simp only [lruLoop, h]

theorem optimalLoop_succ_of_some {pages frames : vector} {u : Nat → Int} {i : Nat}
    {s : ScanState} (h : optimalLoop pages frames u i = some s) :
    optimalLoop pages frames u (i + 1) = optimalBody pages u s i := by
  simp only [optimalLoop, h]

theorem optimalLoop_some_of_le {pages frames : vector} {u : Nat → Int} {i j : Nat}
    (hij : i ≤ j) {t : ScanState} (h : optimalLoop pages frames u j = some t) :
    ∃ s, optimalLoop pages frames u i = some s := by
  induction j, hij using Nat.le_induction generalizing t with
  | base => exact ⟨t, h⟩
  | succ j _ ih =>
    obtain ⟨s, hs, _⟩ := optimalLoop_succ_some h
    exact ih hs

/-- When no value read for an unassigned index is negative, `leastRecentlyUsed`
has a state after every number of iterations. -/
theorem lruLoop_defined (pages frames : vector) {u : Nat → Int} (hu : ∀ k, 0 ≤ u k) (i : Nat) :
    ∃ s, lruLoop pages frames u i = some s := by
  induction i with
  | zero => exact ⟨_, rfl⟩
  | succ i ih =>
    obtain ⟨s, hs⟩ := ih
    obtain ⟨t, ht⟩ := lruBody_defined pages s (hu i)
    exact ⟨t, by rw [lruLoop_succ_of_some hs, ht]⟩

theorem optimalLoop_defined (pages frames : vector) {u : Nat → Int} (hu : ∀ k, 0 ≤ u k)
    (i : Nat) : ∃ s, optimalLoop pages frames u i = some s := by
  induction i with
  | zero => exact ⟨_, rfl⟩
  | succ i ih =>
    obtain ⟨s, hs⟩ := ih
    obtain ⟨t, ht⟩ := optimalBody_defined pages s (hu i)
    exact ⟨t, by rw [optimalLoop_succ_of_some hs, ht]⟩

theorem lruView_eq {pages frames : vector} {u : Nat → Int} {i : Nat} {s : ScanState}
    (h : lruLoop pages frames u i = some s) : lruView pages frames u i = s := by
  simp [lruView, h]

theorem optimalView_eq {pages frames : vector} {u : Nat → Int} {i : Nat} {s : ScanState}
    (h : optimalLoop pages frames u i = some s) : optimalView pages frames u i = s := by
  simp [optimalView, h]

theorem lruLoop_eq_view (pages frames : vector) {u : Nat → Int} (hu : ∀ k, 0 ≤ u k) (i : Nat) :
    lruLoop pages frames u i = some (lruView pages frames u i) := by
  obtain ⟨s, hs⟩ := lruLoop_defined pages frames hu i
  rw [lruView_eq hs, hs]

theorem optimalLoop_eq_view (pages frames : vector) {u : Nat → Int} (hu : ∀ k, 0 ≤ u k)
    (i : Nat) : optimalLoop pages frames u i = some (optimalView pages frames u i) := by
  obtain ⟨s, hs⟩ := optimalLoop_defined pages frames hu i
  rw [optimalView_eq hs, hs]

theorem lruView_succ (pages frames : vector) {u : Nat → Int} (hu : ∀ k, 0 ≤ u k) (i : Nat) :
    lruBody pages u (lruView pages frames u i) i = some (lruView pages frames u (i + 1)) := by
  rw [← lruLoop_succ_of_some (lruLoop_eq_view pages frames hu i)]
  exact lruLoop_eq_view pages frames hu (i + 1)

theorem optimalView_succ (pages frames : vector) {u : Nat → Int} (hu : ∀ k, 0 ≤ u k)
    (i : Nat) :
    optimalBody pages u (optimalView pages frames u i) i =
      some (optimalView pages frames u (i + 1)) := by
  rw [← optimalLoop_succ_of_some (optimalLoop_eq_view pages frames hu i)]
  exact optimalLoop_eq_view pages frames hu (i + 1)

theorem lru_isRun (pages frames : vector) {u : Nat → Int} (hu : ∀ k, 0 ≤ u k) :
    IsRun pages frames (lruView pages frames u) :=
  { start := rfl
    step := fun i => lruBody_step (lruView_succ pages frames hu i) }

theorem optimal_isRun (pages frames : vector) {u : Nat → Int} (hu : ∀ k, 0 ≤ u k) :
    IsRun pages frames (optimalView pages frames u) :=
  { start := rfl
    step := fun i => optimalBody_step (optimalView_succ pages frames hu i) }

/-- An iteration that has a result has the same result when every negative
indeterminate value is replaced by 0: a negative value is never the index of a
store that is made. -/
theorem lruBody_clamped {pages : vector} {u : Nat → Int} {s t : ScanState} {i : Nat}
    (h : lruBody pages u s i = some t) : lruBody pages (clamped u) s i = some t := by
  rcases lruBody_some_iff.1 h with ⟨h1, ht⟩ | ⟨h1, h2, ht⟩ | ⟨h1, h2, h3, ht⟩
  · exact lruBody_some_iff.2 (Or.inl ⟨h1, ht⟩)
  · exact lruBody_some_iff.2 (Or.inr (Or.inl ⟨h1, h2, ht⟩))
  · have he : readIndex (getFarthestReferenceBefore pages s.frames i) (clamped u i) =
        readIndex (getFarthestReferenceBefore pages s.frames i) (u i) := by
      cases hr : getFarthestReferenceBefore pages s.frames i with
      | some r => rfl
      | none =>
        rw [hr] at h3
        exact clamped_of_nonneg h3
    exact lruBody_some_iff.2 (Or.inr (Or.inr ⟨h1, h2, by rw [he]; exact h3, by rw [he]; exact ht⟩))

theorem optimalBody_clamped {pages : vector} {u : Nat → Int} {s t : ScanState} {i : Nat}
    (h : optimalBody pages u s i = some t) : optimalBody pages (clamped u) s i = some t := by
  rcases optimalBody_some_iff.1 h with ⟨h1, ht⟩ | ⟨h1, h2, ht⟩ | ⟨h1, h2, h3, ht⟩
  · exact optimalBody_some_iff.2 (Or.inl ⟨h1, ht⟩)
  · exact optimalBody_some_iff.2 (Or.inr (Or.inl ⟨h1, h2, ht⟩))
  · have he : readIndex (getFarthestReferenceAfter pages s.frames i) (clamped u i) =
        readIndex (getFarthestReferenceAfter pages s.frames i) (u i) := by
      cases hr : getFarthestReferenceAfter pages s.frames i with
      | some r => rfl
      | none =>
        rw [hr] at h3
        exact clamped_of_nonneg h3
    exact optimalBody_some_iff.2
      (Or.inr (Or.inr ⟨h1, h2, by rw [he]; exact h3, by rw [he]; exact ht⟩))

/-- Every state `leastRecentlyUsed` reaches is a state of the run in which the
negative indeterminate values are replaced by 0, and that run never stops. -/
theorem lruLoop_clamped {pages frames : vector} {u : Nat → Int} {i : Nat} {s : ScanState}
    (h : lruLoop pages frames u i = some s) : lruView pages frames (clamped u) i = s := by
  apply lruView_eq
  induction i generalizing s with
  | zero => exact h
  | succ i ih =>
    obtain ⟨s0, hs0, hb⟩ := lruLoop_succ_some h
    rw [lruLoop_succ_of_some (ih hs0)]
    exact lruBody_clamped hb

theorem optimalLoop_clamped {pages frames : vector} {u : Nat → Int} {i : Nat} {s : ScanState}
    (h : optimalLoop pages frames u i = some s) :
    optimalView pages frames (clamped u) i = s := by
  apply optimalView_eq
  induction i generalizing s with
  | zero => exact h
  | succ i ih =>
    obtain ⟨s0, hs0, hb⟩ := optimalLoop_succ_some h
    rw [optimalLoop_succ_of_some (ih hs0)]
    exact optimalBody_clamped hb

/-! ## The sweep of the clock hand -/

theorem advance_eq_mod {size i : Nat} (h : i < size) :
    (if i + 1 = size then 0 else i + 1) = (i + 1) % size := by
  split_ifs with h1
  · rw [h1, Nat.mod_self]
  · rw [Nat.mod_eq_of_lt (by omega)]

theorem add_mod_ne_self {size i d : Nat} (h : i < size) (h0 : 0 < d) (hd : d < size) :
    (i + d) % size ≠ i := by
  by_cases hlt : i + d < size
  · rw [Nat.mod_eq_of_lt hlt]; omega
  · have : (i + d) % size = i + d - size := by
      rw [Nat.mod_eq_sub_mod (by omega), Nat.mod_eq_of_lt (by omega)]
    omega

theorem count_true_set_false {bits : List Bool} {i : Nat} (h : bits.getD i false = true) :
    (bits.set i false).count true + 1 = bits.count true := by
  induction bits generalizing i with
  | nil => simp at h
  | cons b rest ih =>
    cases i with
    | zero =>
      simp at h
      subst h
      simp
    | succ i =>
      simp at h
      have := ih (i := i) (by simpa using h)
      cases b <;> simp [List.count_cons] <;> omega

theorem getD_true_lt {bits : List Bool} {i : Nat} (h : bits.getD i false = true) :
    i < bits.length := by
  by_contra hlt
  rw [List.getD_eq_default _ _ (by omega)] at h
  exact Bool.false_ne_true h

/-- The sweep with enough fuel: it stops after `k` executions of its body at
slot `(index + k) % size`, having passed over `k` set bits and cleared them. -/
theorem clockSweep_spec (size : Nat) :
    ∀ (fuel : Nat) (useBits : List Bool) (index : Nat),
      useBits.length = size → index < size → useBits.count true ≤ fuel →
      ∃ (bits : List Bool) (k : Nat),
        clockSweep size fuel useBits index = some (bits, (index + k) % size, k) ∧
        bits.length = size ∧
        bits.count true + k = useBits.count true ∧
        (∀ t, t < k → useBits.getD ((index + t) % size) false = true) ∧
        useBits.getD ((index + k) % size) false = (decide (k = size)) ∧
        (∀ slot, slot < size →
          bits.getD slot false =
            if ∃ t, t < k ∧ (index + t) % size = slot then false else useBits.getD slot false) := by
  intro fuel
  induction fuel with
  | zero =>
    intro useBits index hlen hidx hcount
    have hall : ∀ b ∈ useBits, b ≠ true := by
      intro b hb
      have := List.count_eq_zero.1 (Nat.le_zero.1 hcount)
      intro hbt; subst hbt; exact this hb
    have hfalse : useBits.getD index false = false := by
      rw [List.getD_eq_getElem _ _ (by omega)]
      have := hall _ (List.getElem_mem (h := (by omega : index < useBits.length)))
      simpa using this
    refine ⟨useBits, 0, ?_, hlen, by simp, by simp, ?_, ?_⟩
    · simp [clockSweep, hfalse, Nat.mod_eq_of_lt hidx, -List.getD_eq_getElem?_getD]
    · have : ¬ (0 = size) := by omega
      simp [Nat.mod_eq_of_lt hidx, hfalse, this, -List.getD_eq_getElem?_getD]
    · intro slot _; simp
  | succ fuel ih =>
    intro useBits index hlen hidx hcount
    cases hbit : useBits.getD index false with
    | false =>
      refine ⟨useBits, 0, ?_, hlen, by simp, by simp, ?_, ?_⟩
      · simp [clockSweep, hbit, Nat.mod_eq_of_lt hidx, -List.getD_eq_getElem?_getD]
      · have : ¬ (0 = size) := by omega
        simp [Nat.mod_eq_of_lt hidx, hbit, this, -List.getD_eq_getElem?_getD]
      · intro slot _; simp
    | true =>
      have hcnt := count_true_set_false hbit
      have hnext : (if index + 1 = size then 0 else index + 1) < size := by
        split_ifs <;> omega
      obtain ⟨bits, k, hrun, hblen, hbcount, htrue, hstop, hbits⟩ :=
        ih (useBits.set index false) (if index + 1 = size then 0 else index + 1)
          (by simpa using hlen) hnext (by omega)
      rw [advance_eq_mod hidx] at hrun htrue hstop hbits
      have hpos : ∀ t, ((index + 1) % size + t) % size = (index + (t + 1)) % size := by
        intro t
        rw [Nat.mod_add_mod]; congr 1; omega
      simp only [hpos] at hrun htrue hstop hbits
      have hk : k + 1 ≤ size := by
        have : useBits.count true ≤ useBits.length := List.count_le_length _ _
        omega
      have hset : ∀ slot, (useBits.set index false).getD slot false =
          if slot = index then false else useBits.getD slot false := by
        intro slot
        by_cases hs : slot = index
        · subst hs
          simp only [List.getD_eq_getElem?_getD, List.getElem?_set, if_true]
          split_ifs <;> rfl
        · simp [List.getD_eq_getElem?_getD, List.getElem?_set, hs, Ne.symm hs]
      refine ⟨bits, k + 1, ?_, hblen, by omega, ?_, ?_, ?_⟩
      · simp only [clockSweep, hbit, if_true, advance_eq_mod hidx, hrun]
      · intro t ht
        cases t with
        | zero => simpa [Nat.mod_eq_of_lt hidx, -List.getD_eq_getElem?_getD] using hbit
        | succ t =>
          have h1 := htrue t (by omega)
          rw [hset] at h1
          split_ifs at h1 with h2
          · exact h1
      · rw [hset] at hstop
        by_cases hks : k + 1 = size
        · simp only [hks, decide_True]
          rw [Nat.add_mod_right, Nat.mod_eq_of_lt hidx]; exact hbit
        · have hne := add_mod_ne_self hidx (Nat.succ_pos k) (by omega : k + 1 < size)
          have hk' : ¬ (k = size) := by omega
          simp only [hne, if_false, hk', decide_False] at hstop
          simp only [hks, decide_False]
          exact hstop
      · intro slot hslot
        rw [hbits slot hslot, hset]
        by_cases h1 : ∃ t, t < k ∧ (index + (t + 1)) % size = slot
        · obtain ⟨t, ht, hts⟩ := h1
          have h2 : ∃ t, t < k + 1 ∧ (index + t) % size = slot := ⟨t + 1, by omega, hts⟩
          simp only [h2, if_true]
          rw [if_pos ⟨t, ht, hts⟩]
        · rw [if_neg h1]
          by_cases h3 : slot = index
          · subst h3
            have h2 : ∃ t, t < k + 1 ∧ (slot + t) % size = slot :=
              ⟨0, by omega, by simp [Nat.mod_eq_of_lt hidx]⟩
            simp [h2, -List.getD_eq_getElem?_getD]
          · have h2 : ¬ ∃ t, t < k + 1 ∧ (index + t) % size = slot := by
              rintro ⟨t, ht, hts⟩
              cases t with
              | zero => simp [Nat.mod_eq_of_lt hidx] at hts; exact h3 hts.symm
              | succ t => exact h1 ⟨t, by omega, hts⟩
            simp [h2, h3, -List.getD_eq_getElem?_getD]

theorem setUseBitFrom_length (useBit : List Bool) (p : Int) (cells : List Int) (i : Nat) :
    (setUseBitFrom useBit p cells i).length = useBit.length := by
  induction cells generalizing i with
  | nil => rfl
  | cons c rest ih =>
    unfold setUseBitFrom
    split_ifs
    · simp
    · exact ih (i + 1)

theorem setUseBit_length (useBit : List Bool) (f : vector) (p : Int) :
    (setUseBit useBit f p).length = useBit.length :=
  setUseBitFrom_length useBit p (resident f) 0

/-- The loop of `setUseBit` sets the bit of the first cell that holds the page. -/
theorem setUseBitFrom_first (useBit : List Bool) (p : Int) :
    ∀ (cells : List Int) (i n : Nat), n < cells.length → cells.getD n 0 = p →
      p ∉ cells.take n → setUseBitFrom useBit p cells i = useBit.set (i + n) true := by
  intro cells
  induction cells with
  | nil => intro i n hn; simp at hn
  | cons c rest ih =>
    intro i n hn hget hnot
    cases n with
    | zero =>
      simp at hget
      simp [setUseBitFrom, hget]
    | succ n =>
      have hc : p ≠ c := by
        intro h; apply hnot; simp [h]
      have h1 : rest.getD n 0 = p := by simpa using hget
      have h2 : p ∉ rest.take n := by
        intro h; apply hnot; simp [h]
      have := ih (i + 1) n (by simpa using hn) h1 h2
      simp only [setUseBitFrom, hc, if_false, this]
      congr 1; omega

/-- After a page that was not resident has been stored in slot `n`, `setUseBit`
sets the bit of slot `n`. -/
theorem setUseBit_after_insert {C : Nat} {f : vector} (hf : FramesOk C f) {n : Nat}
    (hn : n < f.count) {p : Int} (hp : p ∉ resident f) (useBit : List Bool) :
    setUseBit useBit (vector_insert f n p) p = useBit.set n true := by
  have hlen := resident_length hf
  have hres : resident (vector_insert f n p) = (resident f).set n p := by
    rw [vector_insert_of_lt hn]; simp [resident, List.set_take]
  unfold setUseBit
  rw [hres]
  have := setUseBitFrom_first useBit p ((resident f).set n p) 0 n (by simp; omega)
    (by rw [List.getD_eq_getElem _ _ (by simp; omega)]; simp)
    (by
      intro h
      rw [List.set_eq_take_append_cons_drop, if_pos (by omega)] at h
      rw [List.take_append_of_le_length (by simp; omega)] at h
      exact hp (List.mem_of_mem_take (List.mem_of_mem_take h)))
  simpa using this

/-- After a page that was not resident has been pushed, `setUseBit` sets the bit
of the slot it went to. -/
theorem setUseBit_after_push {C : Nat} {f : vector} (hf : FramesOk C f)
    (h : f.count < f.size) {p : Int} (hp : p ∉ resident f) (useBit : List Bool) :
    setUseBit useBit (vector_push_back f p) p = useBit.set f.count true := by
  have hlen := resident_length hf
  unfold setUseBit
  rw [resident_push_back hf h p]
  have := setUseBitFrom_first useBit p (resident f ++ [p]) 0 f.count (by simp; omega)
    (by rw [List.getD_eq_getElem _ _ (by simp; omega)]; simp [← hlen])
    (by rw [List.take_append_of_le_length (by omega), ← hlen, List.take_length]; exact hp)
  simpa using this

/-! ## Invariant of `clock` -/

/-- What the eviction branch of `clock` does on a full frame set. -/
theorem clockEvict_spec {C : Nat} {s : ClockState} (hs : ClockOk C s)
    (hfull : s.frames.count = C) {p : Int} (hp : p ∉ resident s.frames) :
    ∃ (bits : List Bool) (k : Nat),
      clockSweep C C s.useBits s.index = some (bits, (s.index + k) % C, k) ∧
      k ≤ C ∧
      (∀ t, t < k → s.useBits.getD ((s.index + t) % C) false = true) ∧
      s.useBits.getD ((s.index + k) % C) false = (decide (k = C)) ∧
      (∀ slot, slot < C →
        bits.getD slot false =
          if ∃ t, t < k ∧ (s.index + t) % C = slot then false else s.useBits.getD slot false) ∧
      clockEvict s p = some
        { frames := { array := s.frames.array.set ((s.index + k) % C) p, size := C, count := C }
          useBits := bits.set ((s.index + k) % C) true
          index := ((s.index + k) % C + 1) % C
          numberOfPageFaults := s.numberOfPageFaults + 1
          output := s.output ++
            [{ pageNumber := p, fault := true,
               content := (resident s.frames).set ((s.index + k) % C) p }] } := by
  obtain ⟨hf, hlen, hidx⟩ := hs
  obtain ⟨bits, k, hrun, hblen, hbcount, htrue, hstop, hbits⟩ :=
    clockSweep_spec C C s.useBits s.index hlen hidx (by rw [← hlen]; exact List.count_le_length _ _)
  have hk : k ≤ C := by
    have : s.useBits.count true ≤ s.useBits.length := List.count_le_length _ _
    omega
  have hC : 0 < C := by omega
  have hv : (s.index + k) % C < C := Nat.mod_lt _ hC
  have hsize : s.frames.size = C := hf.1
  refine ⟨bits, k, hrun, hk, htrue, hstop, hbits, ?_⟩
  have hvc : (s.index + k) % C < s.frames.count := by omega
  have hbit := setUseBit_after_insert hf hvc hp bits
  have hins := vector_insert_of_lt hvc p
  rw [hins] at hbit
  simp only [hsize, hfull] at hbit
  unfold clockEvict
  rw [hsize, hrun]
  simp only [hins, hsize, hfull, hbit, advance_eq_mod hv, printBody, resident, List.set_take]

/-- One iteration of `clock` from a state in good shape returns a state in good
shape, and is a `Step`. -/
theorem clockBody_ok {C : Nat} (pages : vector) {s : ClockState} (hs : ClockOk C s) (i : Nat) :
    ∃ t, clockBody pages s i = some t ∧ ClockOk C t ∧ Step pages i s.view t.view := by
  obtain ⟨hf, hlen, hidx⟩ := hs
  cases h1 : isPageInAFrame s.frames (pageAt pages i)
  · have h1' : pageAt pages i ∉ resident s.frames := by
      rw [← isPageInAFrame_iff, h1]; simp
    by_cases h2 : s.frames.count < s.frames.size
    · refine ⟨{ s with
          frames := vector_push_back s.frames (pageAt pages i),
          useBits := setUseBit s.useBits (vector_push_back s.frames (pageAt pages i))
            (pageAt pages i),
          output := s.output ++
            [printBody (vector_push_back s.frames (pageAt pages i)) false (pageAt pages i)] },
        by simp only [clockBody, h1, h2, if_true, Bool.false_eq_true, if_false],
        ⟨framesOk_push_back hf h2 h1', ?_, hidx⟩, ?_⟩
      · simpa [setUseBit_length] using hlen
      · exact Or.inr (Or.inl ⟨h1', h2, rfl, rfl, rfl⟩)
    · have hfull : s.frames.count = C := by
        have := hf.1; have := hf.2.2.1; omega
      obtain ⟨bits, k, hrun, hk, -, -, hbits, hev⟩ :=
        clockEvict_spec (s := s) ⟨hf, hlen, hidx⟩ hfull h1'
      have hC : 0 < C := by omega
      have hv : (s.index + k) % C < C := Nat.mod_lt _ hC
      have hins := vector_insert_of_lt (f := s.frames) (n := (s.index + k) % C) (by omega)
        (pageAt pages i)
      have hfi := framesOk_vector_insert hf ((s.index + k) % C) h1'
      rw [hins, hf.1, hfull] at hfi
      have hblen : bits.length = C := by
        have h := clockSweep_spec C C s.useBits s.index hlen hidx
          (by rw [← hlen]; exact List.count_le_length _ _)
        obtain ⟨bits', k', hrun', hblen', _⟩ := h
        rw [hrun] at hrun'
        injection hrun' with hrun'
        injection hrun' with hb _
        rw [hb]; exact hblen'
      refine ⟨_, by simp only [clockBody, h1, h2, Bool.false_eq_true, if_false]; exact hev,
        ⟨hfi, by simpa using hblen, Nat.mod_lt _ hC⟩, ?_⟩
      refine Or.inr (Or.inr ⟨h1', h2, ⟨((s.index + k) % C), ?_⟩, rfl, ?_⟩)
      · simp only [ClockState.view, hins, hf.1, hfull]
      · simp only [ClockState.view, printBody, resident, List.set_take, hfull]
  · refine ⟨{ s with
        useBits := setUseBit s.useBits s.frames (pageAt pages i),
        output := s.output ++ [printBody s.frames false (pageAt pages i)] },
      by simp only [clockBody, h1, if_true], ⟨hf, ?_, hidx⟩, ?_⟩
    · simpa [setUseBit_length] using hlen
    · exact Or.inl ⟨(isPageInAFrame_iff _ _).1 h1, rfl, rfl, rfl⟩

/-- From an empty frame set of capacity at least 1, `clock` always completes its
iterations, in a state in good shape. -/
theorem clockLoop_ok (pages : vector) {C : Nat} (hC : 1 ≤ C) (i : Nat) :
    ∃ s, clockLoop pages (emptyFrames C) i = some s ∧ ClockOk C s := by
  induction i with
  | zero =>
    refine ⟨_, rfl, framesOk_empty C, ?_, ?_⟩
    · simp [emptyFrames_eq]
    · show 0 < C
      omega
  | succ i ih =>
    obtain ⟨s, hs, hok⟩ := ih
    obtain ⟨t, ht, htok, _⟩ := clockBody_ok pages hok i
    exact ⟨t, by simp only [clockLoop, hs, ht], htok⟩

theorem clockView_eq {pages frames : vector} {i : Nat} {s : ClockState}
    (h : clockLoop pages frames i = some s) : clockView pages frames i = s.view := by
  simp only [clockView, h]

theorem clock_isRun (pages : vector) {C : Nat} (hC : 1 ≤ C) :
    IsRun pages (emptyFrames C) (clockView pages (emptyFrames C)) :=
  { start := rfl
    step := fun i => by
      obtain ⟨s, hs, hok⟩ := clockLoop_ok pages hC i
      obtain ⟨t, ht, _, hstep⟩ := clockBody_ok pages hok i
      have hsucc : clockLoop pages (emptyFrames C) (i + 1) = some t := by
        simp only [clockLoop, hs, ht]
      rw [clockView_eq hs, clockView_eq hsucc]
      exact hstep }

/-! ## The fill phase -/

/-- While the first pages are pairwise distinct and there is free capacity, every
reference is loaded without a fault. -/
theorem isRun_fill_phase {pages : vector} {C : Nat} {v : Nat → ScanState}
    (h : IsRun pages (emptyFrames C) v)
    (hdist : ∀ a b, a < b → b < min C pages.count → pageAt pages a ≠ pageAt pages b)
    (i : Nat) (hi : i ≤ min C pages.count) :
    (v i).frames.count = i ∧
    resident (v i).frames = (List.range i).map (pageAt pages) ∧
    (v i).numberOfPageFaults = 0 ∧
    (v i).output.map (fun r => (r.pageNumber, r.fault)) =
      (List.range i).map (fun k => (pageAt pages k, false)) := by
  induction i with
  | zero =>
    rw [h.start]
    simp [emptyFrames_eq, resident]
  | succ i ih =>
    obtain ⟨hcount, hres, hfaults, hout⟩ := ih (by omega)
    have hok := isRun_framesOk h i
    have hmiss : pageAt pages i ∉ resident (v i).frames := by
      rw [hres]
      intro hmem
      obtain ⟨a, ha, hpa⟩ := List.mem_map.1 hmem
      exact hdist a i (List.mem_range.1 ha) (by omega) hpa
    have hfree : (v i).frames.count < (v i).frames.size := by
      rw [hok.1, hcount]; omega
    rcases h.step i with ⟨hp, _⟩ | ⟨_, _, hf, hn, ho⟩ | ⟨_, hfull, _⟩
    · exact absurd hp hmiss
    · refine ⟨?_, ?_, by omega, ?_⟩
      · rw [hf, vector_push_back_of_lt hfree]; simp [hcount]
      · rw [hf, resident_push_back hok hfree, hres, List.range_succ]; simp
      · rw [ho, List.range_succ]; simp [hout, printBody]
    · exact absurd hfree hfull

/-- The lines of the fill phase, read in the output of a later state. -/
theorem isRun_fill_rows {pages : vector} {C : Nat} {v : Nat → ScanState}
    (h : IsRun pages (emptyFrames C) v)
    (hdist : ∀ a b, a < b → b < min C pages.count → pageAt pages a ≠ pageAt pages b)
    (i : Nat) (hi : i < min C pages.count) :
    ∃ row, (v pages.count).output[i]? = some row ∧ row.fault = false ∧
      row.pageNumber = pageAt pages i := by
  obtain ⟨_, _, _, hout⟩ := isRun_fill_phase h hdist (min C pages.count) le_rfl
  have hlen := isRun_output_length h (min C pages.count)
  obtain ⟨rest, hrest⟩ := isRun_output_prefix h (Nat.min_le_right C pages.count)
  have hi' : i < (v (min C pages.count)).output.length := by omega
  refine ⟨(v (min C pages.count)).output[i], ?_, ?_, ?_⟩
  · rw [← hrest, List.getElem?_append_left hi', List.getElem?_eq_getElem hi']
  · have := congrArg (fun l => l[i]?) hout
    simp [List.getElem?_map, List.getElem?_eq_getElem hi', List.getElem?_range hi] at this
    exact this.2
  · have := congrArg (fun l => l[i]?) hout
    simp [List.getElem?_map, List.getElem?_eq_getElem hi', List.getElem?_range hi] at this
    exact this.1

/-! ## Demand paging on sets of resident pages -/

theorem insert_erase_insert {U : Finset Int} {r b x : Int} (hxb : x ≠ b) :
    insert r ((insert b U).erase x) = insert b (insert r (U.erase x)) := by
  ext y; simp only [Finset.mem_insert, Finset.mem_erase]; constructor
  · rintro (h | ⟨h1, h2 | h2⟩)
    · exact Or.inr (Or.inl h)
    · exact Or.inl h2
    · exact Or.inr (Or.inr ⟨h1, h2⟩)
  · rintro (h | h | ⟨h1, h2⟩)
    · exact Or.inr ⟨by rw [h]; exact Ne.symm hxb, Or.inl h⟩
    · exact Or.inl h
    · exact Or.inr ⟨h1, Or.inr h2⟩

theorem insert_eq_insert_erase {U : Finset Int} {r x : Int} (hxU : x ∈ U) :
    insert r U = insert x (insert r (U.erase x)) := by
  ext y; simp only [Finset.mem_insert, Finset.mem_erase]; constructor
  · rintro (h | h)
    · exact Or.inr (Or.inl h)
    · by_cases hyx : y = x
      · exact Or.inl hyx
      · exact Or.inr (Or.inr ⟨hyx, h⟩)
  · rintro (h | h | ⟨_, h2⟩)
    · exact Or.inr (h ▸ hxU)
    · exact Or.inl h
    · exact Or.inr h2

theorem not_mem_insert_erase {U : Finset Int} {r x a : Int} (har : a ≠ r) (ha : a ∉ U) :
    a ∉ insert r (U.erase x) := by
  simp only [Finset.mem_insert, Finset.mem_erase, not_or]
  exact ⟨har, fun h => ha h.2⟩

theorem self_not_mem_insert_erase {U : Finset Int} {r x : Int} (hxr : x ≠ r) :
    x ∉ insert r (U.erase x) := by
  simp only [Finset.mem_insert, Finset.mem_erase, not_or]
  exact ⟨hxr, fun h => h.1 rfl⟩

theorem card_insert_erase {U : Finset Int} {r x : Int} {C : Nat} (hrU : r ∉ U) (hxU : x ∈ U)
    (hcard : U.card + 1 = C) : (insert r (U.erase x)).card + 1 = C := by
  rw [Finset.card_insert_of_not_mem (by
    simp only [Finset.mem_erase, not_and]; exact fun _ => hrU),
    Finset.card_erase_of_mem hxU]
  have : 0 < U.card := Finset.card_pos.2 ⟨x, hxU⟩
  omega

/-- Two full frame sets that differ in one page: the runs from one cost at most
one overwrite more than the runs from the other. -/
theorem paging_swap_one (C : Nat) :
    ∀ (σ : List Int) (U : Finset Int) (a b : Int) (n : Nat),
      a ∉ U → b ∉ U → U.card + 1 = C →
      Paging C anyVictim (insert b U) σ n →
      ∃ m, m ≤ n + 1 ∧ Paging C anyVictim (insert a U) σ m := by
  intro σ
  induction σ with
  | nil =>
    intro U a b n _ _ _ h
    cases h
    exact ⟨0, by omega, Paging.done _⟩
  | cons r σ ih =>
    intro U a b n ha hb hcard h
    by_cases hab : a = b
    · subst hab; exact ⟨n, by omega, h⟩
    have hcardA : (insert a U).card = C := by rw [Finset.card_insert_of_not_mem ha]; exact hcard
    have hcardB : (insert b U).card = C := by rw [Finset.card_insert_of_not_mem hb]; exact hcard
    cases h with
    | hit hr hrest =>
      rcases Finset.mem_insert.1 hr with hrb | hrU
      · -- the reference is `b`: the other run overwrites `a`
        subst hrb
        have hra : r ∉ insert a U := by
          simp only [Finset.mem_insert, not_or]; exact ⟨Ne.symm hab, hb⟩
        refine ⟨n + 1, le_rfl, Paging.evict a hra (by omega) (Finset.mem_insert_self _ _)
          trivial ?_⟩
        rw [Finset.erase_insert ha]; exact hrest
      · obtain ⟨m, hm, hrun⟩ := ih U a b n ha hb hcard hrest
        exact ⟨m, hm, Paging.hit (Finset.mem_insert_of_mem hrU) hrun⟩
    | load _ hfree _ => omega
    | @evict _ _ _ n0 x hr _ hx _ hrest =>
      have hrb : r ≠ b := fun h => hr (by rw [h]; exact Finset.mem_insert_self _ _)
      have hrU : r ∉ U := fun h => hr (Finset.mem_insert_of_mem h)
      by_cases hra : r = a
      · -- the reference is `a`: a hit for the other run
        subst hra
        rcases Finset.mem_insert.1 hx with hxb | hxU
        · subst hxb
          rw [Finset.erase_insert hb] at hrest
          exact ⟨n0, by omega, Paging.hit (Finset.mem_insert_self _ _) hrest⟩
        · have hxb : x ≠ b := fun h => hb (h ▸ hxU)
          have hxr : x ≠ r := fun h => ha (h ▸ hxU)
          rw [insert_erase_insert hxb] at hrest
          obtain ⟨m, hm, hrun⟩ := ih _ x b n0 (self_not_mem_insert_erase hxr)
            (not_mem_insert_erase (Ne.symm hrb) hb) (card_insert_erase hrU hxU hcard) hrest
          rw [← insert_eq_insert_erase hxU] at hrun
          exact ⟨m, by omega, Paging.hit (Finset.mem_insert_self _ _) hrun⟩
      · have hrA : r ∉ insert a U := by
          simp only [Finset.mem_insert, not_or]; exact ⟨hra, hrU⟩
        rcases Finset.mem_insert.1 hx with hxb | hxU
        · subst hxb
          rw [Finset.erase_insert hb] at hrest
          refine ⟨n0 + 1, by omega, Paging.evict a hrA (by omega) (Finset.mem_insert_self _ _)
            trivial ?_⟩
          rw [Finset.erase_insert ha]; exact hrest
        · have hxb : x ≠ b := fun h => hb (h ▸ hxU)
          have hxa : x ≠ a := fun h => ha (h ▸ hxU)
          rw [insert_erase_insert hxb] at hrest
          obtain ⟨m, hm, hrun⟩ := ih _ a b n0 (not_mem_insert_erase (Ne.symm hra) ha)
            (not_mem_insert_erase (Ne.symm hrb) hb) (card_insert_erase hrU hxU hcard) hrest
          refine ⟨m + 1, by omega, Paging.evict x hrA (by omega)
            (Finset.mem_insert_of_mem hxU) trivial ?_⟩
          rw [insert_erase_insert hxa]; exact hrun

/-- Two full frame sets that differ in one page, `a` against `b`, where `a` is
referenced no later than `b`: the runs from the set with `a` cost no more. -/
theorem paging_keep_sooner (C : Nat) :
    ∀ (σ : List Int) (U : Finset Int) (a b : Int) (n : Nat),
      a ∉ U → b ∉ U → U.card + 1 = C → σ.indexOf a ≤ σ.indexOf b →
      Paging C anyVictim (insert b U) σ n →
      ∃ m, m ≤ n ∧ Paging C anyVictim (insert a U) σ m := by
  intro σ
  induction σ with
  | nil =>
    intro U a b n _ _ _ _ h
    cases h
    exact ⟨0, le_rfl, Paging.done _⟩
  | cons r σ ih =>
    intro U a b n ha hb hcard hidx h
    by_cases hab : a = b
    · subst hab; exact ⟨n, le_rfl, h⟩
    have hcardA : (insert a U).card = C := by rw [Finset.card_insert_of_not_mem ha]; exact hcard
    have hcardB : (insert b U).card = C := by rw [Finset.card_insert_of_not_mem hb]; exact hcard
    have hrb : r ≠ b := by
      intro hrb
      rw [List.indexOf_cons_eq _ hrb] at hidx
      by_cases hra : r = a
      · exact hab (hra.symm.trans hrb)
      · rw [List.indexOf_cons_ne _ hra] at hidx; omega
    cases h with
    | hit hr hrest =>
      rcases Finset.mem_insert.1 hr with hrb' | hrU
      · exact absurd hrb' hrb
      · have hra : r ≠ a := fun h => ha (h ▸ hrU)
        rw [List.indexOf_cons_ne _ hra, List.indexOf_cons_ne _ hrb] at hidx
        obtain ⟨m, hm, hrun⟩ := ih U a b n ha hb hcard (by omega) hrest
        exact ⟨m, hm, Paging.hit (Finset.mem_insert_of_mem hrU) hrun⟩
    | load _ hfree _ => omega
    | @evict _ _ _ n0 x hr _ hx _ hrest =>
      have hrU : r ∉ U := fun h => hr (Finset.mem_insert_of_mem h)
      by_cases hra : r = a
      · subst hra
        rcases Finset.mem_insert.1 hx with hxb | hxU
        · subst hxb
          rw [Finset.erase_insert hb] at hrest
          exact ⟨n0, by omega, Paging.hit (Finset.mem_insert_self _ _) hrest⟩
        · have hxb : x ≠ b := fun h => hb (h ▸ hxU)
          have hxr : x ≠ r := fun h => ha (h ▸ hxU)
          rw [insert_erase_insert hxb] at hrest
          obtain ⟨m, hm, hrun⟩ := paging_swap_one C σ _ x b n0
            (self_not_mem_insert_erase hxr) (not_mem_insert_erase (Ne.symm hrb) hb)
            (card_insert_erase hrU hxU hcard) hrest
          rw [← insert_eq_insert_erase hxU] at hrun
          exact ⟨m, by omega, Paging.hit (Finset.mem_insert_self _ _) hrun⟩
      · have hrA : r ∉ insert a U := by
          simp only [Finset.mem_insert, not_or]; exact ⟨hra, hrU⟩
        rw [List.indexOf_cons_ne _ hra, List.indexOf_cons_ne _ hrb] at hidx
        rcases Finset.mem_insert.1 hx with hxb | hxU
        · subst hxb
          rw [Finset.erase_insert hb] at hrest
          refine ⟨n0 + 1, le_rfl, Paging.evict a hrA (by omega) (Finset.mem_insert_self _ _)
            trivial ?_⟩
          rw [Finset.erase_insert ha]; exact hrest
        · have hxb : x ≠ b := fun h => hb (h ▸ hxU)
          have hxa : x ≠ a := fun h => ha (h ▸ hxU)
          rw [insert_erase_insert hxb] at hrest
          obtain ⟨m, hm, hrun⟩ := ih _ a b n0 (not_mem_insert_erase (Ne.symm hra) ha)
            (not_mem_insert_erase (Ne.symm hrb) hb) (card_insert_erase hrU hxU hcard)
            (by omega) hrest
          refine ⟨m + 1, by omega, Paging.evict x hrA (by omega)
            (Finset.mem_insert_of_mem hxU) trivial ?_⟩
          rw [insert_erase_insert hxa]; exact hrun

/-- A policy with unrestricted victims is a policy. -/
theorem paging_any {C : Nat} {choice : Finset Int → List Int → Int → Prop}
    {S : Finset Int} {σ : List Int} {n : Nat} (h : Paging C choice S σ n) :
    Paging C anyVictim S σ n := by
  induction h with
  | done S => exact Paging.done S
  | hit hr _ ih => exact Paging.hit hr ih
  | load hr hfree _ ih => exact Paging.load hr hfree ih
  | evict x hr hfull hx _ _ ih => exact Paging.evict x hr hfull hx trivial ih

/-- Belady: a run that always takes a victim with the farthest next reference
has no more overwrites than any run from the same set over the same references. -/
theorem paging_farthest_le (C : Nat) :
    ∀ (σ : List Int) (S : Finset Int) (n m : Nat),
      S.card ≤ C → Paging C farthestVictim S σ n → Paging C anyVictim S σ m → n ≤ m := by
  intro σ
  induction σ with
  | nil =>
    intro S n m _ h1 h2
    cases h1; cases h2; exact le_rfl
  | cons r σ ih =>
    intro S n m hcard h1 h2
    cases h1 with
    | hit hr hrest1 =>
      cases h2 with
      | hit _ hrest2 => exact ih S _ _ hcard hrest1 hrest2
      | load hr2 _ _ => exact absurd hr hr2
      | evict x hr2 _ _ _ _ => exact absurd hr hr2
    | load hr hfree hrest1 =>
      have hc : (insert r S).card ≤ C := by
        rw [Finset.card_insert_of_not_mem hr]; omega
      cases h2 with
      | hit hr2 _ => exact absurd hr2 hr
      | load _ _ hrest2 => exact ih _ _ _ hc hrest1 hrest2
      | evict x _ hfull _ _ _ => exact absurd hfree hfull
    | @evict _ _ _ n0 x hr hfull hx hfar hrest1 =>
      have hS : S.card = C := by omega
      have hc : (insert r (S.erase x)).card ≤ C := by
        rw [Finset.card_insert_of_not_mem (by
          simp only [Finset.mem_erase, not_and]; exact fun _ => hr),
          Finset.card_erase_of_mem hx]
        have : 0 < S.card := Finset.card_pos.2 ⟨x, hx⟩
        omega
      cases h2 with
      | hit hr2 _ => exact absurd hr2 hr
      | load _ hfree _ => exact absurd hfree hfull
      | @evict _ _ _ m0 y _ _ hy _ hrest2 =>
        by_cases hxy : y = x
        · subst hxy
          have := ih _ _ _ hc hrest1 hrest2
          omega
        · -- the other run keeps `x` and gives up `y`, which is referenced no later
          have hyU : y ∈ S.erase x := Finset.mem_erase.2 ⟨hxy, hy⟩
          have hxU : x ∈ S.erase y := Finset.mem_erase.2 ⟨Ne.symm hxy, hx⟩
          have hx' : x ∉ (S.erase x).erase y := by simp
          have hy' : y ∉ (S.erase x).erase y := by simp
          have hr' : r ∉ (S.erase x).erase y := by
            simp only [Finset.mem_erase, not_and]; exact fun _ _ => hr
          have hxr : x ≠ r := fun h => hr (h ▸ hx)
          have hyr : y ≠ r := fun h => hr (h ▸ hy)
          have hs1 : insert r (S.erase x) = insert y (insert r ((S.erase x).erase y)) :=
            insert_eq_insert_erase hyU
          have hs2 : insert r (S.erase y) = insert x (insert r ((S.erase x).erase y)) := by
            rw [Finset.erase_right_comm]; exact insert_eq_insert_erase hxU
          have hcU : (insert r ((S.erase x).erase y)).card + 1 = C := by
            rw [Finset.card_insert_of_not_mem hr', Finset.card_erase_of_mem hyU,
              Finset.card_erase_of_mem hx]
            have : 1 < S.card := by
              apply Finset.one_lt_card.2
              exact ⟨x, hx, y, hy, Ne.symm hxy⟩
            omega
          rw [hs2] at hrest2
          obtain ⟨k, hk, hrun⟩ := paging_keep_sooner C σ _ y x m0
            (by simp only [Finset.mem_insert, not_or]; exact ⟨hyr, hy'⟩)
            (by simp only [Finset.mem_insert, not_or]; exact ⟨hxr, hx'⟩)
            hcU (hfar y hy) hrest2
          rw [← hs1] at hrun
          have := ih _ _ _ hc hrest1 hrun
          omega

/-! ## From the drivers to demand paging on sets -/

theorem suffixFrom_of_lt {pages : vector} {k : Nat} (h : k < pages.count) :
    suffixFrom pages k = pageAt pages k :: suffixFrom pages (k + 1) := by
  unfold suffixFrom
  have : pages.count - k = (pages.count - (k + 1)) + 1 := by omega
  rw [this, List.range_succ_eq_map]
  simp only [List.map_cons, List.map_map, Nat.add_zero]
  congr 1
  apply List.map_congr_left
  intro d _
  simp only [Function.comp, Nat.succ_eq_add_one]
  congr 1; omega

theorem suffixFrom_of_ge {pages : vector} {k : Nat} (h : pages.count ≤ k) :
    suffixFrom pages k = [] := by
  unfold suffixFrom
  have : pages.count - k = 0 := by omega
  rw [this]; rfl

theorem toFinset_set {l : List Int} (hl : l.Nodup) {n : Nat} (hn : n < l.length) (p : Int) :
    (l.set n p).toFinset = insert p (l.toFinset.erase (l.getD n 0)) := by
  rw [List.getD_eq_getElem _ _ hn]
  ext y
  simp only [List.mem_toFinset, Finset.mem_insert, Finset.mem_erase]
  constructor
  · intro hy
    obtain ⟨i, hi, hiy⟩ := List.mem_iff_getElem.1 hy
    rw [List.getElem_set] at hiy
    split_ifs at hiy with hni
    · exact Or.inl hiy.symm
    · right
      have hi' : i < l.length := by simpa using hi
      refine ⟨?_, hiy ▸ List.getElem_mem _⟩
      intro hyn
      rw [← hiy] at hyn
      exact hni ((hl.getElem_inj_iff).1 hyn).symm
  · rintro (hy | ⟨hne, hy⟩)
    · subst hy
      apply List.mem_iff_getElem.2
      exact ⟨n, by simpa using hn, by simp⟩
    · obtain ⟨i, hi, hiy⟩ := List.mem_iff_getElem.1 hy
      have hni : n ≠ i := by
        intro h; subst h; exact hne hiy.symm
      apply List.mem_iff_getElem.2
      exact ⟨i, by simpa using hi, by rw [List.getElem_set, if_neg hni]; exact hiy⟩

theorem card_resident {C : Nat} {f : vector} (hf : FramesOk C f) :
    (resident f).toFinset.card = f.count := by
  rw [List.toFinset_card_of_nodup hf.2.2.2, resident_length hf]

theorem step_faults_mono {pages frames : vector} {v : Nat → ScanState}
    (h : IsRun pages frames v) {i j : Nat} (hij : i ≤ j) :
    (v i).numberOfPageFaults ≤ (v j).numberOfPageFaults := by
  induction j, hij using Nat.le_induction with
  | base => exact le_rfl
  | succ j _ ih => exact le_trans ih (step_faults_le (h.step j))

/-- A run of a driver whose overwrites all land on an occupied slot, with a
victim that `choice` allows, is a run of demand paging on the set of resident
pages; its overwrites are the faults it counts. -/
theorem isRun_paging {pages : vector} {C : Nat} {v : Nat → ScanState}
    (choice : Finset Int → List Int → Int → Prop)
    (h : IsRun pages (emptyFrames C) v)
    (hproper : ∀ i, i < pages.count → pageAt pages i ∉ resident (v i).frames →
      ¬ (v i).frames.count < (v i).frames.size →
      ∃ n : Nat, n < (v i).frames.count ∧
        (v (i + 1)).frames = vector_insert (v i).frames n (pageAt pages i) ∧
        choice (resident (v i).frames).toFinset (suffixFrom pages (i + 1))
          ((resident (v i).frames).getD n 0)) :
    ∀ d k, k + d = pages.count →
      Paging C choice (resident (v k).frames).toFinset (suffixFrom pages k)
        ((v pages.count).numberOfPageFaults - (v k).numberOfPageFaults) := by
  intro d
  induction d with
  | zero =>
    intro k hk
    have hk' : k = pages.count := by omega
    subst hk'
    rw [suffixFrom_of_ge le_rfl, Nat.sub_self]
    exact Paging.done _
  | succ d ih =>
    intro k hk
    have hlt : k < pages.count := by omega
    have hnext := ih (k + 1) (by omega)
    have hok := isRun_framesOk h k
    have hmono := step_faults_mono h (show k + 1 ≤ pages.count by omega)
    rw [suffixFrom_of_lt hlt]
    rcases h.step k with ⟨hp, hf, hn, _⟩ | ⟨hp, hfree, hf, hn, _⟩ | ⟨hp, hfull, _, hn, _⟩
    · rw [hf, hn] at hnext
      exact Paging.hit (List.mem_toFinset.2 hp) hnext
    · rw [hf, hn, resident_push_back hok hfree, List.toFinset_append] at hnext
      have hset : (resident (v k).frames).toFinset ∪ [pageAt pages k].toFinset =
          insert (pageAt pages k) (resident (v k).frames).toFinset := by
        ext y; simp [or_comm]
      rw [hset] at hnext
      refine Paging.load (fun hmem => hp (List.mem_toFinset.1 hmem)) ?_ hnext
      rw [card_resident hok, ← hok.1]; exact hfree
    · obtain ⟨n, hnlt, hf, hch⟩ := hproper k hlt hp hfull
      have hres : resident (v (k + 1)).frames = (resident (v k).frames).set n (pageAt pages k) := by
        rw [hf, vector_insert_of_lt hnlt]; simp [resident, List.set_take]
      have hlen := resident_length hok
      rw [hres, toFinset_set hok.2.2.2 (by omega)] at hnext
      have hsub : (v pages.count).numberOfPageFaults - (v k).numberOfPageFaults =
          ((v pages.count).numberOfPageFaults - (v (k + 1)).numberOfPageFaults) + 1 := by
        omega
      rw [hsub]
      refine Paging.evict _ (fun hmem => hp (List.mem_toFinset.1 hmem)) ?_ ?_ hch hnext
      · rw [card_resident hok, ← hok.1]; exact hfull
      · rw [List.mem_toFinset, List.getD_eq_getElem _ _ (by omega)]
        exact List.getElem_mem _

/-! ## The look-ahead scan -/

theorem vector_get_of_lt {v : vector} {j : Nat} (h : j < v.count) :
    vector_get v j = v.array.getD j 0 := by
  unfold vector_get
  rw [if_neg (by omega)]

theorem vector_get_eq_pageAt {pages : vector} {j : Nat} (h : j < pages.count) :
    vector_get pages j = pageAt pages j :=
  vector_get_of_lt h

theorem vector_get_resident {f : vector} {s : Nat}
    (h : s < f.count) : vector_get f s = (resident f).getD s 0 := by
  rw [vector_get_of_lt h]
  simp only [resident, List.getD_eq_getElem?_getD, List.getElem?_take, if_pos h]

/-- The inner loop of `getFarthestReferenceAfter` stops at the first reference
to the page at or after `j`, or at `j + n` when there is none. -/
theorem scanAfter_eq (pages : vector) (p : Int) :
    ∀ n j, scanAfter pages p n j =
      j + List.indexOf p ((List.range n).map (fun d => vector_get pages (j + d))) := by
  intro n
  induction n with
  | zero => intro j; simp [scanAfter]
  | succ n ih =>
    intro j
    rw [List.range_succ_eq_map]
    simp only [List.map_cons, List.map_map, Nat.add_zero, scanAfter]
    by_cases h : vector_get pages j = p
    · rw [if_pos h, List.indexOf_cons_eq _ h]; rfl
    · rw [if_neg h, List.indexOf_cons_ne _ h, ih (j + 1)]
      have : (List.range n).map (fun d => vector_get pages (j + 1 + d)) =
          (List.range n).map ((fun d => vector_get pages (j + d)) ∘ Nat.succ) := by
        apply List.map_congr_left
        intro d _
        simp only [Function.comp, Nat.succ_eq_add_one]
        congr 1; omega
      rw [this]; omega

theorem scanAfter_suffix {pages : vector} (p : Int) {i : Nat} (hi : i + 1 ≤ pages.count) :
    scanAfter pages p (pages.count - (i + 1)) (i + 1) =
      (i + 1) + List.indexOf p (suffixFrom pages (i + 1)) := by
  rw [scanAfter_eq]
  congr 2
  unfold suffixFrom
  apply List.map_congr_left
  intro d hd
  have := List.mem_range.1 hd
  exact vector_get_eq_pageAt (by omega)

theorem scanAfter_le (pages : vector) (p : Int) {i : Nat} (hi : i + 1 ≤ pages.count) :
    scanAfter pages p (pages.count - (i + 1)) (i + 1) ≤ pages.count := by
  rw [scanAfter_suffix p hi]
  have h1 : List.indexOf p (suffixFrom pages (i + 1)) ≤ (suffixFrom pages (i + 1)).length :=
    List.indexOf_le_length
  have h2 : (suffixFrom pages (i + 1)).length = pages.count - (i + 1) := by
    simp [suffixFrom]
  omega

theorem scanAfter_ge (pages : vector) (p : Int) (i : Nat) :
    i + 1 ≤ scanAfter pages p (pages.count - (i + 1)) (i + 1) := by
  rw [scanAfter_eq]; omega

/-- When the scan stops right at its start, below the end of the trace, the
page is the reference there. -/
theorem scanAfter_eq_start {pages : vector} {p : Int} {i : Nat}
    (h : scanAfter pages p (pages.count - (i + 1)) (i + 1) = i + 1)
    (hlt : i + 1 < pages.count) : pageAt pages (i + 1) = p := by
  have hn : pages.count - (i + 1) = (pages.count - (i + 2)) + 1 := by omega
  rw [hn] at h
  simp only [scanAfter] at h
  by_cases hp : vector_get pages (i + 1) = p
  · rw [← vector_get_eq_pageAt hlt]; exact hp
  · rw [if_neg hp, scanAfter_eq] at h; omega

/-- The outer loop of `getFarthestReferenceAfter`: whatever slot it returns holds
a page whose next reference is not before that of any other resident page; and
it returns the unassigned `resultIndex` only if every resident page is the very
next reference. -/
theorem farthestAfterLoop_spec (pages frames : vector) (i : Nat) (hi : i + 1 ≤ pages.count) :
    ∀ (n m : Nat) (res : Option Nat) (far : Nat), m + n = frames.count →
      (∀ s, s < m →
        scanAfter pages (vector_get frames s) (pages.count - (i + 1)) (i + 1) ≤ far) →
      (∀ r, res = some r → r < m ∧
        scanAfter pages (vector_get frames r) (pages.count - (i + 1)) (i + 1) = far) →
      (res = none → far = i + 1 ∧ ∀ s, s < m →
        (scanAfter pages (vector_get frames s) (pages.count - (i + 1)) (i + 1) = i + 1 ∧
          i + 1 < pages.count)) →
      (∀ r, farthestAfterLoop pages frames i n m res far = some r →
        r < frames.count ∧ ∀ s, s < frames.count →
          scanAfter pages (vector_get frames s) (pages.count - (i + 1)) (i + 1) ≤
            scanAfter pages (vector_get frames r) (pages.count - (i + 1)) (i + 1)) ∧
      (farthestAfterLoop pages frames i n m res far = none →
        ∀ s, s < frames.count →
          (scanAfter pages (vector_get frames s) (pages.count - (i + 1)) (i + 1) = i + 1 ∧
            i + 1 < pages.count)) := by
  intro n
  induction n with
  | zero =>
    intro m res far hm hle hsome hnone
    have hm' : m = frames.count := by omega
    subst hm'
    simp only [farthestAfterLoop]
    refine ⟨?_, ?_⟩
    · intro r hr
      obtain ⟨hrlt, hrfar⟩ := hsome r hr
      exact ⟨hrlt, fun s hs => by rw [hrfar]; exact hle s hs⟩
    · intro hr; exact (hnone hr).2
  | succ n ih =>
    intro m res far hm hle hsome hnone
    have hjle := scanAfter_le pages (vector_get frames m) hi
    have hjge := scanAfter_ge pages (vector_get frames m) i
    simp only [farthestAfterLoop]
    by_cases hfound :
        scanAfter pages (vector_get frames m) (pages.count - (i + 1)) (i + 1) < pages.count
    · rw [if_pos hfound]
      by_cases hgt :
          scanAfter pages (vector_get frames m) (pages.count - (i + 1)) (i + 1) > far
      · rw [if_pos hgt]
        apply ih (m + 1) (some m) _ (by omega)
        · intro s hs
          rcases Nat.lt_succ_iff_lt_or_eq.1 hs with h | h
          · exact le_of_lt (lt_of_le_of_lt (hle s h) hgt)
          · rw [h]
        · intro r hr
          injection hr with hr
          subst hr
          exact ⟨by omega, rfl⟩
        · intro h; exact absurd h (by simp)
      · rw [if_neg hgt]
        apply ih (m + 1) res far (by omega)
        · intro s hs
          rcases Nat.lt_succ_iff_lt_or_eq.1 hs with h | h
          · exact hle s h
          · rw [h]; omega
        · intro r hr
          obtain ⟨h1, h2⟩ := hsome r hr
          exact ⟨by omega, h2⟩
        · intro hres
          obtain ⟨h1, h2⟩ := hnone hres
          refine ⟨h1, ?_⟩
          intro s hs
          rcases Nat.lt_succ_iff_lt_or_eq.1 hs with h | h
          · exact h2 s h
          · rw [h]; exact ⟨by omega, by omega⟩
    · rw [if_neg hfound]
      have heq : scanAfter pages (vector_get frames m) (pages.count - (i + 1)) (i + 1) =
          pages.count := by omega
      rw [if_pos heq]
      refine ⟨?_, ?_⟩
      · intro r hr
        injection hr with hr
        subst hr
        refine ⟨by omega, ?_⟩
        intro s _
        rw [heq]
        exact scanAfter_le pages _ hi
      · intro h; exact absurd h (by simp)

/-- `getFarthestReferenceAfter` on at least two occupied, pairwise distinct
frames returns an assigned slot below `count`, and the page in it has the
farthest next reference. -/
theorem getFarthestReferenceAfter_spec (pages : vector) {frames : vector} {C : Nat}
    (hf : FramesOk C frames) (h2 : 2 ≤ frames.count) {i : Nat} (hi : i < pages.count) :
    ∃ r, getFarthestReferenceAfter pages frames i = some r ∧ r < frames.count ∧
      farthestVictim (resident frames).toFinset (suffixFrom pages (i + 1))
        ((resident frames).getD r 0) := by
  have hspec := farthestAfterLoop_spec pages frames i (by omega) frames.count 0 none (i + 1)
    (by omega) (fun s hs => absurd hs (by omega)) (fun r hr => absurd hr (by simp))
    (fun _ => ⟨rfl, fun s hs => absurd hs (by omega)⟩)
  have hlen := resident_length hf
  cases hres : getFarthestReferenceAfter pages frames i with
  | none =>
    exfalso
    have hall := hspec.2 hres
    obtain ⟨h0, hlt⟩ := hall 0 (by omega)
    obtain ⟨h1, _⟩ := hall 1 (by omega)
    have e0 := scanAfter_eq_start h0 hlt
    have e1 := scanAfter_eq_start h1 hlt
    rw [vector_get_resident (by omega : 0 < frames.count)] at e0
    rw [vector_get_resident (by omega : 1 < frames.count)] at e1
    rw [List.getD_eq_getElem _ _ (by omega)] at e0 e1
    have := (hf.2.2.2.getElem_inj_iff).1 (e0.symm.trans e1).symm
    omega
  | some r =>
    obtain ⟨hr, hmax⟩ := hspec.1 r hres
    refine ⟨r, rfl, hr, ?_⟩
    intro y hy
    obtain ⟨s, hs, hsy⟩ := List.mem_iff_getElem.1 (List.mem_toFinset.1 hy)
    have hs' : s < frames.count := by omega
    have := hmax s hs'
    rw [scanAfter_suffix _ (by omega : i + 1 ≤ pages.count),
      scanAfter_suffix _ (by omega : i + 1 ≤ pages.count),
      vector_get_resident hs', vector_get_resident hr,
      List.getD_eq_getElem _ _ hs, hsy] at this
    omega

/-! ## The look-behind scan -/

theorem scanBefore_le (pages : vector) (p : Int) : ∀ j, scanBefore pages p j ≤ j := by
  intro j
  induction j with
  | zero => simp [scanBefore]
  | succ j ih =>
    simp only [scanBefore]
    split_ifs
    · exact le_rfl
    · omega

/-- When the backward scan stops right at its start, above 0, the page is the
reference there. -/
theorem scanBefore_eq_start {pages : vector} {p : Int} {j : Nat} (h0 : 0 < j)
    (h : scanBefore pages p j = j) : vector_get pages j = p := by
  cases j with
  | zero => omega
  | succ j =>
    simp only [scanBefore] at h
    by_cases hp : vector_get pages (j + 1) = p
    · exact hp
    · rw [if_neg hp] at h
      have := scanBefore_le pages p j
      omega

/-- The outer loop of `getFarthestReferenceBefore` for `currentIndex ≥ 1`:
whatever slot it returns holds a page for which the backward scan stopped
earliest; and it returns the unassigned `resultIndex` only if the scan of every
resident page stopped at `currentIndex - 1 > 0`. -/
theorem farthestBeforeLoop_spec (pages frames : vector) (i : Nat) (hi : 1 ≤ i) :
    ∀ (n m : Nat) (res : Option Nat) (far : Int), m + n = frames.count →
      (∀ s, s < m → far ≤ (scanBefore pages (vector_get frames s) (i - 1) : Nat)) →
      (∀ r, res = some r → r < m ∧
        ((scanBefore pages (vector_get frames r) (i - 1) : Nat) : Int) = far) →
      (res = none → far = (i : Int) - 1 ∧ ∀ s, s < m →
        (scanBefore pages (vector_get frames s) (i - 1) = i - 1 ∧ 0 < i - 1)) →
      (∀ r, farthestBeforeLoop pages frames i n m res far = some r →
        r < frames.count ∧ ∀ s, s < frames.count →
          scanBefore pages (vector_get frames r) (i - 1) ≤
            scanBefore pages (vector_get frames s) (i - 1)) ∧
      (farthestBeforeLoop pages frames i n m res far = none →
        ∀ s, s < frames.count →
          (scanBefore pages (vector_get frames s) (i - 1) = i - 1 ∧ 0 < i - 1)) := by
  have hi0 : i ≠ 0 := by omega
  intro n
  induction n with
  | zero =>
    intro m res far hm hle hsome hnone
    have hm' : m = frames.count := by omega
    subst hm'
    simp only [farthestBeforeLoop]
    refine ⟨?_, ?_⟩
    · intro r hr
      obtain ⟨hrlt, hrfar⟩ := hsome r hr
      refine ⟨hrlt, fun s hs => ?_⟩
      have := hle s hs
      omega
    · intro hr; exact (hnone hr).2
  | succ n ih =>
    intro m res far hm hle hsome hnone
    have hjle := scanBefore_le pages (vector_get frames m) (i - 1)
    simp only [farthestBeforeLoop, if_neg hi0]
    by_cases hfound : ((scanBefore pages (vector_get frames m) (i - 1) : Nat) : Int) > 0
    · rw [if_pos hfound]
      by_cases hlt : ((scanBefore pages (vector_get frames m) (i - 1) : Nat) : Int) < far
      · rw [if_pos hlt]
        apply ih (m + 1) (some m) _ (by omega)
        · intro s hs
          rcases Nat.lt_succ_iff_lt_or_eq.1 hs with h | h
          · have := hle s h; omega
          · rw [h]
        · intro r hr
          injection hr with hr
          subst hr
          exact ⟨by omega, rfl⟩
        · intro h; exact absurd h (by simp)
      · rw [if_neg hlt]
        apply ih (m + 1) res far (by omega)
        · intro s hs
          rcases Nat.lt_succ_iff_lt_or_eq.1 hs with h | h
          · exact hle s h
          · rw [h]; omega
        · intro r hr
          obtain ⟨h1, h2⟩ := hsome r hr
          exact ⟨by omega, h2⟩
        · intro hres
          obtain ⟨h1, h2⟩ := hnone hres
          refine ⟨h1, ?_⟩
          intro s hs
          rcases Nat.lt_succ_iff_lt_or_eq.1 hs with h | h
          · exact h2 s h
          · rw [h]; exact ⟨by omega, by omega⟩
    · rw [if_neg hfound]
      have heq : ((scanBefore pages (vector_get frames m) (i - 1) : Nat) : Int) = 0 := by omega
      rw [if_pos heq]
      refine ⟨?_, ?_⟩
      · intro r hr
        injection hr with hr
        subst hr
        refine ⟨by omega, ?_⟩
        intro s _
        omega
      · intro h; exact absurd h (by simp)

/-- `getFarthestReferenceBefore` on at least two occupied, pairwise distinct
frames, for `currentIndex ≥ 1`, returns an assigned slot below `count`, and the
backward scan of the page in it stopped earliest. -/
theorem getFarthestReferenceBefore_spec (pages : vector) {frames : vector} {C : Nat}
    (hf : FramesOk C frames) (h2 : 2 ≤ frames.count) {i : Nat} (hi : 1 ≤ i) :
    ∃ r, getFarthestReferenceBefore pages frames i = some r ∧ r < frames.count ∧
      ∀ s, s < frames.count →
        scanBefore pages (vector_get frames r) (i - 1) ≤
          scanBefore pages (vector_get frames s) (i - 1) := by
  have hspec := farthestBeforeLoop_spec pages frames i hi frames.count 0 none ((i : Int) - 1)
    (by omega) (fun s hs => absurd hs (by omega)) (fun r hr => absurd hr (by simp))
    (fun _ => ⟨rfl, fun s hs => absurd hs (by omega)⟩)
  have hlen := resident_length hf
  cases hres : getFarthestReferenceBefore pages frames i with
  | none =>
    exfalso
    have hall := hspec.2 hres
    obtain ⟨h0, hpos⟩ := hall 0 (by omega)
    obtain ⟨h1, _⟩ := hall 1 (by omega)
    have e0 := scanBefore_eq_start hpos h0
    have e1 := scanBefore_eq_start hpos h1
    rw [vector_get_resident (by omega : 0 < frames.count)] at e0
    rw [vector_get_resident (by omega : 1 < frames.count)] at e1
    rw [List.getD_eq_getElem _ _ (by omega)] at e0 e1
    have := (hf.2.2.2.getElem_inj_iff).1 (e0.symm.trans e1)
    omega
  | some r =>
    obtain ⟨hr, hmin⟩ := hspec.1 r hres
    exact ⟨r, rfl, hr, hmin⟩

/-! ## Optimality of `optimal` with two frames or more -/

theorem isRun_count_le_index {pages frames : vector} {v : Nat → ScanState}
    (h : IsRun pages frames v) (h0 : frames.count = 0) (i : Nat) : (v i).frames.count ≤ i := by
  induction i with
  | zero => rw [h.start]; simp [h0]
  | succ i ih =>
    rcases h.step i with ⟨_, hf, _, _⟩ | ⟨_, hfree, hf, _, _⟩ | ⟨_, _, ⟨idx, hf⟩, _, _⟩
    · rw [hf]; omega
    · rw [hf, vector_push_back_of_lt hfree]; simp only; omega
    · rw [hf, vector_insert_count]; omega

/-- The cursor of `firstInFirstOut` stays below the capacity. -/
theorem fifo_oldest_lt (pages : vector) {C : Nat} (hC : 1 ≤ C) (i : Nat) :
    (fifoLoop pages (emptyFrames C) i).oldestPageIndex < C := by
  induction i with
  | zero => show 0 < C; omega
  | succ i ih =>
    have hok := isRun_framesOk (fifo_isRun pages (emptyFrames C)) i
    simp only [FifoState.view] at hok
    simp only [fifoLoop, fifoBody]
    split_ifs with h1 h2 h3
    · exact ih
    · exact ih
    · show 0 < C
      omega
    · rw [vector_insert_size, hok.1] at h3
      show (fifoLoop pages (emptyFrames C) i).oldestPageIndex + 1 < C
      omega

theorem fifoBody_frames_of_full {pages : vector} {s : FifoState} {i : Nat}
    (hmiss : pageAt pages i ∉ resident s.frames) (hfull : ¬ s.frames.count < s.frames.size) :
    (fifoBody pages s i).frames =
      vector_insert s.frames s.oldestPageIndex (pageAt pages i) := by
  have h1 : isPageInAFrame s.frames (pageAt pages i) = false := by
    cases h : isPageInAFrame s.frames (pageAt pages i)
    · rfl
    · exact absurd ((isPageInAFrame_iff _ _).1 h) hmiss
  simp [fifoBody, h1, hfull]

theorem lruBody_frames_of_full {pages : vector} {u : Nat → Int} {s t : ScanState} {i : Nat}
    (h : lruBody pages u s i = some t)
    (hmiss : pageAt pages i ∉ resident s.frames) (hfull : ¬ s.frames.count < s.frames.size) :
    0 ≤ readIndex (getFarthestReferenceBefore pages s.frames i) (u i) ∧
      t.frames =
        vector_insert s.frames (readIndex (getFarthestReferenceBefore pages s.frames i) (u i)).toNat
          (pageAt pages i) := by
  rcases lruBody_some_iff.1 h with ⟨h1, _⟩ | ⟨_, h2, _⟩ | ⟨_, _, h3, ht⟩
  · exact absurd ((isPageInAFrame_iff _ _).1 h1) hmiss
  · exact absurd h2 hfull
  · subst ht
    exact ⟨h3, rfl⟩

theorem optimalBody_frames_of_full {pages : vector} {u : Nat → Int} {s t : ScanState} {i : Nat}
    (h : optimalBody pages u s i = some t)
    (hmiss : pageAt pages i ∉ resident s.frames) (hfull : ¬ s.frames.count < s.frames.size) :
    0 ≤ readIndex (getFarthestReferenceAfter pages s.frames i) (u i) ∧
      t.frames =
        vector_insert s.frames (readIndex (getFarthestReferenceAfter pages s.frames i) (u i)).toNat
          (pageAt pages i) := by
  rcases optimalBody_some_iff.1 h with ⟨h1, _⟩ | ⟨_, h2, _⟩ | ⟨_, _, h3, ht⟩
  · exact absurd ((isPageInAFrame_iff _ _).1 h1) hmiss
  · exact absurd h2 hfull
  · subst ht
    exact ⟨h3, rfl⟩

/-- An iteration in which the scan assigns its result does not depend on the
indeterminate values. -/
theorem lruBody_congr {pages : vector} (u w : Nat → Int) {s : ScanState} {i : Nat}
    (h : isPageInAFrame s.frames (pageAt pages i) = false → ¬ s.frames.count < s.frames.size →
      ∃ r, getFarthestReferenceBefore pages s.frames i = some r) :
    lruBody pages u s i = lruBody pages w s i := by
  cases h1 : isPageInAFrame s.frames (pageAt pages i)
  · by_cases h2 : s.frames.count < s.frames.size
    · simp [lruBody, h1, h2]
    · obtain ⟨r, hr⟩ := h h1 h2
      simp [lruBody, h1, h2, hr, readIndex]
  · simp [lruBody, h1]

theorem optimalBody_congr {pages : vector} (u w : Nat → Int) {s : ScanState} {i : Nat}
    (h : isPageInAFrame s.frames (pageAt pages i) = false → ¬ s.frames.count < s.frames.size →
      ∃ r, getFarthestReferenceAfter pages s.frames i = some r) :
    optimalBody pages u s i = optimalBody pages w s i := by
  cases h1 : isPageInAFrame s.frames (pageAt pages i)
  · by_cases h2 : s.frames.count < s.frames.size
    · simp [optimalBody, h1, h2]
    · obtain ⟨r, hr⟩ := h h1 h2
      simp [optimalBody, h1, h2, hr, readIndex]
  · simp [optimalBody, h1]

/-- With two frames or more, at a counted fault of `leastRecentlyUsed` the scan
assigns its result. -/
theorem lruView_scan_assigned (pages : vector) {C : Nat} (hC : 2 ≤ C) {u : Nat → Int}
    (hu : ∀ k, 0 ≤ u k) (i : Nat)
    (hfull : ¬ (lruView pages (emptyFrames C) u i).frames.count <
      (lruView pages (emptyFrames C) u i).frames.size) :
    ∃ r, getFarthestReferenceBefore pages (lruView pages (emptyFrames C) u i).frames i = some r ∧
      r < (lruView pages (emptyFrames C) u i).frames.count ∧
      ∀ s, s < (lruView pages (emptyFrames C) u i).frames.count →
        scanBefore pages (vector_get (lruView pages (emptyFrames C) u i).frames r) (i - 1) ≤
          scanBefore pages (vector_get (lruView pages (emptyFrames C) u i).frames s) (i - 1) := by
  have hrun := lru_isRun pages (emptyFrames C) hu
  have hok := isRun_framesOk hrun i
  have hcount : (lruView pages (emptyFrames C) u i).frames.count = C := by
    have := hok.1; have := hok.2.2.1; omega
  have hidx := isRun_count_le_index hrun (by simp [emptyFrames_eq]) i
  exact getFarthestReferenceBefore_spec pages hok (by omega) (i := i) (by omega)

/-- With two frames or more, at a counted fault of `optimal` the scan assigns its
result. -/
theorem optimalView_scan_assigned (pages : vector) {C : Nat} (hC : 2 ≤ C) {u : Nat → Int}
    (hu : ∀ k, 0 ≤ u k) {i : Nat} (hi : i < pages.count)
    (hfull : ¬ (optimalView pages (emptyFrames C) u i).frames.count <
      (optimalView pages (emptyFrames C) u i).frames.size) :
    ∃ r, getFarthestReferenceAfter pages (optimalView pages (emptyFrames C) u i).frames i =
        some r ∧
      r < (optimalView pages (emptyFrames C) u i).frames.count ∧
      farthestVictim (resident (optimalView pages (emptyFrames C) u i).frames).toFinset
        (suffixFrom pages (i + 1))
        ((resident (optimalView pages (emptyFrames C) u i).frames).getD r 0) := by
  have hrun := optimal_isRun pages (emptyFrames C) hu
  have hok := isRun_framesOk hrun i
  have hcount : (optimalView pages (emptyFrames C) u i).frames.count = C := by
    have := hok.1; have := hok.2.2.1; omega
  exact getFarthestReferenceAfter_spec pages hok (by omega) hi

/-- With two frames or more `leastRecentlyUsed` never reads an unassigned index:
it has a state after every number of iterations, whatever the indeterminate
values are. -/
theorem lruLoop_two_frames (pages : vector) {C : Nat} (hC : 2 ≤ C) (u : Nat → Int) (i : Nat) :
    lruLoop pages (emptyFrames C) u i =
      some (lruView pages (emptyFrames C) (clamped u) i) := by
  induction i with
  | zero => rfl
  | succ i ih =>
    rw [lruLoop_succ_of_some ih, ← lruView_succ pages (emptyFrames C) (clamped_nonneg u) i]
    apply lruBody_congr
    intro _ hfull
    obtain ⟨r, hr, _⟩ := lruView_scan_assigned pages hC (clamped_nonneg u) i hfull
    exact ⟨r, hr⟩

/-- With two frames or more `optimal` never reads an unassigned index while it
goes over the trace. -/
theorem optimalLoop_two_frames (pages : vector) {C : Nat} (hC : 2 ≤ C) (u : Nat → Int)
    {i : Nat} (hi : i ≤ pages.count) :
    optimalLoop pages (emptyFrames C) u i =
      some (optimalView pages (emptyFrames C) (clamped u) i) := by
  induction i with
  | zero => rfl
  | succ i ih =>
    rw [optimalLoop_succ_of_some (ih (by omega)),
      ← optimalView_succ pages (emptyFrames C) (clamped_nonneg u) i]
    apply optimalBody_congr
    intro _ hfull
    obtain ⟨r, hr, _⟩ :=
      optimalView_scan_assigned pages hC (clamped_nonneg u) (i := i) (by omega) hfull
    exact ⟨r, hr⟩

theorem resident_emptyFrames (C : Nat) : resident (emptyFrames C) = [] := by
  simp [emptyFrames_eq, resident]

/-- The faults `firstInFirstOut` counts are the overwrites of a demand-paging run. -/
theorem fifo_paging (pages : vector) {C : Nat} (hC : 1 ≤ C) :
    Paging C anyVictim ∅ (suffixFrom pages 0) (firstInFirstOut pages (emptyFrames C)) := by
  have hrun := fifo_isRun pages (emptyFrames C)
  have h := isRun_paging anyVictim hrun
    (by
      intro i _ hmiss hfull
      have hok := isRun_framesOk hrun i
      simp only [FifoState.view] at hok hmiss hfull ⊢
      refine ⟨(fifoLoop pages (emptyFrames C) i).oldestPageIndex, ?_, ?_, trivial⟩
      · have := fifo_oldest_lt pages hC i
        have := hok.1; have := hok.2.2.1
        omega
      · exact fifoBody_frames_of_full hmiss hfull)
    pages.count 0 (by omega)
  simpa [FifoState.view, fifoLoop, resident_emptyFrames, firstInFirstOut] using h

/-- With two frames or more, the faults `leastRecentlyUsed` counts are the
overwrites of a demand-paging run. -/
theorem lru_paging (pages : vector) {C : Nat} (hC : 2 ≤ C) (u : Nat → Int) :
    ∃ n, leastRecentlyUsed pages (emptyFrames C) u = some n ∧
      Paging C anyVictim ∅ (suffixFrom pages 0) n := by
  have hu := clamped_nonneg u
  have hrun := lru_isRun pages (emptyFrames C) hu
  have h := isRun_paging anyVictim hrun
    (by
      intro i _ hmiss hfull
      obtain ⟨r, hr, hrlt, _⟩ := lruView_scan_assigned pages hC hu i hfull
      refine ⟨r, hrlt, ?_, trivial⟩
      rw [(lruBody_frames_of_full (lruView_succ pages (emptyFrames C) hu i) hmiss hfull).2, hr]
      rfl)
    pages.count 0 (by omega)
  refine ⟨(lruView pages (emptyFrames C) (clamped u) pages.count).numberOfPageFaults, ?_, ?_⟩
  · simp [leastRecentlyUsed, lruLoop_two_frames pages hC u]
  · simpa [lruView, lruLoop, resident_emptyFrames] using h

/-- With two frames or more, `optimal` is a demand-paging run that always takes
a victim with the farthest next reference. -/
theorem optimal_paging (pages : vector) {C : Nat} (hC : 2 ≤ C) (u : Nat → Int) :
    ∃ n, optimal pages (emptyFrames C) u = some n ∧
      Paging C farthestVictim ∅ (suffixFrom pages 0) n := by
  have hu := clamped_nonneg u
  have hrun := optimal_isRun pages (emptyFrames C) hu
  have h := isRun_paging farthestVictim hrun
    (by
      intro i hi hmiss hfull
      obtain ⟨r, hr, hrlt, hfar⟩ := optimalView_scan_assigned pages hC hu hi hfull
      refine ⟨r, hrlt, ?_, hfar⟩
      rw [(optimalBody_frames_of_full (optimalView_succ pages (emptyFrames C) hu i) hmiss
        hfull).2, hr]
      rfl)
    pages.count 0 (by omega)
  refine ⟨(optimalView pages (emptyFrames C) (clamped u) pages.count).numberOfPageFaults, ?_, ?_⟩
  · simp [optimal, optimalLoop_two_frames pages hC u le_rfl]
  · simpa [optimalView, optimalLoop, resident_emptyFrames] using h

/-- With two frames or more, for every trace and whatever the indeterminate
values are, `optimal` and `leastRecentlyUsed` return, and `optimal` counts no
more faults than `firstInFirstOut` and no more than `leastRecentlyUsed`. -/
theorem optimal_le_fifo_and_lru (pages : vector) (C : Nat) (hC : 2 ≤ C)
    (indeterminate indeterminateLru : Nat → Int) :
    ∃ o l, optimal pages (emptyFrames C) indeterminate = some o ∧
      leastRecentlyUsed pages (emptyFrames C) indeterminateLru = some l ∧
      o ≤ firstInFirstOut pages (emptyFrames C) ∧ o ≤ l := by
  obtain ⟨o, ho, hpo⟩ := optimal_paging pages hC indeterminate
  obtain ⟨l, hl, hpl⟩ := lru_paging pages hC indeterminateLru
  exact ⟨o, l, ho, hl,
    paging_farthest_le C _ ∅ _ _ (by simp) hpo (fifo_paging pages (by omega)),
    paging_farthest_le C _ ∅ _ _ (by simp) hpo hpl⟩

/-! ## The victims of `leastRecentlyUsed` and `optimal` with two frames or more -/

/-- Every slot below the one `getFarthestReferenceAfter` returns holds a page
that is referenced again. -/
theorem farthestAfterLoop_below (pages frames : vector) (i : Nat) (hi : i + 1 ≤ pages.count) :
    ∀ (n m : Nat) (res : Option Nat) (far : Nat),
      (∀ s, s < m →
        scanAfter pages (vector_get frames s) (pages.count - (i + 1)) (i + 1) < pages.count) →
      (∀ r, res = some r → r < m) →
      ∀ r, farthestAfterLoop pages frames i n m res far = some r →
        ∀ s, s < r →
          scanAfter pages (vector_get frames s) (pages.count - (i + 1)) (i + 1) < pages.count := by
  intro n
  induction n with
  | zero =>
    intro m res far hlt hsome r hr s hs
    simp only [farthestAfterLoop] at hr
    exact hlt s (lt_trans hs (hsome r hr))
  | succ n ih =>
    intro m res far hlt hsome r hr
    simp only [farthestAfterLoop] at hr
    have hstep : ∀ s, s < m + 1 →
        scanAfter pages (vector_get frames m) (pages.count - (i + 1)) (i + 1) < pages.count →
        scanAfter pages (vector_get frames s) (pages.count - (i + 1)) (i + 1) < pages.count := by
      intro s hs hm
      rcases Nat.lt_succ_iff_lt_or_eq.1 hs with h | h
      · exact hlt s h
      · rw [h]; exact hm
    have hle := scanAfter_le pages (vector_get frames m) hi
    split_ifs at hr with h1 h2 h3
    · exact ih (m + 1) (some m) _ (fun s hs => hstep s hs h1)
        (fun r hr => by injection hr with hr; omega) r hr
    · exact ih (m + 1) res far (fun s hs => hstep s hs h1)
        (fun r hr => by have := hsome r hr; omega) r hr
    · injection hr with hr
      subst hr
      exact hlt
    · omega

theorem mem_suffixFrom_iff_scanAfter_lt {pages : vector} {p : Int} {i : Nat}
    (hi : i + 1 ≤ pages.count) :
    p ∈ suffixFrom pages (i + 1) ↔
      scanAfter pages p (pages.count - (i + 1)) (i + 1) < pages.count := by
  rw [scanAfter_suffix p hi, ← List.indexOf_lt_length]
  have h2 : (suffixFrom pages (i + 1)).length = pages.count - (i + 1) := by
    simp [suffixFrom]
  omega

/-- The victim of `optimal` with two frames or more, on a run whose indeterminate
values are not negative. -/
theorem optimalView_victim (pages : vector) (C : Nat) (hC : 2 ≤ C)
    {u : Nat → Int} (hu : ∀ k, 0 ≤ u k) (i : Nat) (hi : i < pages.count)
    (hmiss : pageAt pages i ∉ resident (optimalView pages (emptyFrames C) u i).frames)
    (hfull : (optimalView pages (emptyFrames C) u i).frames.count = C) :
    ∃ r, r < C ∧
      getFarthestReferenceAfter pages
        (optimalView pages (emptyFrames C) u i).frames i = some r ∧
      (optimalView pages (emptyFrames C) u (i + 1)).frames =
        vector_insert (optimalView pages (emptyFrames C) u i).frames r
          (pageAt pages i) ∧
      (∀ s, s < r →
        (resident (optimalView pages (emptyFrames C) u i).frames).getD s 0 ∈
          suffixFrom pages (i + 1)) ∧
      ((∃ s, s < C ∧
          (resident (optimalView pages (emptyFrames C) u i).frames).getD s 0 ∉
            suffixFrom pages (i + 1)) →
        (resident (optimalView pages (emptyFrames C) u i).frames).getD r 0 ∉
          suffixFrom pages (i + 1)) ∧
      (∀ s, s < C →
        (suffixFrom pages (i + 1)).indexOf
            ((resident (optimalView pages (emptyFrames C) u i).frames).getD s 0) ≤
          (suffixFrom pages (i + 1)).indexOf
            ((resident (optimalView pages (emptyFrames C) u i).frames).getD r 0)) := by
  have hrun := optimal_isRun pages (emptyFrames C) hu
  have hok := isRun_framesOk hrun i
  have hlen := resident_length hok
  have hnotfree : ¬ (optimalView pages (emptyFrames C) u i).frames.count <
      (optimalView pages (emptyFrames C) u i).frames.size := by
    rw [hok.1, hfull]; omega
  obtain ⟨r, hr, hrlt, hfar⟩ := getFarthestReferenceAfter_spec pages hok (by omega) hi
  have hbelow := farthestAfterLoop_below pages
    (optimalView pages (emptyFrames C) u i).frames i (by omega)
    (optimalView pages (emptyFrames C) u i).frames.count 0 none (i + 1)
    (fun s hs => absurd hs (by omega)) (fun r hr => absurd hr (by simp)) r hr
  have hmax : ∀ s, s < C →
      (suffixFrom pages (i + 1)).indexOf
          ((resident (optimalView pages (emptyFrames C) u i).frames).getD s 0) ≤
        (suffixFrom pages (i + 1)).indexOf
          ((resident (optimalView pages (emptyFrames C) u i).frames).getD r 0) := by
    intro s hs
    apply hfar
    rw [List.mem_toFinset, List.getD_eq_getElem _ _ (by omega)]
    exact List.getElem_mem _
  refine ⟨r, by omega, hr, ?_, ?_, ?_, hmax⟩
  · rw [(optimalBody_frames_of_full (optimalView_succ pages (emptyFrames C) hu i) hmiss
      hnotfree).2, hr]
    rfl
  · intro s hs
    have := hbelow s hs
    rw [vector_get_resident (by omega)] at this
    exact (mem_suffixFrom_iff_scanAfter_lt (by omega)).2 this
  · rintro ⟨s, hs, hnot⟩ hmem
    have h1 := hmax s hs
    have h2 := List.indexOf_lt_length.2 hmem
    have h3 := List.indexOf_eq_length.2 hnot
    omega

/-- The victim of `optimal` with two frames or more.  The driver has a state `s`
before and a state `t` after reference `i`, whatever the indeterminate values
are.  When reference `i` is not resident and all `C` frames are occupied,
`optimal` overwrites an occupied slot `r`: when some resident page is not
referenced after `i`, `r` is the lowest slot holding such a page; otherwise the
page in `r` is the one whose next reference comes last. -/
theorem optimal_victim_two_frames (pages : vector) (C : Nat) (hC : 2 ≤ C)
    (indeterminate : Nat → Int) (i : Nat) (hi : i < pages.count) :
    ∃ s t, optimalLoop pages (emptyFrames C) indeterminate i = some s ∧
      optimalLoop pages (emptyFrames C) indeterminate (i + 1) = some t ∧
      (pageAt pages i ∉ resident s.frames → s.frames.count = C →
        ∃ r, r < C ∧
          getFarthestReferenceAfter pages s.frames i = some r ∧
          t.frames = vector_insert s.frames r (pageAt pages i) ∧
          (∀ q, q < r → (resident s.frames).getD q 0 ∈ suffixFrom pages (i + 1)) ∧
          ((∃ q, q < C ∧ (resident s.frames).getD q 0 ∉ suffixFrom pages (i + 1)) →
            (resident s.frames).getD r 0 ∉ suffixFrom pages (i + 1)) ∧
          (∀ q, q < C →
            (suffixFrom pages (i + 1)).indexOf ((resident s.frames).getD q 0) ≤
              (suffixFrom pages (i + 1)).indexOf ((resident s.frames).getD r 0))) :=
  ⟨_, _, optimalLoop_two_frames pages hC indeterminate (Nat.le_of_lt hi),
    optimalLoop_two_frames pages hC indeterminate (Nat.succ_le_of_lt hi),
    fun hmiss hfull =>
      optimalView_victim pages C hC (clamped_nonneg indeterminate) i hi hmiss hfull⟩

/-- Every resident page has been referenced. -/
theorem isRun_resident_referenced {pages : vector} {C : Nat} {v : Nat → ScanState}
    (h : IsRun pages (emptyFrames C) v) (i : Nat) :
    ∀ p, p ∈ resident (v i).frames → ∃ j, j < i ∧ pageAt pages j = p := by
  induction i with
  | zero =>
    intro p hp
    rw [h.start, resident_emptyFrames] at hp
    simp at hp
  | succ i ih =>
    intro p hp
    have hok := isRun_framesOk h i
    have hold : p ∈ resident (v i).frames ∨ p = pageAt pages i := by
      rcases h.step i with ⟨_, hf, _, _⟩ | ⟨_, hfree, hf, _, _⟩ | ⟨_, _, ⟨idx, hf⟩, _, _⟩
      · rw [hf] at hp; exact Or.inl hp
      · rw [hf, resident_push_back hok hfree] at hp
        rcases List.mem_append.1 hp with h1 | h1
        · exact Or.inl h1
        · exact Or.inr (by simpa using h1)
      · rw [hf] at hp
        rcases resident_vector_insert (v i).frames idx (pageAt pages i) with h1 | ⟨n, _, _, h1⟩
        · rw [h1] at hp; exact Or.inl hp
        · rw [h1] at hp
          exact List.mem_or_eq_of_mem_set hp
    rcases hold with h1 | h1
    · obtain ⟨j, hj, hjp⟩ := ih p h1
      exact ⟨j, by omega, hjp⟩
    · exact ⟨i, by omega, h1.symm⟩

theorem getD_mem_of_lt {l : List Int} {s : Nat} (h : s < l.length) : l.getD s 0 ∈ l := by
  rw [List.getD_eq_getElem _ _ h]
  exact List.getElem_mem _

theorem getD_inj_of_nodup {l : List Int} (hl : l.Nodup) {s r : Nat} (hs : s < l.length)
    (hr : r < l.length) (h : l.getD s 0 = l.getD r 0) : s = r := by
  rw [List.getD_eq_getElem _ _ hs, List.getD_eq_getElem _ _ hr] at h
  exact (hl.getElem_inj_iff).1 h

/-- The inner loop of `getFarthestReferenceBefore` started at `j0` stops at the
most recent reference to the page among `1 .. j0`, or at 0 when there is none. -/
theorem scanBefore_spec (pages : vector) (p : Int) :
    ∀ j0, (0 < scanBefore pages p j0 → vector_get pages (scanBefore pages p j0) = p) ∧
      ∀ j, scanBefore pages p j0 < j → j ≤ j0 → vector_get pages j ≠ p := by
  intro j0
  induction j0 with
  | zero =>
    refine ⟨fun h => by simp [scanBefore] at h, fun j h1 h2 => ?_⟩
    simp only [scanBefore] at h1
    omega
  | succ j0 ih =>
    simp only [scanBefore]
    by_cases hp : vector_get pages (j0 + 1) = p
    · rw [if_pos hp]
      exact ⟨fun _ => hp, fun j h1 h2 => by omega⟩
    · rw [if_neg hp]
      refine ⟨ih.1, fun j h1 h2 => ?_⟩
      rcases Nat.lt_or_ge j (j0 + 1) with h | h
      · exact ih.2 j h1 (by omega)
      · have : j = j0 + 1 := by omega
        rw [this]; exact hp

/-- The victim of `leastRecentlyUsed` with two frames or more, on a run whose
indeterminate values are not negative. -/
theorem lruView_victim (pages : vector) (C : Nat) (hC : 2 ≤ C)
    {u : Nat → Int} (hu : ∀ k, 0 ≤ u k) (i : Nat) (hi : i < pages.count)
    (hmiss : pageAt pages i ∉ resident (lruView pages (emptyFrames C) u i).frames)
    (hfull : (lruView pages (emptyFrames C) u i).frames.count = C) :
    ∃ r jr, r < C ∧
      getFarthestReferenceBefore pages
        (lruView pages (emptyFrames C) u i).frames i = some r ∧
      (lruView pages (emptyFrames C) u (i + 1)).frames =
        vector_insert (lruView pages (emptyFrames C) u i).frames r
          (pageAt pages i) ∧
      jr < i ∧
      pageAt pages jr = (resident (lruView pages (emptyFrames C) u i).frames).getD r 0 ∧
      (∀ j, jr < j → j < i →
        pageAt pages j ≠
          (resident (lruView pages (emptyFrames C) u i).frames).getD r 0) ∧
      (∀ s, s < C → s ≠ r → ∃ js, jr < js ∧ js < i ∧
        pageAt pages js =
          (resident (lruView pages (emptyFrames C) u i).frames).getD s 0) := by
  have hrun := lru_isRun pages (emptyFrames C) hu
  have hok := isRun_framesOk hrun i
  have hlen := resident_length hok
  have hidx := isRun_count_le_index hrun (by simp [emptyFrames_eq]) i
  have hhist := isRun_resident_referenced hrun i
  have hnotfree : ¬ (lruView pages (emptyFrames C) u i).frames.count <
      (lruView pages (emptyFrames C) u i).frames.size := by
    rw [hok.1, hfull]; omega
  obtain ⟨r, hr, hrlt, hmin⟩ := getFarthestReferenceBefore_spec pages hok (by omega) (i := i)
    (by omega)
  -- the backward scan of a resident page stops at its most recent reference
  have hlast : ∀ s, s < C →
      pageAt pages (scanBefore pages
          ((resident (lruView pages (emptyFrames C) u i).frames).getD s 0) (i - 1)) =
        (resident (lruView pages (emptyFrames C) u i).frames).getD s 0 := by
    intro s hs
    have hle := scanBefore_le pages
      ((resident (lruView pages (emptyFrames C) u i).frames).getD s 0) (i - 1)
    obtain ⟨hfound, hafter⟩ := scanBefore_spec pages
      ((resident (lruView pages (emptyFrames C) u i).frames).getD s 0) (i - 1)
    by_cases h0 : 0 < scanBefore pages
        ((resident (lruView pages (emptyFrames C) u i).frames).getD s 0) (i - 1)
    · rw [← vector_get_eq_pageAt (by omega)]
      exact hfound h0
    · obtain ⟨j, hj, hjp⟩ := hhist _ (getD_mem_of_lt (s := s) (by omega))
      have hz : scanBefore pages
          ((resident (lruView pages (emptyFrames C) u i).frames).getD s 0) (i - 1) =
            0 := by omega
      rw [hz]
      by_cases hj0 : j = 0
      · rw [← hj0]; exact hjp
      · exfalso
        apply hafter j (by omega) (by omega)
        rw [vector_get_eq_pageAt (by omega)]
        exact hjp
  have hscan : ∀ s, s < C → vector_get (lruView pages (emptyFrames C) u i).frames s =
      (resident (lruView pages (emptyFrames C) u i).frames).getD s 0 :=
    fun s hs => vector_get_resident (by omega)
  refine ⟨r, scanBefore pages
      ((resident (lruView pages (emptyFrames C) u i).frames).getD r 0) (i - 1),
    by omega, hr, ?_, ?_, hlast r (by omega), ?_, ?_⟩
  · rw [(lruBody_frames_of_full (lruView_succ pages (emptyFrames C) hu i) hmiss hnotfree).2, hr]
    rfl
  · have := scanBefore_le pages
      ((resident (lruView pages (emptyFrames C) u i).frames).getD r 0) (i - 1)
    omega
  · intro j h1 h2
    rw [← vector_get_eq_pageAt (by omega)]
    exact (scanBefore_spec pages _ (i - 1)).2 j h1 (by omega)
  · intro s hs hsr
    have h1 := hmin s (by omega)
    rw [hscan s hs, hscan r (by omega)] at h1
    have hle := scanBefore_le pages
      ((resident (lruView pages (emptyFrames C) u i).frames).getD s 0) (i - 1)
    refine ⟨_, ?_, by omega, hlast s hs⟩
    rcases Nat.lt_or_ge (scanBefore pages
      ((resident (lruView pages (emptyFrames C) u i).frames).getD r 0) (i - 1))
      (scanBefore pages
      ((resident (lruView pages (emptyFrames C) u i).frames).getD s 0) (i - 1))
      with h | h
    · exact h
    · exfalso
      have heq : scanBefore pages
          ((resident (lruView pages (emptyFrames C) u i).frames).getD r 0) (i - 1) =
          scanBefore pages
          ((resident (lruView pages (emptyFrames C) u i).frames).getD s 0) (i - 1) :=
        by omega
      have h2 := hlast r (by omega)
      rw [heq, hlast s hs] at h2
      exact hsr (getD_inj_of_nodup hok.2.2.2 (by omega) (by omega) h2)

/-- The victim of `leastRecentlyUsed` with two frames or more.  The driver has a
state `s` before and a state `t` after reference `i`, whatever the indeterminate
values are.  When reference `i` is not resident and all `C` frames are occupied,
`leastRecentlyUsed` overwrites an occupied slot `r`; the page in it was last
referenced at `jr`, and every other resident page has been referenced after
`jr`. -/
theorem lru_victim_two_frames (pages : vector) (C : Nat) (hC : 2 ≤ C)
    (indeterminate : Nat → Int) (i : Nat) (hi : i < pages.count) :
    ∃ s t, lruLoop pages (emptyFrames C) indeterminate i = some s ∧
      lruLoop pages (emptyFrames C) indeterminate (i + 1) = some t ∧
      (pageAt pages i ∉ resident s.frames → s.frames.count = C →
        ∃ r jr, r < C ∧
          getFarthestReferenceBefore pages s.frames i = some r ∧
          t.frames = vector_insert s.frames r (pageAt pages i) ∧
          jr < i ∧
          pageAt pages jr = (resident s.frames).getD r 0 ∧
          (∀ j, jr < j → j < i → pageAt pages j ≠ (resident s.frames).getD r 0) ∧
          (∀ q, q < C → q ≠ r → ∃ js, jr < js ∧ js < i ∧
            pageAt pages js = (resident s.frames).getD q 0)) :=
  ⟨_, _, lruLoop_two_frames pages hC indeterminate i,
    lruLoop_two_frames pages hC indeterminate (i + 1),
    fun hmiss hfull =>
      lruView_victim pages C hC (clamped_nonneg indeterminate) i hi hmiss hfull⟩

/-! ## Where a counted fault stores its page -/

theorem getD_set_int (l : List Int) (n slot : Nat) (p : Int) (hn : n < l.length) :
    (l.set n p).getD slot 0 = if slot = n then p else l.getD slot 0 := by
  simp only [List.getD_eq_getElem?_getD, List.getElem?_set]
  by_cases hs : slot = n
  · subst hs; simp [hn]
  · simp [hs, Ne.symm hs]

/-- The cursor of `firstInFirstOut` is the fault counter modulo the capacity. -/
theorem fifo_oldest_eq_mod (pages : vector) {C : Nat} (hC : 1 ≤ C) (i : Nat) :
    (fifoLoop pages (emptyFrames C) i).oldestPageIndex =
      (fifoLoop pages (emptyFrames C) i).numberOfPageFaults % C := by
  induction i with
  | zero => show 0 = 0 % C; simp
  | succ i ih =>
    have hok := isRun_framesOk (fifo_isRun pages (emptyFrames C)) i
    simp only [FifoState.view] at hok
    have hlt := fifo_oldest_lt pages hC i
    simp only [fifoLoop, fifoBody]
    split_ifs with h1 h2 h3
    · exact ih
    · exact ih
    · rw [vector_insert_size, hok.1] at h3
      show 0 = ((fifoLoop pages (emptyFrames C) i).numberOfPageFaults + 1) % C
      rw [← Nat.mod_add_mod, ← ih, h3, Nat.mod_self]
    · rw [vector_insert_size, hok.1] at h3
      show (fifoLoop pages (emptyFrames C) i).oldestPageIndex + 1 =
        ((fifoLoop pages (emptyFrames C) i).numberOfPageFaults + 1) % C
      rw [← Nat.mod_add_mod, ← ih, Nat.mod_eq_of_lt (by omega)]

theorem not_mem_of_isPageInAFrame_false {f : vector} {p : Int}
    (h : isPageInAFrame f p = false) : p ∉ resident f := by
  rw [← isPageInAFrame_iff, h]; simp

theorem count_eq_of_not_free {C : Nat} {f : vector} (hf : FramesOk C f)
    (h : ¬ f.count < f.size) : f.count = C := by
  have := hf.1; have := hf.2.2.1; omega

theorem fifoBody_faults_of_full {pages : vector} {s : FifoState} {i : Nat}
    (hmiss : isPageInAFrame s.frames (pageAt pages i) = false)
    (hfull : ¬ s.frames.count < s.frames.size) :
    (fifoBody pages s i).numberOfPageFaults = s.numberOfPageFaults + 1 := by
  simp [fifoBody, hmiss, hfull]

/-- A counted fault of `firstInFirstOut` overwrites the cell under the cursor. -/
theorem fifo_fault_frames (pages : vector) {C : Nat} (hC : 1 ≤ C) (i : Nat)
    (hmiss : isPageInAFrame (fifoLoop pages (emptyFrames C) i).frames (pageAt pages i) = false)
    (hfull : ¬ (fifoLoop pages (emptyFrames C) i).frames.count <
      (fifoLoop pages (emptyFrames C) i).frames.size) :
    (fifoLoop pages (emptyFrames C) (i + 1)).frames =
      { array := (fifoLoop pages (emptyFrames C) i).frames.array.set
          (fifoLoop pages (emptyFrames C) i).oldestPageIndex (pageAt pages i),
        size := C, count := C } := by
  have hok := isRun_framesOk (fifo_isRun pages (emptyFrames C)) i
  simp only [FifoState.view] at hok
  have hcount := count_eq_of_not_free hok hfull
  have hlt := fifo_oldest_lt pages hC i
  show (fifoBody pages (fifoLoop pages (emptyFrames C) i) i).frames = _
  rw [fifoBody_frames_of_full (not_mem_of_isPageInAFrame_false hmiss) hfull,
    vector_insert_of_lt (by omega), hok.1, hcount]

/-! ## The referenced page is resident after its iteration -/

/-- After an iteration whose overwrite, if any, lands on an occupied slot, the
referenced page is resident, and the line printed shows the frames as they are
after the iteration. -/
theorem step_page_resident {pages : vector} {i C : Nat} {s t : ScanState}
    (h : Step pages i s t) (hs : FramesOk C s.frames)
    (hproper : pageAt pages i ∉ resident s.frames → ¬ s.frames.count < s.frames.size →
      ∃ n : Nat, n < s.frames.count ∧
        t.frames = vector_insert s.frames n (pageAt pages i)) :
    pageAt pages i ∈ resident t.frames ∧
      ∃ row, t.output = s.output ++ [row] ∧ row.pageNumber = pageAt pages i ∧
        row.content = resident t.frames := by
  rcases h with ⟨hp, hf, _, ho⟩ | ⟨hp, hfree, hf, _, ho⟩ | ⟨hp, hfull, _, _, ho⟩
  · rw [hf]
    exact ⟨hp, _, ho, rfl, rfl⟩
  · refine ⟨?_, _, ho, rfl, rfl⟩
    rw [hf, resident_push_back hs hfree]
    simp
  · refine ⟨?_, _, ho, rfl, rfl⟩
    obtain ⟨n, hn, hf⟩ := hproper hp hfull
    have hlen := resident_length hs
    rw [hf, vector_insert_of_lt hn]
    simp only [resident, List.set_take]
    apply List.mem_iff_getElem.2
    refine ⟨n, ?_, ?_⟩
    · simp only [List.length_set]
      simp only [resident] at hlen
      omega
    · simp

/-- The line printed for reference `i`, read in the output of a later state. -/
theorem isRun_row {pages frames : vector} {v : Nat → ScanState}
    (h : IsRun pages frames v) {i n : Nat} (hin : i < n) {row : Row}
    (hrow : (v (i + 1)).output = (v i).output ++ [row]) :
    (v n).output[i]? = some row := by
  obtain ⟨rest, hrest⟩ := isRun_output_prefix h (show i + 1 ≤ n by omega)
  have hlen := isRun_output_length h i
  rw [← hrest, hrow, List.append_assoc, List.getElem?_append_right (by omega), hlen]
  simp

theorem isRun_page_resident {pages : vector} {C : Nat} {v : Nat → ScanState}
    (h : IsRun pages (emptyFrames C) v)
    (hproper : ∀ i, pageAt pages i ∉ resident (v i).frames →
      ¬ (v i).frames.count < (v i).frames.size →
      ∃ n : Nat, n < (v i).frames.count ∧
        (v (i + 1)).frames = vector_insert (v i).frames n (pageAt pages i))
    (i : Nat) (hi : i < pages.count) :
    pageAt pages i ∈ resident (v (i + 1)).frames ∧
      ∃ row, (v pages.count).output[i]? = some row ∧ row.pageNumber = pageAt pages i ∧
        row.content = resident (v (i + 1)).frames := by
  obtain ⟨hmem, row, hrow, hpage, hcontent⟩ :=
    step_page_resident (h.step i) (isRun_framesOk h i) (hproper i)
  exact ⟨hmem, row, isRun_row h hi hrow, hpage, hcontent⟩

theorem fifo_proper (pages : vector) {C : Nat} (hC : 1 ≤ C) (i : Nat)
    (hmiss : pageAt pages i ∉ resident (fifoLoop pages (emptyFrames C) i).frames)
    (hfull : ¬ (fifoLoop pages (emptyFrames C) i).frames.count <
      (fifoLoop pages (emptyFrames C) i).frames.size) :
    ∃ n : Nat, n < (fifoLoop pages (emptyFrames C) i).frames.count ∧
      (fifoLoop pages (emptyFrames C) (i + 1)).frames =
        vector_insert (fifoLoop pages (emptyFrames C) i).frames n (pageAt pages i) := by
  have hok := isRun_framesOk (fifo_isRun pages (emptyFrames C)) i
  simp only [FifoState.view] at hok
  have hcount := count_eq_of_not_free hok hfull
  have hlt := fifo_oldest_lt pages hC i
  exact ⟨_, by omega, fifoBody_frames_of_full hmiss hfull⟩

theorem lru_proper (pages : vector) {C : Nat} (hC : 2 ≤ C) {u : Nat → Int}
    (hu : ∀ k, 0 ≤ u k) (i : Nat)
    (hmiss : pageAt pages i ∉ resident (lruView pages (emptyFrames C) u i).frames)
    (hfull : ¬ (lruView pages (emptyFrames C) u i).frames.count <
      (lruView pages (emptyFrames C) u i).frames.size) :
    ∃ n : Nat, n < (lruView pages (emptyFrames C) u i).frames.count ∧
      getFarthestReferenceBefore pages (lruView pages (emptyFrames C) u i).frames i = some n ∧
      (lruView pages (emptyFrames C) u (i + 1)).frames =
        vector_insert (lruView pages (emptyFrames C) u i).frames n (pageAt pages i) := by
  obtain ⟨r, hr, hrlt, _⟩ := lruView_scan_assigned pages hC hu i hfull
  refine ⟨r, hrlt, hr, ?_⟩
  rw [(lruBody_frames_of_full (lruView_succ pages (emptyFrames C) hu i) hmiss hfull).2, hr]
  rfl

theorem optimal_proper (pages : vector) {C : Nat} (hC : 2 ≤ C) {u : Nat → Int}
    (hu : ∀ k, 0 ≤ u k) (i : Nat) (hi : i < pages.count)
    (hmiss : pageAt pages i ∉ resident (optimalView pages (emptyFrames C) u i).frames)
    (hfull : ¬ (optimalView pages (emptyFrames C) u i).frames.count <
      (optimalView pages (emptyFrames C) u i).frames.size) :
    ∃ n : Nat, n < (optimalView pages (emptyFrames C) u i).frames.count ∧
      getFarthestReferenceAfter pages (optimalView pages (emptyFrames C) u i).frames i =
        some n ∧
      (optimalView pages (emptyFrames C) u (i + 1)).frames =
        vector_insert (optimalView pages (emptyFrames C) u i).frames n (pageAt pages i) := by
  obtain ⟨r, hr, hrlt, _⟩ := optimalView_scan_assigned pages hC hu hi hfull
  refine ⟨r, hrlt, hr, ?_⟩
  rw [(optimalBody_frames_of_full (optimalView_succ pages (emptyFrames C) hu i) hmiss hfull).2,
    hr]
  rfl

theorem clock_proper (pages : vector) {C : Nat} (hC : 1 ≤ C) (i : Nat)
    (hmiss : pageAt pages i ∉ resident (clockView pages (emptyFrames C) i).frames)
    (hfull : ¬ (clockView pages (emptyFrames C) i).frames.count <
      (clockView pages (emptyFrames C) i).frames.size) :
    ∃ n : Nat, n < (clockView pages (emptyFrames C) i).frames.count ∧
      (clockView pages (emptyFrames C) (i + 1)).frames =
        vector_insert (clockView pages (emptyFrames C) i).frames n (pageAt pages i) := by
  obtain ⟨s, hs, hok⟩ := clockLoop_ok pages hC i
  rw [clockView_eq hs] at hmiss hfull ⊢
  simp only [ClockState.view] at hmiss hfull ⊢
  have hcount := count_eq_of_not_free hok.1 hfull
  obtain ⟨bits, k, _, _, _, _, _, hev⟩ := clockEvict_spec hok hcount hmiss
  have hmissb : isPageInAFrame s.frames (pageAt pages i) = false := by
    cases h : isPageInAFrame s.frames (pageAt pages i)
    · rfl
    · exact absurd ((isPageInAFrame_iff _ _).1 h) hmiss
  have hbody : clockBody pages s i = clockEvict s (pageAt pages i) := by
    simp only [clockBody, hmissb, hfull, Bool.false_eq_true, if_false]
  have hnext : clockLoop pages (emptyFrames C) (i + 1) = clockEvict s (pageAt pages i) := by
    simp only [clockLoop, hs, hbody]
  rw [hev] at hnext
  have hC0 : 0 < C := by omega
  have hv : (s.index + k) % C < C := Nat.mod_lt _ hC0
  rw [clockView_eq hnext]
  refine ⟨(s.index + k) % C, by omega, ?_⟩
  simp only [ClockState.view]
  rw [vector_insert_of_lt (by omega), hok.1.1, hcount]

/-! ## Counted faults, misses and distinct pages -/

theorem seen_succ (pages : vector) (n : Nat) :
    ((List.range (n + 1)).map (pageAt pages)).toFinset =
      insert (pageAt pages n) ((List.range n).map (pageAt pages)).toFinset := by
  rw [List.range_succ, List.map_append, List.toFinset_append]
  ext y
  simp [or_comm]

/-- The resident pages are among the pages referenced so far, and they are all
of them while there is free capacity. -/
theorem isRun_resident_seen {pages : vector} {C : Nat} {v : Nat → ScanState}
    (h : IsRun pages (emptyFrames C) v) (k : Nat) :
    (resident (v k).frames).toFinset ⊆ ((List.range k).map (pageAt pages)).toFinset ∧
      ((v k).frames.count < C →
        (resident (v k).frames).toFinset = ((List.range k).map (pageAt pages)).toFinset) := by
  induction k with
  | zero =>
    rw [h.start, resident_emptyFrames]
    simp
  | succ k ih =>
    obtain ⟨hsub, heq⟩ := ih
    have hok := isRun_framesOk h k
    rw [seen_succ]
    rcases h.step k with ⟨hp, hf, _, _⟩ | ⟨hp, hfree, hf, _, _⟩ | ⟨hp, hfull, ⟨idx, hf⟩, _, _⟩
    · rw [hf]
      refine ⟨hsub.trans (Finset.subset_insert _ _), fun hlt => ?_⟩
      rw [← heq hlt, Finset.insert_eq_of_mem (List.mem_toFinset.2 hp)]
    · have hlt : (v k).frames.count < C := by rw [← hok.1]; exact hfree
      have hres : (resident (v (k + 1)).frames).toFinset =
          insert (pageAt pages k) (resident (v k).frames).toFinset := by
        rw [hf, resident_push_back hok hfree, List.toFinset_append]
        ext y; simp [or_comm]
      rw [hres, heq hlt]
      exact ⟨Finset.Subset.refl _, fun _ => rfl⟩
    · have hcount := count_eq_of_not_free hok hfull
      constructor
      · intro y hy
        rw [List.mem_toFinset, hf] at hy
        rw [Finset.mem_insert]
        rcases resident_vector_insert (v k).frames idx (pageAt pages k) with h1 | ⟨n, _, _, h1⟩
        · rw [h1] at hy; exact Or.inr (hsub (List.mem_toFinset.2 hy))
        · rw [h1] at hy
          rcases List.mem_or_eq_of_mem_set hy with h2 | h2
          · exact Or.inr (hsub (List.mem_toFinset.2 h2))
          · exact Or.inl h2
      · intro hlt
        rw [hf, vector_insert_count] at hlt
        omega

/-- The occupancy is the smaller of the capacity and the number of distinct
pages referenced so far. -/
theorem isRun_count_eq_min {pages : vector} {C : Nat} {v : Nat → ScanState}
    (h : IsRun pages (emptyFrames C) v) (k : Nat) :
    (v k).frames.count = min C (distinctPages pages k) := by
  obtain ⟨hsub, heq⟩ := isRun_resident_seen h k
  have hok := isRun_framesOk h k
  have hcard := card_resident hok
  unfold distinctPages
  rcases Nat.lt_or_ge (v k).frames.count C with hlt | hge
  · rw [← heq hlt, hcard]
    omega
  · have hle := Finset.card_le_card hsub
    have := hok.2.2.1
    rw [hcard] at hle
    omega

/-! ## The order in which `firstInFirstOut` loads its frames -/

theorem fifoBody_of_hit {pages : vector} {s : FifoState} {i : Nat}
    (h : isPageInAFrame s.frames (pageAt pages i) = true) :
    (fifoBody pages s i).frames = s.frames ∧
      (fifoBody pages s i).oldestPageIndex = s.oldestPageIndex := by
  simp [fifoBody, h]

theorem fifoBody_of_free {pages : vector} {s : FifoState} {i : Nat}
    (h : isPageInAFrame s.frames (pageAt pages i) = false)
    (hfree : s.frames.count < s.frames.size) :
    (fifoBody pages s i).frames = vector_push_back s.frames (pageAt pages i) ∧
      (fifoBody pages s i).oldestPageIndex = s.oldestPageIndex := by
  simp [fifoBody, h, hfree]

theorem fifoBody_oldest_of_full {pages : vector} {s : FifoState} {i : Nat}
    (h : isPageInAFrame s.frames (pageAt pages i) = false)
    (hfull : ¬ s.frames.count < s.frames.size) :
    (fifoBody pages s i).oldestPageIndex =
      if s.oldestPageIndex + 1 = s.frames.size then 0 else s.oldestPageIndex + 1 := by
  simp [fifoBody, h, hfull, vector_insert_size]

/-- `fifoStoreSlot` is the slot the iteration writes: the cells after the
iteration are the cells before it with that slot set to the referenced page. -/
theorem fifoStoreSlot_spec (pages : vector) {C : Nat} (hC : 1 ≤ C) (i : Nat) :
    (fifoLoop pages (emptyFrames C) (i + 1)).frames.array =
      match fifoStoreSlot pages (emptyFrames C) i with
      | none => (fifoLoop pages (emptyFrames C) i).frames.array
      | some slot => (fifoLoop pages (emptyFrames C) i).frames.array.set slot (pageAt pages i) := by
  unfold fifoStoreSlot
  cases h1 : isPageInAFrame (fifoLoop pages (emptyFrames C) i).frames (pageAt pages i)
  · by_cases h2 : (fifoLoop pages (emptyFrames C) i).frames.count <
        (fifoLoop pages (emptyFrames C) i).frames.size
    · simp only [Bool.false_eq_true, if_false, if_pos h2]
      show (fifoBody pages (fifoLoop pages (emptyFrames C) i) i).frames.array = _
      rw [(fifoBody_of_free h1 h2).1, vector_push_back_of_lt h2]
    · simp only [Bool.false_eq_true, if_false, if_neg h2]
      rw [fifo_fault_frames pages hC i h1 h2]
  · simp only [if_true]
    show (fifoBody pages (fifoLoop pages (emptyFrames C) i) i).frames.array = _
    rw [(fifoBody_of_hit h1).1]

theorem fifoLoadedAt_succ_of_ne {pages frames : vector} {slot k : Nat}
    (h : fifoStoreSlot pages frames k ≠ some slot) :
    fifoLoadedAt pages frames slot (k + 1) = fifoLoadedAt pages frames slot k := by
  simp only [fifoLoadedAt, if_neg h]

theorem fifoLoadedAt_succ_of_eq {pages frames : vector} {slot k : Nat}
    (h : fifoStoreSlot pages frames k = some slot) :
    fifoLoadedAt pages frames slot (k + 1) = some k := by
  simp only [fifoLoadedAt, if_pos h]

/-- The frames of `firstInFirstOut` were loaded in the cyclic order that starts
at the cursor: every occupied slot holds the page of the reference that loaded
it last, and a slot that comes earlier in that order was loaded earlier. -/
theorem fifo_load_order (pages : vector) {C : Nat} (hC : 1 ≤ C) (k : Nat) :
    ((fifoLoop pages (emptyFrames C) k).frames.count < C →
      (fifoLoop pages (emptyFrames C) k).oldestPageIndex = 0) ∧
    (∀ a, a < (fifoLoop pages (emptyFrames C) k).frames.count →
      ∃ t, t < k ∧ fifoLoadedAt pages (emptyFrames C) a k = some t ∧
        pageAt pages t = (fifoLoop pages (emptyFrames C) k).frames.array.getD a 0) ∧
    (∀ a b ta tb, a < (fifoLoop pages (emptyFrames C) k).frames.count →
      b < (fifoLoop pages (emptyFrames C) k).frames.count →
      cyclicBefore (fifoLoop pages (emptyFrames C) k).oldestPageIndex a b →
      fifoLoadedAt pages (emptyFrames C) a k = some ta →
      fifoLoadedAt pages (emptyFrames C) b k = some tb → ta < tb) := by
  induction k with
  | zero =>
    refine ⟨fun _ => rfl, ?_, ?_⟩
    · intro a ha
      simp [fifoLoop, emptyFrames_eq] at ha
    · intro a b ta tb ha
      simp [fifoLoop, emptyFrames_eq] at ha
  | succ k ih =>
    obtain ⟨hzero, hload, horder⟩ := ih
    have hok := isRun_framesOk (fifo_isRun pages (emptyFrames C)) k
    simp only [FifoState.view] at hok
    have hlt := fifo_oldest_lt pages hC k
    have harr := fifoStoreSlot_spec pages hC k
    have hnext : fifoLoop pages (emptyFrames C) (k + 1) =
        fifoBody pages (fifoLoop pages (emptyFrames C) k) k := rfl
    cases h1 : isPageInAFrame (fifoLoop pages (emptyFrames C) k).frames (pageAt pages k)
    · by_cases h2 : (fifoLoop pages (emptyFrames C) k).frames.count <
          (fifoLoop pages (emptyFrames C) k).frames.size
      · -- a load into free capacity: slot `count` is written
        have hslot : fifoStoreSlot pages (emptyFrames C) k =
            some (fifoLoop pages (emptyFrames C) k).frames.count := by
          simp only [fifoStoreSlot, h1, Bool.false_eq_true, if_false, if_pos h2]
        have hfree : (fifoLoop pages (emptyFrames C) k).frames.count < C := by
          have := hok.1; omega
        obtain ⟨hframes, hold⟩ := fifoBody_of_free h1 h2
        rw [← hnext] at hframes hold
        have hcount : (fifoLoop pages (emptyFrames C) (k + 1)).frames.count =
            (fifoLoop pages (emptyFrames C) k).frames.count + 1 := by
          rw [hframes, vector_push_back_of_lt h2]
        rw [hslot] at harr
        simp only at harr
        have hloaded : ∀ a, a < (fifoLoop pages (emptyFrames C) k).frames.count →
            fifoLoadedAt pages (emptyFrames C) a (k + 1) =
              fifoLoadedAt pages (emptyFrames C) a k := by
          intro a ha
          apply fifoLoadedAt_succ_of_ne
          rw [hslot]
          intro h; injection h with h; omega
        have hnew : fifoLoadedAt pages (emptyFrames C)
            (fifoLoop pages (emptyFrames C) k).frames.count (k + 1) = some k :=
          fifoLoadedAt_succ_of_eq hslot
        rw [hcount, hold, hzero hfree]
        refine ⟨fun _ => rfl, ?_, ?_⟩
        · intro a ha
          rcases Nat.lt_succ_iff_lt_or_eq.1 ha with h | h
          · obtain ⟨t, ht, hta, htp⟩ := hload a h
            refine ⟨t, by omega, by rw [hloaded a h]; exact hta, ?_⟩
            rw [harr, getD_set_int _ _ _ _ (by rw [hok.2.1]; omega), if_neg (by omega)]
            exact htp
          · subst h
            refine ⟨k, by omega, hnew, ?_⟩
            rw [harr, getD_set_int _ _ _ _ (by rw [hok.2.1]; omega), if_pos rfl]
        · intro a b ta tb ha hb hab hta htb
          have hab' : a < b := by
            rcases hab with h | h | h <;> omega
          have ha' : a < (fifoLoop pages (emptyFrames C) k).frames.count := by omega
          rw [hloaded a ha'] at hta
          obtain ⟨t, ht, hta2, _⟩ := hload a ha'
          rcases Nat.lt_succ_iff_lt_or_eq.1 hb with h | h
          · rw [hloaded b h] at htb
            exact horder a b ta tb ha' h
              (by rw [hzero hfree]; exact Or.inl ⟨Nat.zero_le _, hab'⟩) hta htb
          · subst h
            rw [hnew] at htb
            injection htb with htb
            rw [hta2] at hta
            injection hta with hta
            omega
      · -- a counted fault: the slot under the cursor is written
        have hslot : fifoStoreSlot pages (emptyFrames C) k =
            some (fifoLoop pages (emptyFrames C) k).oldestPageIndex := by
          simp only [fifoStoreSlot, h1, Bool.false_eq_true, if_false, if_neg h2]
        have hfull := count_eq_of_not_free hok h2
        have hframes := fifo_fault_frames pages hC k h1 h2
        have hold := fifoBody_oldest_of_full h1 h2
        rw [← hnext, hok.1] at hold
        rw [hslot] at harr
        simp only at harr
        have hloaded : ∀ a, a ≠ (fifoLoop pages (emptyFrames C) k).oldestPageIndex →
            fifoLoadedAt pages (emptyFrames C) a (k + 1) =
              fifoLoadedAt pages (emptyFrames C) a k := by
          intro a ha
          apply fifoLoadedAt_succ_of_ne
          rw [hslot]
          intro h; injection h with h; omega
        have hnew : fifoLoadedAt pages (emptyFrames C)
            (fifoLoop pages (emptyFrames C) k).oldestPageIndex (k + 1) = some k :=
          fifoLoadedAt_succ_of_eq hslot
        have hcount : (fifoLoop pages (emptyFrames C) (k + 1)).frames.count = C := by
          rw [hframes]
        rw [hcount]
        rw [hfull] at hload horder
        refine ⟨fun h => absurd h (by omega), ?_, ?_⟩
        · intro a ha
          by_cases hao : a = (fifoLoop pages (emptyFrames C) k).oldestPageIndex
          · refine ⟨k, by omega, by rw [hao]; exact hnew, ?_⟩
            rw [harr, getD_set_int _ _ _ _ (by rw [hok.2.1]; omega), if_pos hao]
          · obtain ⟨t, ht, hta, htp⟩ := hload a ha
            refine ⟨t, by omega, by rw [hloaded a hao]; exact hta, ?_⟩
            rw [harr, getD_set_int _ _ _ _ (by rw [hok.2.1]; omega), if_neg hao]
            exact htp
        · intro a b ta tb ha hb hab hta htb
          rw [hold] at hab
          by_cases hbo : b = (fifoLoop pages (emptyFrames C) k).oldestPageIndex
          · -- `b` was just loaded: everything else was loaded before
            have hao : a ≠ (fifoLoop pages (emptyFrames C) k).oldestPageIndex := by
              intro hao
              rcases hab with h | h | h <;> split_ifs at h <;> omega
            rw [hbo, hnew] at htb
            injection htb with htb
            rw [hloaded a hao] at hta
            obtain ⟨t, ht, hta2, _⟩ := hload a ha
            rw [hta2] at hta
            injection hta with hta
            omega
          · have hao : a ≠ (fifoLoop pages (emptyFrames C) k).oldestPageIndex := by
              intro hao
              rcases hab with h | h | h <;> split_ifs at h <;> omega
            rw [hloaded a hao] at hta
            rw [hloaded b hbo] at htb
            refine horder a b ta tb ha hb ?_ hta htb
            rcases hab with h | h | h <;> split_ifs at h <;>
              simp only [cyclicBefore] <;> omega
    · -- a hit: nothing is written
      have hslot : fifoStoreSlot pages (emptyFrames C) k = none := by
        simp only [fifoStoreSlot, h1, if_true]
      obtain ⟨hframes, hold⟩ := fifoBody_of_hit h1
      rw [← hnext] at hframes hold
      have hloaded : ∀ a, fifoLoadedAt pages (emptyFrames C) a (k + 1) =
          fifoLoadedAt pages (emptyFrames C) a k := by
        intro a
        apply fifoLoadedAt_succ_of_ne
        rw [hslot]
        intro h; exact absurd h (by simp)
      rw [hframes, hold]
      refine ⟨hzero, ?_, ?_⟩
      · intro a ha
        obtain ⟨t, ht, hta, htp⟩ := hload a ha
        exact ⟨t, by omega, by rw [hloaded a]; exact hta, htp⟩
      · intro a b ta tb ha hb hab hta htb
        rw [hloaded a] at hta
        rw [hloaded b] at htb
        exact horder a b ta tb ha hb hab hta htb

/-! ## Policy names -/

theorem distinctPages_pos (pages : vector) {i : Nat} (hi : 1 ≤ i) :
    1 ≤ distinctPages pages i := by
  unfold distinctPages
  apply Finset.card_pos.2
  refine ⟨pageAt pages 0, ?_⟩
  rw [List.mem_toFinset]
  exact List.mem_map.2 ⟨0, List.mem_range.2 (by omega), rfl⟩

/-- With one frame the frame is occupied from the second iteration on, and holds
one page. -/
theorem isRun_one_frame_resident {pages : vector} {v : Nat → ScanState}
    (h : IsRun pages (emptyFrames 1) v) {i : Nat} (hi : 1 ≤ i) :
    (v i).frames.count = 1 ∧ ∃ r, resident (v i).frames = [r] := by
  have hcount : (v i).frames.count = 1 := by
    have h1 := isRun_count_eq_min h i
    have h2 := distinctPages_pos pages hi
    omega
  have hlen := resident_length (isRun_framesOk h i)
  rw [hcount] at hlen
  refine ⟨hcount, ?_⟩
  cases hr : resident (v i).frames with
  | nil => rw [hr] at hlen; simp at hlen
  | cons r rest =>
    cases rest with
    | nil => exact ⟨r, rfl⟩
    | cons r2 rest2 => rw [hr] at hlen; simp at hlen

/-- With one frame, from the second reference on, a reference that is not the
resident page is counted as a fault, and a reference that is the resident page
is not. -/
theorem isRun_one_frame_fault {pages : vector} {v : Nat → ScanState}
    (h : IsRun pages (emptyFrames 1) v) {i : Nat} (hi : 1 ≤ i) :
    (pageAt pages i ∉ resident (v i).frames →
      (v (i + 1)).numberOfPageFaults = (v i).numberOfPageFaults + 1) ∧
    (pageAt pages i ∈ resident (v i).frames →
      (v (i + 1)).numberOfPageFaults = (v i).numberOfPageFaults) := by
  have hok := isRun_framesOk h i
  obtain ⟨hcount, _⟩ := isRun_one_frame_resident h hi
  rcases h.step i with ⟨hp, _, hn, _⟩ | ⟨hp, hfree, _, _, _⟩ | ⟨hp, _, _, hn, _⟩
  · exact ⟨fun hnot => absurd hp hnot, fun _ => hn⟩
  · rw [hok.1, hcount] at hfree; omega
  · exact ⟨fun _ => hn, fun hmem => absurd hmem hp⟩

/-- With one frame, and indeterminate values that are not negative, `optimal`
holds, after reference `k - 1`, either that reference or the next one. -/
theorem optimal_one_frame_resident (pages : vector) {u : Nat → Int} (hu : ∀ k, 0 ≤ u k)
    (k : Nat) (hk : 1 ≤ k) (hkN : k ≤ pages.count) :
    resident (optimalView pages (emptyFrames 1) u k).frames = [pageAt pages (k - 1)] ∨
      (k < pages.count ∧
        resident (optimalView pages (emptyFrames 1) u k).frames = [pageAt pages k]) := by
  have hrun := optimal_isRun pages (emptyFrames 1) hu
  induction k with
  | zero => omega
  | succ k ih =>
    have hok := isRun_framesOk hrun k
    have hlen := resident_length hok
    rcases hrun.step k with ⟨hp, hf, _, _⟩ | ⟨hp, hfree, hf, _, _⟩ | ⟨hp, hfull, _, _, _⟩
    · -- a hit: the resident page is the reference
      have hk1 : 1 ≤ k := by
        rcases Nat.eq_zero_or_pos k with h0 | h0
        · subst h0
          rw [hrun.start, resident_emptyFrames] at hp
          simp at hp
        · exact h0
      obtain ⟨_, r, hr⟩ := isRun_one_frame_resident hrun hk1
      rw [hr] at hp
      left
      rw [hf, hr]
      simp only [List.mem_singleton] at hp
      simp [hp]
    · -- a load: only at the first reference
      left
      have hcount : (optimalView pages (emptyFrames 1) u k).frames.count = 0 := by
        have := hok.1; omega
      have hnil : resident (optimalView pages (emptyFrames 1) u k).frames = [] := by
        rw [hcount] at hlen
        exact List.eq_nil_of_length_eq_zero hlen
      rw [hf, resident_push_back hok hfree, hnil]
      simp
    · have hcount := count_eq_of_not_free hok hfull
      have hkN' : k + 1 ≤ pages.count := hkN
      have hspec := farthestAfterLoop_spec pages
        (optimalView pages (emptyFrames 1) u k).frames k hkN'
        (optimalView pages (emptyFrames 1) u k).frames.count 0 none (k + 1) (by omega)
        (fun s hs => absurd hs (by omega)) (fun r hr => absurd hr (by simp))
        (fun _ => ⟨rfl, fun s hs => absurd hs (by omega)⟩)
      have hframes : (optimalView pages (emptyFrames 1) u (k + 1)).frames =
          vector_insert (optimalView pages (emptyFrames 1) u k).frames
            (readIndex (getFarthestReferenceAfter pages
              (optimalView pages (emptyFrames 1) u k).frames k) (u k)).toNat (pageAt pages k) :=
        (optimalBody_frames_of_full (optimalView_succ pages (emptyFrames 1) hu k) hp hfull).2
      have hone : ∀ l : List Int, l.length = 1 → ∀ n, n < 1 → ∀ p : Int, l.set n p = [p] := by
        intro l hl n hn p
        cases l with
        | nil => simp at hl
        | cons x xs =>
          cases xs with
          | nil =>
            have : n = 0 := by omega
            subst this; rfl
          | cons y ys => simp at hl
      rw [hcount] at hlen
      cases hres : getFarthestReferenceAfter pages
          (optimalView pages (emptyFrames 1) u k).frames k with
      | some r =>
        left
        obtain ⟨hr, _⟩ := hspec.1 r hres
        rw [hframes, hres]
        show resident (vector_insert _ r _) = _
        rw [vector_insert_of_lt hr]
        simp only [resident, List.set_take]
        have := hone (resident (optimalView pages (emptyFrames 1) u k).frames) hlen r
          (by omega) (pageAt pages k)
        simp only [resident] at this
        rw [this]
        simp
      | none =>
        obtain ⟨hscan, hlt⟩ := hspec.2 hres 0 (by omega)
        have hnext := scanAfter_eq_start hscan hlt
        rw [vector_get_resident (by omega : 0 < _)] at hnext
        rcases resident_vector_insert (optimalView pages (emptyFrames 1) u k).frames
          (readIndex (getFarthestReferenceAfter pages
            (optimalView pages (emptyFrames 1) u k).frames k) (u k)).toNat (pageAt pages k)
          with h1 | ⟨n, hn, _, h1⟩
        · right
          refine ⟨hlt, ?_⟩
          rw [hframes, h1]
          cases hl : resident (optimalView pages (emptyFrames 1) u k).frames with
          | nil => rw [hl] at hlen; simp at hlen
          | cons x xs =>
            cases xs with
            | nil =>
              rw [hl] at hnext
              simp at hnext
              rw [hnext]
            | cons y ys => rw [hl] at hlen; simp at hlen
        · left
          rw [hframes, h1, hone _ hlen n (by omega)]
          simp

/-- With one frame, at every reference `i ≥ 1`: each driver counts a fault when
the reference is not the resident page; and `firstInFirstOut`, `clock` and
`optimal` count no fault when the reference repeats the one before it.  For
`optimal` and `leastRecentlyUsed` this is said of every pair of successive states
the driver reaches. -/
theorem one_frame_faults (pages : vector) (indeterminate : Nat → Int) (i : Nat) (hi1 : 1 ≤ i)
    (hi : i < pages.count) :
    ((pageAt pages i ∉ resident (fifoLoop pages (emptyFrames 1) i).frames →
        (fifoLoop pages (emptyFrames 1) (i + 1)).numberOfPageFaults =
          (fifoLoop pages (emptyFrames 1) i).numberOfPageFaults + 1) ∧
      (pageAt pages i = pageAt pages (i - 1) →
        (fifoLoop pages (emptyFrames 1) (i + 1)).numberOfPageFaults =
          (fifoLoop pages (emptyFrames 1) i).numberOfPageFaults)) ∧
    (∃ s t, clockLoop pages (emptyFrames 1) i = some s ∧
      clockLoop pages (emptyFrames 1) (i + 1) = some t ∧
      (pageAt pages i ∉ resident s.frames →
        t.numberOfPageFaults = s.numberOfPageFaults + 1) ∧
      (pageAt pages i = pageAt pages (i - 1) →
        t.numberOfPageFaults = s.numberOfPageFaults)) ∧
    (∀ s t, optimalLoop pages (emptyFrames 1) indeterminate i = some s →
      optimalLoop pages (emptyFrames 1) indeterminate (i + 1) = some t →
      (pageAt pages i ∉ resident s.frames →
        t.numberOfPageFaults = s.numberOfPageFaults + 1) ∧
      (pageAt pages i = pageAt pages (i - 1) →
        t.numberOfPageFaults = s.numberOfPageFaults)) ∧
    (∀ s t, lruLoop pages (emptyFrames 1) indeterminate i = some s →
      lruLoop pages (emptyFrames 1) indeterminate (i + 1) = some t →
      pageAt pages i ∉ resident s.frames →
      t.numberOfPageFaults = s.numberOfPageFaults + 1) := by
  have hprev : i - 1 + 1 = i := by omega
  -- a driver whose overwrites land on the frame holds the reference just processed
  have key : ∀ v : Nat → ScanState, IsRun pages (emptyFrames 1) v →
      (pageAt pages (i - 1) ∉ resident (v (i - 1)).frames →
        ¬ (v (i - 1)).frames.count < (v (i - 1)).frames.size →
        ∃ n : Nat, n < (v (i - 1)).frames.count ∧
          (v (i - 1 + 1)).frames =
            vector_insert (v (i - 1)).frames n (pageAt pages (i - 1))) →
      (pageAt pages i ∉ resident (v i).frames →
        (v (i + 1)).numberOfPageFaults = (v i).numberOfPageFaults + 1) ∧
      (pageAt pages i = pageAt pages (i - 1) →
        (v (i + 1)).numberOfPageFaults = (v i).numberOfPageFaults) := by
    intro v hv hproper
    obtain ⟨hmiss, hhit⟩ := isRun_one_frame_fault hv hi1
    refine ⟨hmiss, fun heq => hhit ?_⟩
    obtain ⟨hmem, _⟩ :=
      step_page_resident (hv.step (i - 1)) (isRun_framesOk hv (i - 1)) hproper
    rw [hprev] at hmem
    rw [heq]; exact hmem
  refine ⟨?_, ?_, ?_, ?_⟩
  · exact key _ (fifo_isRun pages _)
      (fun h1 h2 => fifo_proper pages (le_refl 1) (i - 1) h1 h2)
  · obtain ⟨s, hs, _⟩ := clockLoop_ok pages (le_refl 1) i
    obtain ⟨t, ht, _⟩ := clockLoop_ok pages (le_refl 1) (i + 1)
    have := key _ (clock_isRun pages (le_refl 1))
      (fun h1 h2 => clock_proper pages (le_refl 1) (i - 1) h1 h2)
    rw [clockView_eq hs, clockView_eq ht] at this
    exact ⟨s, t, hs, ht, this⟩
  · intro s t hs ht
    have hu := clamped_nonneg indeterminate
    obtain ⟨hmiss, hhit⟩ := isRun_one_frame_fault (optimal_isRun pages (emptyFrames 1) hu) hi1
    have hres := optimal_one_frame_resident pages hu i hi1 (by omega)
    rw [optimalLoop_clamped hs] at hmiss hhit hres
    rw [optimalLoop_clamped ht] at hmiss hhit
    refine ⟨hmiss, fun heq => hhit ?_⟩
    rcases hres with h | ⟨_, h⟩
    · rw [h, heq]; simp
    · rw [h]; simp
  · intro s t hs ht
    have h := (isRun_one_frame_fault
      (lru_isRun pages (emptyFrames 1) (clamped_nonneg indeterminate)) hi1).1
    rw [lruLoop_clamped hs, lruLoop_clamped ht] at h
    exact h

/-! ## The runs of `leastRecentlyUsed` and `optimal` that store inside the array -/

/-- `leastRecentlyUsed` has a state after every number of iterations when there
are two frames or more, and also when no indeterminate value is negative. -/
theorem lruLoop_some (pages : vector) {C : Nat} {u : Nat → Int}
    (h : 2 ≤ C ∨ ∀ k, 0 ≤ u k) (i : Nat) :
    ∃ s, lruLoop pages (emptyFrames C) u i = some s := by
  rcases h with h | h
  · exact ⟨_, lruLoop_two_frames pages h u i⟩
  · exact lruLoop_defined pages _ h i

/-- `optimal` has a state after every number of iterations over the trace when
there are two frames or more, and after any number of iterations when no
indeterminate value is negative. -/
theorem optimalLoop_some (pages : vector) {C : Nat} {u : Nat → Int} {i : Nat}
    (h : (2 ≤ C ∧ i ≤ pages.count) ∨ ∀ k, 0 ≤ u k) :
    ∃ s, optimalLoop pages (emptyFrames C) u i = some s := by
  rcases h with ⟨h, hi⟩ | h
  · exact ⟨_, optimalLoop_two_frames pages h u hi⟩
  · exact optimalLoop_defined pages _ h i

/-- While the frames fill up with pairwise distinct pages `leastRecentlyUsed`
calls no scan: it reaches the state after these references whatever the
indeterminate values are. -/
theorem lruLoop_fill (pages : vector) {C : Nat}
    (hdist : ∀ a b, a < b → b < min C pages.count → pageAt pages a ≠ pageAt pages b)
    (u : Nat → Int) (i : Nat) (hi : i ≤ min C pages.count) :
    lruLoop pages (emptyFrames C) u i = some (lruView pages (emptyFrames C) (clamped u) i) := by
  induction i with
  | zero => rfl
  | succ i ih =>
    have hv := lru_isRun pages (emptyFrames C) (clamped_nonneg u)
    rw [lruLoop_succ_of_some (ih (by omega)),
      ← lruView_succ pages (emptyFrames C) (clamped_nonneg u) i]
    apply lruBody_congr
    intro _ hfull
    exfalso
    apply hfull
    rw [(isRun_fill_phase hv hdist i (by omega)).1, (isRun_framesOk hv i).1]
    have := Nat.min_le_left C pages.count
    omega

theorem optimalLoop_fill (pages : vector) {C : Nat}
    (hdist : ∀ a b, a < b → b < min C pages.count → pageAt pages a ≠ pageAt pages b)
    (u : Nat → Int) (i : Nat) (hi : i ≤ min C pages.count) :
    optimalLoop pages (emptyFrames C) u i =
      some (optimalView pages (emptyFrames C) (clamped u) i) := by
  induction i with
  | zero => rfl
  | succ i ih =>
    have hv := optimal_isRun pages (emptyFrames C) (clamped_nonneg u)
    rw [optimalLoop_succ_of_some (ih (by omega)),
      ← optimalView_succ pages (emptyFrames C) (clamped_nonneg u) i]
    apply optimalBody_congr
    intro _ hfull
    exfalso
    apply hfull
    rw [(isRun_fill_phase hv hdist i (by omega)).1, (isRun_framesOk hv i).1]
    have := Nat.min_le_left C pages.count
    omega

/-- One frame, trace `[1,2,3]`, `leastRecentlyUsed`: at reference 2 the scan
returns its unassigned `resultIndex`; read as a negative number, it makes
`vector_insert` store before the array, and the driver has no state after that
reference and returns no count. -/
theorem lru_one_frame_stores_outside :
    lruLoop (readPages [1, 2, 3]) (emptyFrames 1) (fun _ => -1) 2 =
        some { frames := { array := [2], size := 1, count := 1 }
               numberOfPageFaults := 1
               output := [{ pageNumber := 1, fault := false, content := [1] },
                          { pageNumber := 2, fault := true, content := [2] }] } ∧
      getFarthestReferenceBefore (readPages [1, 2, 3])
        { array := [2], size := 1, count := 1 } 2 = none ∧
      lruLoop (readPages [1, 2, 3]) (emptyFrames 1) (fun _ => -1) 3 = none ∧
      leastRecentlyUsed (readPages [1, 2, 3]) (emptyFrames 1) (fun _ => -1) = none := by
  decide

/-- One frame, trace `[1,2,1]`, `optimal`: at reference 1 the scan returns its
unassigned `resultIndex`; read as a negative number, it makes `vector_insert`
store before the array, and the driver returns no count. -/
theorem optimal_one_frame_stores_outside :
    optimalLoop (readPages [1, 2, 1]) (emptyFrames 1) (fun _ => -1) 1 =
        some { frames := { array := [1], size := 1, count := 1 }
               numberOfPageFaults := 0
               output := [{ pageNumber := 1, fault := false, content := [1] }] } ∧
      getFarthestReferenceAfter (readPages [1, 2, 1])
        { array := [1], size := 1, count := 1 } 1 = none ∧
      optimalLoop (readPages [1, 2, 1]) (emptyFrames 1) (fun _ => -1) 2 = none ∧
      optimal (readPages [1, 2, 1]) (emptyFrames 1) (fun _ => -1) = none := by
  decide

/-! ## `clock` from any frame set with a frame -/

/-- C2, as stated, fails: on the trace `[1,2,3,4,1,2,5,1,2,3,4,5]` with 3 frames
`firstInFirstOut` does not return 9. -/
theorem C2_fifo_example_is_not_nine :
    firstInFirstOut (readPages [1, 2, 3, 4, 1, 2, 5, 1, 2, 3, 4, 5]) (emptyFrames 3) ≠ 9 := by
  decide

/-- C2, amended: on the trace `[1,2,3,4,1,2,5,1,2,3,4,5]` with 3 frames
`firstInFirstOut` returns 6; the three loads into free frames are not counted. -/
theorem C2_fifo_example_is_six :
    firstInFirstOut (readPages [1, 2, 3, 4, 1, 2, 5, 1, 2, 3, 4, 5]) (emptyFrames 3) = 6 := by
  decide

/-- C3: for each driver, from an empty frame set of capacity `C ≥ 1`, after any
number `i` of processed references the occupancy is at most `C`, the capacity is
still `C` with `C` cells allocated (no doubling), and an occupancy of `C` is kept
in every later state `j`.  For `leastRecentlyUsed` and `optimal` this holds of
every state the driver reaches, and the driver reaches a state after every number
of iterations when there are two frames or more (for `optimal`, over the trace),
and also when no value read for an unassigned index is negative. -/
theorem C3_occupancy_bounded (pages : vector) (C : Nat) (hC : 1 ≤ C)
    (indeterminate : Nat → Int) (i j : Nat) (hij : i ≤ j) :
    ((fifoLoop pages (emptyFrames C) i).frames.count ≤ C ∧
      (fifoLoop pages (emptyFrames C) i).frames.size = C ∧
      (fifoLoop pages (emptyFrames C) i).frames.array.length = C ∧
      ((fifoLoop pages (emptyFrames C) i).frames.count = C →
        (fifoLoop pages (emptyFrames C) j).frames.count = C)) ∧
    ((∀ s, lruLoop pages (emptyFrames C) indeterminate i = some s →
        s.frames.count ≤ C ∧ s.frames.size = C ∧ s.frames.array.length = C ∧
        ∀ t, lruLoop pages (emptyFrames C) indeterminate j = some t →
          s.frames.count = C → t.frames.count = C) ∧
      ((2 ≤ C ∨ ∀ k, 0 ≤ indeterminate k) →
        ∃ s t, lruLoop pages (emptyFrames C) indeterminate i = some s ∧
          lruLoop pages (emptyFrames C) indeterminate j = some t)) ∧
    ((∀ s, optimalLoop pages (emptyFrames C) indeterminate i = some s →
        s.frames.count ≤ C ∧ s.frames.size = C ∧ s.frames.array.length = C ∧
        ∀ t, optimalLoop pages (emptyFrames C) indeterminate j = some t →
          s.frames.count = C → t.frames.count = C) ∧
      (((2 ≤ C ∧ j ≤ pages.count) ∨ ∀ k, 0 ≤ indeterminate k) →
        ∃ s t, optimalLoop pages (emptyFrames C) indeterminate i = some s ∧
          optimalLoop pages (emptyFrames C) indeterminate j = some t)) ∧
    (∃ s t, clockLoop pages (emptyFrames C) i = some s ∧
      clockLoop pages (emptyFrames C) j = some t ∧
      s.frames.count ≤ C ∧ s.frames.size = C ∧ s.frames.array.length = C ∧
      (s.frames.count = C → t.frames.count = C)) := by
  have key : ∀ v : Nat → ScanState, IsRun pages (emptyFrames C) v →
      (v i).frames.count ≤ C ∧ (v i).frames.size = C ∧ (v i).frames.array.length = C ∧
        ((v i).frames.count = C → (v j).frames.count = C) := by
    intro v hv
    obtain ⟨h1, h2, h3, _⟩ := isRun_framesOk hv i
    exact ⟨h3, h1, h2, fun hfull => isRun_full_stays hv hij hfull⟩
  refine ⟨key _ (fifo_isRun pages _), ⟨?_, ?_⟩, ⟨?_, ?_⟩, ?_⟩
  · intro s hs
    have hk := key _ (lru_isRun pages (emptyFrames C) (clamped_nonneg indeterminate))
    rw [lruLoop_clamped hs] at hk
    refine ⟨hk.1, hk.2.1, hk.2.2.1, fun t ht hfull => ?_⟩
    have := hk.2.2.2 hfull
    rw [lruLoop_clamped ht] at this
    exact this
  · intro hd
    obtain ⟨s, hs⟩ := lruLoop_some pages hd i
    obtain ⟨t, ht⟩ := lruLoop_some pages hd j
    exact ⟨s, t, hs, ht⟩
  · intro s hs
    have hk := key _ (optimal_isRun pages (emptyFrames C) (clamped_nonneg indeterminate))
    rw [optimalLoop_clamped hs] at hk
    refine ⟨hk.1, hk.2.1, hk.2.2.1, fun t ht hfull => ?_⟩
    have := hk.2.2.2 hfull
    rw [optimalLoop_clamped ht] at this
    exact this
  · intro hd
    obtain ⟨t, ht⟩ := optimalLoop_some pages hd
    obtain ⟨s, hs⟩ := optimalLoop_some_of_le hij ht
    exact ⟨s, t, hs, ht⟩
  · obtain ⟨s, hs, _⟩ := clockLoop_ok pages hC i
    obtain ⟨t, ht, _⟩ := clockLoop_ok pages hC j
    have := key _ (clock_isRun pages hC)
    rw [clockView_eq hs, clockView_eq ht] at this
    exact ⟨s, t, hs, ht, this⟩

theorem C3_occupancy_bounded_witness :
    ((fifoLoop (readPages [1, 2, 3]) (emptyFrames 2) 2).frames.count ≤ 2 ∧
      (fifoLoop (readPages [1, 2, 3]) (emptyFrames 2) 2).frames.size = 2 ∧
      (fifoLoop (readPages [1, 2, 3]) (emptyFrames 2) 2).frames.array.length = 2 ∧
      ((fifoLoop (readPages [1, 2, 3]) (emptyFrames 2) 2).frames.count = 2 →
        (fifoLoop (readPages [1, 2, 3]) (emptyFrames 2) 3).frames.count = 2)) ∧
    (∃ s t, lruLoop (readPages [1, 2, 3]) (emptyFrames 2) (fun _ => -1) 2 = some s ∧
      lruLoop (readPages [1, 2, 3]) (emptyFrames 2) (fun _ => -1) 3 = some t ∧
      s.frames.count ≤ 2 ∧ s.frames.size = 2 ∧ s.frames.array.length = 2 ∧
      (s.frames.count = 2 → t.frames.count = 2)) ∧
    (∃ s t, optimalLoop (readPages [1, 2, 3]) (emptyFrames 2) (fun _ => -1) 2 = some s ∧
      optimalLoop (readPages [1, 2, 3]) (emptyFrames 2) (fun _ => -1) 3 = some t ∧
      s.frames.count ≤ 2 ∧ s.frames.size = 2 ∧ s.frames.array.length = 2 ∧
      (s.frames.count = 2 → t.frames.count = 2)) ∧
    (∃ s t, clockLoop (readPages [1, 2, 3]) (emptyFrames 2) 2 = some s ∧
      clockLoop (readPages [1, 2, 3]) (emptyFrames 2) 3 = some t ∧
      s.frames.count ≤ 2 ∧ s.frames.size = 2 ∧ s.frames.array.length = 2 ∧
      (s.frames.count = 2 → t.frames.count = 2)) := by
  obtain ⟨hf, ⟨hl1, hl2⟩, ⟨ho1, ho2⟩, hc⟩ :=
    C3_occupancy_bounded (readPages [1, 2, 3]) 2 (by decide) (fun _ => -1) 2 3 (by decide)
  obtain ⟨s, t, hs, ht⟩ := hl2 (Or.inl (by decide))
  obtain ⟨s2, t2, hs2, ht2⟩ := ho2 (Or.inl ⟨by decide, by decide⟩)
  exact ⟨hf,
    ⟨s, t, hs, ht, (hl1 s hs).1, (hl1 s hs).2.1, (hl1 s hs).2.2.1, (hl1 s hs).2.2.2 t ht⟩,
    ⟨s2, t2, hs2, ht2, (ho1 s2 hs2).1, (ho1 s2 hs2).2.1, (ho1 s2 hs2).2.2.1,
      (ho1 s2 hs2).2.2.2 t2 ht2⟩, hc⟩

/-- C4: for each driver, from an empty frame set of capacity `C ≥ 1`, after any
number `i` of processed references the occupied slots hold pairwise distinct
pages.  For `leastRecentlyUsed` and `optimal` this holds of every state the
driver reaches, and the driver reaches a state after `i` iterations when there
are two frames or more (for `optimal`, over the trace), and also when no value
read for an unassigned index is negative. -/
theorem C4_resident_pages_distinct (pages : vector) (C : Nat) (hC : 1 ≤ C)
    (indeterminate : Nat → Int) (i : Nat) :
    (resident (fifoLoop pages (emptyFrames C) i).frames).Nodup ∧
    ((∀ s, lruLoop pages (emptyFrames C) indeterminate i = some s →
        (resident s.frames).Nodup) ∧
      ((2 ≤ C ∨ ∀ k, 0 ≤ indeterminate k) →
        ∃ s, lruLoop pages (emptyFrames C) indeterminate i = some s)) ∧
    ((∀ s, optimalLoop pages (emptyFrames C) indeterminate i = some s →
        (resident s.frames).Nodup) ∧
      (((2 ≤ C ∧ i ≤ pages.count) ∨ ∀ k, 0 ≤ indeterminate k) →
        ∃ s, optimalLoop pages (emptyFrames C) indeterminate i = some s)) ∧
    (∃ s, clockLoop pages (emptyFrames C) i = some s ∧ (resident s.frames).Nodup) := by
  refine ⟨(isRun_framesOk (fifo_isRun pages _) i).2.2.2, ⟨?_, fun hd => lruLoop_some pages hd i⟩,
    ⟨?_, fun hd => optimalLoop_some pages hd⟩, ?_⟩
  · intro s hs
    have h := (isRun_framesOk
      (lru_isRun pages (emptyFrames C) (clamped_nonneg indeterminate)) i).2.2.2
    rw [lruLoop_clamped hs] at h
    exact h
  · intro s hs
    have h := (isRun_framesOk
      (optimal_isRun pages (emptyFrames C) (clamped_nonneg indeterminate)) i).2.2.2
    rw [optimalLoop_clamped hs] at h
    exact h
  · obtain ⟨s, hs, hok⟩ := clockLoop_ok pages hC i
    exact ⟨s, hs, hok.1.2.2.2⟩

theorem C4_resident_pages_distinct_witness :
    (resident (fifoLoop (readPages [1, 2, 1, 3]) (emptyFrames 2) 4).frames).Nodup ∧
    (∃ s, lruLoop (readPages [1, 2, 1, 3]) (emptyFrames 2) (fun _ => -1) 4 = some s ∧
      (resident s.frames).Nodup) ∧
    (∃ s, optimalLoop (readPages [1, 2, 1, 3]) (emptyFrames 2) (fun _ => -1) 4 = some s ∧
      (resident s.frames).Nodup) ∧
    (∃ s, clockLoop (readPages [1, 2, 1, 3]) (emptyFrames 2) 4 = some s ∧
      (resident s.frames).Nodup) := by
  obtain ⟨hf, ⟨hl1, hl2⟩, ⟨ho1, ho2⟩, hc⟩ :=
    C4_resident_pages_distinct (readPages [1, 2, 1, 3]) 2 (by decide) (fun _ => -1) 4
  obtain ⟨s, hs⟩ := hl2 (Or.inl (by decide))
  obtain ⟨s2, hs2⟩ := ho2 (Or.inl ⟨by decide, by decide⟩)
  exact ⟨hf, ⟨s, hs, hl1 s hs⟩, ⟨s2, hs2, ho1 s2 hs2⟩, hc⟩

/-- C5: for each driver, when the first `min C N` pages of the trace are pairwise
distinct, the lines printed for the references `0 .. min C N - 1` carry no fault
mark, and the fault counter is 0 after these references.  `leastRecentlyUsed`
and `optimal` reach the state after these `min C N` references whatever the
indeterminate values are; the lines are those of that state, and they are still
the first lines of the state at the end of the trace, which is reached when
there are two frames or more and also when no value read for an unassigned index
is negative. -/
theorem C5_fill_phase_counts_no_fault (pages : vector) (C : Nat) (hC : 1 ≤ C)
    (indeterminate : Nat → Int)
    (hdist : ∀ a b, a < b → b < min C pages.count → pageAt pages a ≠ pageAt pages b) :
    ((∀ i, i < min C pages.count →
        ∃ row, (fifoLoop pages (emptyFrames C) pages.count).output[i]? = some row ∧
          row.fault = false ∧ row.pageNumber = pageAt pages i) ∧
      (fifoLoop pages (emptyFrames C) (min C pages.count)).numberOfPageFaults = 0) ∧
    ((∃ t, lruLoop pages (emptyFrames C) indeterminate (min C pages.count) = some t ∧
        t.numberOfPageFaults = 0 ∧
        ∀ i, i < min C pages.count →
          ∃ row, t.output[i]? = some row ∧ row.fault = false ∧
            row.pageNumber = pageAt pages i) ∧
      (∀ s, lruLoop pages (emptyFrames C) indeterminate pages.count = some s →
        ∀ i, i < min C pages.count →
          ∃ row, s.output[i]? = some row ∧ row.fault = false ∧
            row.pageNumber = pageAt pages i) ∧
      ((2 ≤ C ∨ ∀ k, 0 ≤ indeterminate k) →
        ∃ s, lruLoop pages (emptyFrames C) indeterminate pages.count = some s)) ∧
    ((∃ t, optimalLoop pages (emptyFrames C) indeterminate (min C pages.count) = some t ∧
        t.numberOfPageFaults = 0 ∧
        ∀ i, i < min C pages.count →
          ∃ row, t.output[i]? = some row ∧ row.fault = false ∧
            row.pageNumber = pageAt pages i) ∧
      (∀ s, optimalLoop pages (emptyFrames C) indeterminate pages.count = some s →
        ∀ i, i < min C pages.count →
          ∃ row, s.output[i]? = some row ∧ row.fault = false ∧
            row.pageNumber = pageAt pages i) ∧
      ((2 ≤ C ∨ ∀ k, 0 ≤ indeterminate k) →
        ∃ s, optimalLoop pages (emptyFrames C) indeterminate pages.count = some s)) ∧
    (∃ s t, clockLoop pages (emptyFrames C) pages.count = some s ∧
      clockLoop pages (emptyFrames C) (min C pages.count) = some t ∧
      (∀ i, i < min C pages.count →
        ∃ row, s.output[i]? = some row ∧ row.fault = false ∧
          row.pageNumber = pageAt pages i) ∧
      t.numberOfPageFaults = 0) := by
  have key : ∀ v : Nat → ScanState, IsRun pages (emptyFrames C) v →
      (∀ i, i < min C pages.count →
        ∃ row, (v pages.count).output[i]? = some row ∧ row.fault = false ∧
          row.pageNumber = pageAt pages i) ∧
      (v (min C pages.count)).numberOfPageFaults = 0 := by
    intro v hv
    exact ⟨fun i hi => isRun_fill_rows hv hdist i hi, (isRun_fill_phase hv hdist _ le_rfl).2.2.1⟩
  have keyfill : ∀ v : Nat → ScanState, IsRun pages (emptyFrames C) v →
      ∀ i, i < min C pages.count →
        ∃ row, (v (min C pages.count)).output[i]? = some row ∧ row.fault = false ∧
          row.pageNumber = pageAt pages i := by
    intro v hv i hi
    obtain ⟨row, hrow, h1, h2⟩ := isRun_fill_rows hv hdist i hi
    obtain ⟨rest, hrest⟩ := isRun_output_prefix hv (Nat.min_le_right C pages.count)
    have hlen := isRun_output_length hv (min C pages.count)
    refine ⟨row, ?_, h1, h2⟩
    rw [← hrest, List.getElem?_append_left (by omega)] at hrow
    exact hrow
  refine ⟨key _ (fifo_isRun pages _), ⟨?_, ?_, fun hd => lruLoop_some pages hd _⟩,
    ⟨?_, ?_, fun hd => ?_⟩, ?_⟩
  · have hv := lru_isRun pages (emptyFrames C) (clamped_nonneg indeterminate)
    exact ⟨_, lruLoop_fill pages hdist indeterminate _ le_rfl, (key _ hv).2, keyfill _ hv⟩
  · intro s hs
    have h := (key _ (lru_isRun pages (emptyFrames C) (clamped_nonneg indeterminate))).1
    rw [lruLoop_clamped hs] at h
    exact h
  · have hv := optimal_isRun pages (emptyFrames C) (clamped_nonneg indeterminate)
    exact ⟨_, optimalLoop_fill pages hdist indeterminate _ le_rfl, (key _ hv).2, keyfill _ hv⟩
  · intro s hs
    have h := (key _ (optimal_isRun pages (emptyFrames C) (clamped_nonneg indeterminate))).1
    rw [optimalLoop_clamped hs] at h
    exact h
  · rcases hd with hd | hd
    · exact optimalLoop_some pages (Or.inl ⟨hd, le_rfl⟩)
    · exact optimalLoop_some pages (Or.inr hd)
  · obtain ⟨s, hs, _⟩ := clockLoop_ok pages hC pages.count
    obtain ⟨t, ht, _⟩ := clockLoop_ok pages hC (min C pages.count)
    have := key _ (clock_isRun pages hC)
    rw [clockView_eq hs, clockView_eq ht] at this
    exact ⟨s, t, hs, ht, this⟩

theorem C5_fill_phase_counts_no_fault_witness :
    ((∀ i, i < min 2 (readPages [5, 7, 5, 9]).count →
        ∃ row, (fifoLoop (readPages [5, 7, 5, 9]) (emptyFrames 2)
            (readPages [5, 7, 5, 9]).count).output[i]? = some row ∧
          row.fault = false ∧ row.pageNumber = pageAt (readPages [5, 7, 5, 9]) i) ∧
      (fifoLoop (readPages [5, 7, 5, 9]) (emptyFrames 2)
        (min 2 (readPages [5, 7, 5, 9]).count)).numberOfPageFaults = 0) ∧
    ((∃ t, lruLoop (readPages [5, 7, 5, 9]) (emptyFrames 2) (fun _ => -1)
          (min 2 (readPages [5, 7, 5, 9]).count) = some t ∧
        t.numberOfPageFaults = 0 ∧
        ∀ i, i < min 2 (readPages [5, 7, 5, 9]).count →
          ∃ row, t.output[i]? = some row ∧ row.fault = false ∧
            row.pageNumber = pageAt (readPages [5, 7, 5, 9]) i) ∧
      (∃ s, lruLoop (readPages [5, 7, 5, 9]) (emptyFrames 2) (fun _ => -1)
          (readPages [5, 7, 5, 9]).count = some s ∧
        ∀ i, i < min 2 (readPages [5, 7, 5, 9]).count →
          ∃ row, s.output[i]? = some row ∧ row.fault = false ∧
            row.pageNumber = pageAt (readPages [5, 7, 5, 9]) i)) ∧
    ((∃ t, optimalLoop (readPages [5, 7, 5, 9]) (emptyFrames 2) (fun _ => -1)
          (min 2 (readPages [5, 7, 5, 9]).count) = some t ∧
        t.numberOfPageFaults = 0 ∧
        ∀ i, i < min 2 (readPages [5, 7, 5, 9]).count →
          ∃ row, t.output[i]? = some row ∧ row.fault = false ∧
            row.pageNumber = pageAt (readPages [5, 7, 5, 9]) i) ∧
      (∃ s, optimalLoop (readPages [5, 7, 5, 9]) (emptyFrames 2) (fun _ => -1)
          (readPages [5, 7, 5, 9]).count = some s ∧
        ∀ i, i < min 2 (readPages [5, 7, 5, 9]).count →
          ∃ row, s.output[i]? = some row ∧ row.fault = false ∧
            row.pageNumber = pageAt (readPages [5, 7, 5, 9]) i)) ∧
    (∃ s t, clockLoop (readPages [5, 7, 5, 9]) (emptyFrames 2)
        (readPages [5, 7, 5, 9]).count = some s ∧
      clockLoop (readPages [5, 7, 5, 9]) (emptyFrames 2)
        (min 2 (readPages [5, 7, 5, 9]).count) = some t ∧
      (∀ i, i < min 2 (readPages [5, 7, 5, 9]).count →
        ∃ row, s.output[i]? = some row ∧ row.fault = false ∧
          row.pageNumber = pageAt (readPages [5, 7, 5, 9]) i) ∧
      t.numberOfPageFaults = 0) := by
  obtain ⟨hf, ⟨hl1, hl2, hl3⟩, ⟨ho1, ho2, ho3⟩, hc⟩ :=
    C5_fill_phase_counts_no_fault (readPages [5, 7, 5, 9]) 2 (by decide) (fun _ => -1)
      (by
        intro a b hab hb
        have hb2 : b < 2 := by simpa using (lt_min_iff.1 hb).1
        have hb1 : b = 1 := by omega
        have ha0 : a = 0 := by omega
        subst hb1 ha0
        decide)
  obtain ⟨s, hs⟩ := hl3 (Or.inl (by decide))
  obtain ⟨s2, hs2⟩ := ho3 (Or.inl (by decide))
  exact ⟨hf, ⟨hl1, s, hs, hl2 s hs⟩, ⟨ho1, s2, hs2, ho2 s2 hs2⟩, hc⟩

/-- C8: the sweep of the clock hand over `C` use bits, started at a hand below
`C` and given fuel for at least `C` executions of its body, returns: it executes
its body at most `C` times, clears one set bit per execution, and stops at a slot
whose bit is false. -/
theorem C8_clock_sweep_terminates (C : Nat) (index : Nat) (hidx : index < C)
    (useBits : List Bool) (hlen : useBits.length = C) (fuel : Nat) (hfuel : C ≤ fuel) :
    ∃ (bits : List Bool) (hand steps : Nat),
      clockSweep C fuel useBits index = some (bits, hand, steps) ∧
      steps ≤ C ∧ hand < C ∧ bits.getD hand false = false ∧
      bits.count true + steps = useBits.count true := by
  have hcnt : useBits.count true ≤ useBits.length := List.count_le_length _ _
  obtain ⟨bits, k, hrun, _, hbcount, _, hstop, hbits⟩ :=
    clockSweep_spec C fuel useBits index hlen hidx (by omega)
  have hC : 0 < C := by omega
  refine ⟨bits, (index + k) % C, k, hrun, by omega, Nat.mod_lt _ hC, ?_, hbcount⟩
  rw [hbits _ (Nat.mod_lt _ hC)]
  by_cases hk : k = C
  · have : ∃ t, t < k ∧ (index + t) % C = (index + k) % C :=
      ⟨0, by omega, by rw [hk, Nat.add_mod_right]; rfl⟩
    rw [if_pos this]
  · split_ifs
    · rfl
    · rw [hstop]; simp [hk]

theorem C8_clock_sweep_terminates_witness :
    ∃ (bits : List Bool) (hand steps : Nat),
      clockSweep 3 3 [true, false, true] 2 = some (bits, hand, steps) ∧
      steps ≤ 3 ∧ hand < 3 ∧ bits.getD hand false = false ∧
      bits.count true + steps = [true, false, true].count true :=
  C8_clock_sweep_terminates 3 2 (by decide) [true, false, true] rfl 3 (by decide)

/-- C10: on the trace `[1,2,3,4,1,2,5,1,2,3,4,5]` with 3 frames `clock` returns a
fault count that is at most the one `firstInFirstOut` returns. -/
theorem C10_clock_le_fifo_example :
    ∃ n, clock (readPages [1, 2, 3, 4, 1, 2, 5, 1, 2, 3, 4, 5]) (emptyFrames 3) = some n ∧
      n ≤ firstInFirstOut (readPages [1, 2, 3, 4, 1, 2, 5, 1, 2, 3, 4, 5]) (emptyFrames 3) :=
  ⟨6, by decide, by decide⟩

/-- C9: one iteration of `clock` on a page that is not resident, with all `C`
frames occupied, hand `h = s.index` and use bits `s.useBits`.  The hand passes
over `k ≤ C` slots whose bits are set and stops at `v = (h + k) % C`, the first
slot in the cyclic order from `h` whose bit is false, or `h` itself after `C`
slots when every bit is set.  In the new state the slots passed over, other than
`v`, have their bits false, slot `v` holds the page with its bit set, every other
cell and bit is unchanged, and the hand is `(v + 1) % C`. -/
theorem C9_clock_victim (pages : vector) (C : Nat) (s : ClockState) (i : Nat)
    (hs : ClockOk C s) (hfull : s.frames.count = C)
    (hmiss : isPageInAFrame s.frames (pageAt pages i) = false) :
    ∃ (k : Nat) (t : ClockState),
      clockBody pages s i = some t ∧ k ≤ C ∧
      (∀ d, d < k → s.useBits.getD ((s.index + d) % C) false = true) ∧
      (k < C → s.useBits.getD ((s.index + k) % C) false = false) ∧
      (k = C → (s.index + k) % C = s.index) ∧
      (∀ d, d < k → (s.index + d) % C ≠ (s.index + k) % C →
        t.useBits.getD ((s.index + d) % C) false = false) ∧
      t.frames.array.getD ((s.index + k) % C) 0 = pageAt pages i ∧
      t.useBits.getD ((s.index + k) % C) false = true ∧
      (∀ slot, slot < C → slot ≠ (s.index + k) % C →
        t.frames.array.getD slot 0 = s.frames.array.getD slot 0) ∧
      (∀ slot, slot < C → slot ≠ (s.index + k) % C →
        (∀ d, d < k → (s.index + d) % C ≠ slot) →
        t.useBits.getD slot false = s.useBits.getD slot false) ∧
      t.index = ((s.index + k) % C + 1) % C ∧
      t.frames.count = C ∧ t.frames.size = C ∧
      t.numberOfPageFaults = s.numberOfPageFaults + 1 := by
  have hp : pageAt pages i ∉ resident s.frames := by
    rw [← isPageInAFrame_iff, hmiss]; simp
  obtain ⟨bits, k, hrun, hk, htrue, hstop, hbits, hev⟩ := clockEvict_spec hs hfull hp
  obtain ⟨hf, hlen, hidx⟩ := hs
  have hC : 0 < C := by omega
  have hv : (s.index + k) % C < C := Nat.mod_lt _ hC
  have hblen : bits.length = C := by
    obtain ⟨bits2, k2, hrun2, hblen2, _⟩ := clockSweep_spec C C s.useBits s.index hlen hidx
      (by rw [← hlen]; exact List.count_le_length _ _)
    rw [hrun] at hrun2
    injection hrun2 with hrun2
    injection hrun2 with hb _
    rw [hb]; exact hblen2
  have hnotfree : ¬ s.frames.count < s.frames.size := by rw [hf.1, hfull]; omega
  have hgetset : ∀ slot, (bits.set ((s.index + k) % C) true).getD slot false =
      if slot = (s.index + k) % C then true else bits.getD slot false := by
    intro slot
    simp only [List.getD_eq_getElem?_getD, List.getElem?_set]
    by_cases hsl : slot = (s.index + k) % C
    · subst hsl; simp [hblen, hv]
    · simp [hsl, Ne.symm hsl]
  have harr : ∀ slot, (s.frames.array.set ((s.index + k) % C) (pageAt pages i)).getD slot 0 =
      if slot = (s.index + k) % C then pageAt pages i else s.frames.array.getD slot 0 := by
    intro slot
    simp only [List.getD_eq_getElem?_getD, List.getElem?_set]
    by_cases hsl : slot = (s.index + k) % C
    · subst hsl; simp [hf.2.1, hv]
    · simp [hsl, Ne.symm hsl]
  refine ⟨k, _, by simp only [clockBody, hmiss, hnotfree, Bool.false_eq_true, if_false]; exact hev,
    hk, htrue, ?_, ?_, ?_, ?_, ?_, ?_, ?_, rfl, rfl, rfl, rfl⟩
  · intro hlt
    rw [hstop]; simp; omega
  · intro hkC
    rw [hkC, Nat.add_mod_right, Nat.mod_eq_of_lt hidx]
  · intro d hd hne
    show (bits.set ((s.index + k) % C) true).getD ((s.index + d) % C) false = false
    rw [hgetset, if_neg hne, hbits _ (Nat.mod_lt _ hC), if_pos ⟨d, hd, rfl⟩]
  · show (s.frames.array.set ((s.index + k) % C) (pageAt pages i)).getD _ 0 = _
    rw [harr, if_pos rfl]
  · show (bits.set ((s.index + k) % C) true).getD ((s.index + k) % C) false = true
    rw [hgetset, if_pos rfl]
  · intro slot _ hne
    show (s.frames.array.set ((s.index + k) % C) (pageAt pages i)).getD slot 0 = _
    rw [harr, if_neg hne]
  · intro slot hslot hne hnot
    show (bits.set ((s.index + k) % C) true).getD slot false = _
    rw [hgetset, if_neg hne, hbits _ hslot, if_neg]
    rintro ⟨d, hd, hds⟩
    exact hnot d hd hds

theorem C9_clock_victim_witness :
    ∃ (k : Nat) (t : ClockState),
      clockBody (readPages [4])
        { frames := { array := [1, 2, 3], size := 3, count := 3 },
          useBits := [false, true, true], index := 1, numberOfPageFaults := 0, output := [] }
        0 = some t ∧ k ≤ 3 ∧
      (∀ d, d < k → [false, true, true].getD ((1 + d) % 3) false = true) ∧
      (k < 3 → [false, true, true].getD ((1 + k) % 3) false = false) ∧
      (k = 3 → (1 + k) % 3 = 1) ∧
      (∀ d, d < k → (1 + d) % 3 ≠ (1 + k) % 3 →
        t.useBits.getD ((1 + d) % 3) false = false) ∧
      t.frames.array.getD ((1 + k) % 3) 0 = pageAt (readPages [4]) 0 ∧
      t.useBits.getD ((1 + k) % 3) false = true ∧
      (∀ slot, slot < 3 → slot ≠ (1 + k) % 3 →
        t.frames.array.getD slot 0 = [1, 2, 3].getD slot 0) ∧
      (∀ slot, slot < 3 → slot ≠ (1 + k) % 3 →
        (∀ d, d < k → (1 + d) % 3 ≠ slot) →
        t.useBits.getD slot false = [false, true, true].getD slot false) ∧
      t.index = ((1 + k) % 3 + 1) % 3 ∧
      t.frames.count = 3 ∧ t.frames.size = 3 ∧
      t.numberOfPageFaults = 0 + 1 :=
  C9_clock_victim (readPages [4]) 3
    { frames := { array := [1, 2, 3], size := 3, count := 3 },
      useBits := [false, true, true], index := 1, numberOfPageFaults := 0, output := [] }
    0 ⟨⟨rfl, rfl, by decide, by decide⟩, rfl, by decide⟩ rfl (by decide)

/-- C1, failing input: one frame, trace `[1,1,2,1]`.  At reference 2 both scans
return their unassigned `resultIndex`.  When `optimal` reads it as 0 it
overwrites the only frame and counts 2 faults; when `leastRecentlyUsed` reads it
as 1 its `vector_insert` does nothing, page 1 stays, and it counts 1 fault. -/
theorem C1_optimal_above_lru_one_frame :
    (optimalLoop (readPages [1, 1, 2, 1]) (emptyFrames 1) (fun _ => 0) 2).map
        (fun s => getFarthestReferenceAfter (readPages [1, 1, 2, 1]) s.frames 2) = some none ∧
      (lruLoop (readPages [1, 1, 2, 1]) (emptyFrames 1) (fun _ => 1) 2).map
        (fun s => getFarthestReferenceBefore (readPages [1, 1, 2, 1]) s.frames 2) = some none ∧
      optimal (readPages [1, 1, 2, 1]) (emptyFrames 1) (fun _ => 0) = some 2 ∧
      leastRecentlyUsed (readPages [1, 1, 2, 1]) (emptyFrames 1) (fun _ => 1) = some 1 := by
  decide

/-- C6, failing input: one frame, trace `[1,2,3]`.  At reference 2 the frame holds
page 2, page 3 is not resident, and `getFarthestReferenceBefore` returns its
unassigned `resultIndex`; read as 1, the overwrite does nothing: the fault is
counted and the line is printed, but the frame still holds page 2. -/
theorem C6_lru_victim_unassigned_one_frame :
    (lruLoop (readPages [1, 2, 3]) (emptyFrames 1) (fun _ => 1) 2).map
        (fun s => resident s.frames) = some [2] ∧
      (lruLoop (readPages [1, 2, 3]) (emptyFrames 1) (fun _ => 1) 2).map
        (fun s => isPageInAFrame s.frames (pageAt (readPages [1, 2, 3]) 2)) = some false ∧
      (lruLoop (readPages [1, 2, 3]) (emptyFrames 1) (fun _ => 1) 2).map
        (fun s => getFarthestReferenceBefore (readPages [1, 2, 3]) s.frames 2) = some none ∧
      lruLoop (readPages [1, 2, 3]) (emptyFrames 1) (fun _ => 1) 3 =
        some { frames := { array := [2], size := 1, count := 1 }
               numberOfPageFaults := 2
               output := [{ pageNumber := 1, fault := false, content := [1] },
                          { pageNumber := 2, fault := true, content := [2] },
                          { pageNumber := 3, fault := true, content := [2] }] } := by
  decide

/-- C7, failing input: one frame, trace `[1,2,1]`.  At reference 1 the frame holds
page 1, whose next occurrence is reference 2, page 2 is not resident, and
`getFarthestReferenceAfter` returns its unassigned `resultIndex`; read as 1, the
overwrite does nothing: the fault is counted, but the frame still holds page 1. -/
theorem C7_optimal_victim_unassigned_one_frame :
    (optimalLoop (readPages [1, 2, 1]) (emptyFrames 1) (fun _ => 1) 1).map
        (fun s => resident s.frames) = some [1] ∧
      (optimalLoop (readPages [1, 2, 1]) (emptyFrames 1) (fun _ => 1) 1).map
        (fun s => isPageInAFrame s.frames (pageAt (readPages [1, 2, 1]) 1)) = some false ∧
      (optimalLoop (readPages [1, 2, 1]) (emptyFrames 1) (fun _ => 1) 1).map
        (fun s => getFarthestReferenceAfter (readPages [1, 2, 1]) s.frames 1) = some none ∧
      optimalLoop (readPages [1, 2, 1]) (emptyFrames 1) (fun _ => 1) 2 =
        some { frames := { array := [1], size := 1, count := 1 }
               numberOfPageFaults := 1
               output := [{ pageNumber := 1, fault := false, content := [1] },
                          { pageNumber := 2, fault := true, content := [1] }] } := by
  decide

/-- C13: in a run of `firstInFirstOut` from an empty frame set of capacity
`C ≥ 1`, an iteration that counts a fault when `k` faults have been counted
stores the referenced page in cell `k % C`, leaves every other cell as it was,
keeps `count` and `size` at `C`, and raises the fault counter to `k + 1`. -/
theorem C13_fifo_fault_overwrites_slot (pages : vector) (C : Nat) (hC : 1 ≤ C) (i : Nat)
    (hmiss : isPageInAFrame (fifoLoop pages (emptyFrames C) i).frames (pageAt pages i) = false)
    (hfull : ¬ (fifoLoop pages (emptyFrames C) i).frames.count <
      (fifoLoop pages (emptyFrames C) i).frames.size) :
    (fifoLoop pages (emptyFrames C) (i + 1)).frames.array.getD
        ((fifoLoop pages (emptyFrames C) i).numberOfPageFaults % C) 0 = pageAt pages i ∧
      (∀ slot, slot ≠ (fifoLoop pages (emptyFrames C) i).numberOfPageFaults % C →
        (fifoLoop pages (emptyFrames C) (i + 1)).frames.array.getD slot 0 =
          (fifoLoop pages (emptyFrames C) i).frames.array.getD slot 0) ∧
      (fifoLoop pages (emptyFrames C) (i + 1)).frames.count = C ∧
      (fifoLoop pages (emptyFrames C) (i + 1)).frames.size = C ∧
      (fifoLoop pages (emptyFrames C) (i + 1)).numberOfPageFaults =
        (fifoLoop pages (emptyFrames C) i).numberOfPageFaults + 1 := by
  have hok := isRun_framesOk (fifo_isRun pages (emptyFrames C)) i
  simp only [FifoState.view] at hok
  have hlt := fifo_oldest_lt pages hC i
  have hframes := fifo_fault_frames pages hC i hmiss hfull
  rw [fifo_oldest_eq_mod pages hC i] at hframes hlt
  rw [hframes]
  refine ⟨?_, ?_, rfl, rfl, fifoBody_faults_of_full hmiss hfull⟩
  · rw [getD_set_int _ _ _ _ (by rw [hok.2.1]; exact hlt), if_pos rfl]
  · intro slot hslot
    rw [getD_set_int _ _ _ _ (by rw [hok.2.1]; exact hlt), if_neg hslot]

theorem C13_fifo_fault_overwrites_slot_witness :
    (fifoLoop (readPages [1, 2, 3, 4]) (emptyFrames 2) (3 + 1)).frames.array.getD
        ((fifoLoop (readPages [1, 2, 3, 4]) (emptyFrames 2) 3).numberOfPageFaults % 2) 0 =
          pageAt (readPages [1, 2, 3, 4]) 3 ∧
      (∀ slot, slot ≠ (fifoLoop (readPages [1, 2, 3, 4]) (emptyFrames 2) 3).numberOfPageFaults % 2 →
        (fifoLoop (readPages [1, 2, 3, 4]) (emptyFrames 2) (3 + 1)).frames.array.getD slot 0 =
          (fifoLoop (readPages [1, 2, 3, 4]) (emptyFrames 2) 3).frames.array.getD slot 0) ∧
      (fifoLoop (readPages [1, 2, 3, 4]) (emptyFrames 2) (3 + 1)).frames.count = 2 ∧
      (fifoLoop (readPages [1, 2, 3, 4]) (emptyFrames 2) (3 + 1)).frames.size = 2 ∧
      (fifoLoop (readPages [1, 2, 3, 4]) (emptyFrames 2) (3 + 1)).numberOfPageFaults =
        (fifoLoop (readPages [1, 2, 3, 4]) (emptyFrames 2) 3).numberOfPageFaults + 1 :=
  C13_fifo_fault_overwrites_slot (readPages [1, 2, 3, 4]) 2 (by decide) 3 (by decide) (by decide)

/-- C14: on the empty trace every driver returns 0, prints no line and leaves the
frame set as it was built, with no occupied cell, whatever the capacity. -/
theorem C14_empty_trace (C : Nat) (indeterminate : Nat → Int) :
    (firstInFirstOut (readPages []) (emptyFrames C) = 0 ∧
      (fifoLoop (readPages []) (emptyFrames C) (readPages []).count).output = [] ∧
      (fifoLoop (readPages []) (emptyFrames C) (readPages []).count).frames = emptyFrames C) ∧
    (leastRecentlyUsed (readPages []) (emptyFrames C) indeterminate = some 0 ∧
      ∃ s, lruLoop (readPages []) (emptyFrames C) indeterminate (readPages []).count = some s ∧
        s.output = [] ∧ s.frames = emptyFrames C) ∧
    (optimal (readPages []) (emptyFrames C) indeterminate = some 0 ∧
      ∃ s, optimalLoop (readPages []) (emptyFrames C) indeterminate (readPages []).count =
          some s ∧
        s.output = [] ∧ s.frames = emptyFrames C) ∧
    (clock (readPages []) (emptyFrames C) = some 0 ∧
      ∃ s, clockLoop (readPages []) (emptyFrames C) (readPages []).count = some s ∧
        s.output = [] ∧ s.frames = emptyFrames C) ∧
    (emptyFrames C).count = 0 ∧ resident (emptyFrames C) = [] :=
  ⟨⟨rfl, rfl, rfl⟩, ⟨rfl, _, rfl, rfl, rfl⟩, ⟨rfl, _, rfl, rfl, rfl⟩, ⟨rfl, _, rfl, rfl, rfl⟩,
    rfl, resident_emptyFrames C⟩

/-- C15: from an empty frame set of capacity `C ≥ 1`, after any number of
iterations the cursor of `firstInFirstOut` is below `C` and the hand of `clock`
is below `C`. -/
theorem C15_cursor_and_hand_in_range (pages : vector) (C : Nat) (hC : 1 ≤ C) (i : Nat) :
    (fifoLoop pages (emptyFrames C) i).oldestPageIndex < C ∧
      ∃ s, clockLoop pages (emptyFrames C) i = some s ∧ s.index < C := by
  obtain ⟨s, hs, hok⟩ := clockLoop_ok pages hC i
  exact ⟨fifo_oldest_lt pages hC i, s, hs, hok.2.2⟩

theorem C15_cursor_and_hand_in_range_witness :
    (fifoLoop (readPages [1, 2, 3, 4]) (emptyFrames 2) 4).oldestPageIndex < 2 ∧
      ∃ s, clockLoop (readPages [1, 2, 3, 4]) (emptyFrames 2) 4 = some s ∧ s.index < 2 :=
  C15_cursor_and_hand_in_range (readPages [1, 2, 3, 4]) 2 (by decide) 4

/-- C18: with `C ≥ 2` frames, `leastRecentlyUsed` and `optimal` have a state `s`
before and a state `t` after every reference `i`, whatever the indeterminate
values are.  Whenever `leastRecentlyUsed` calls `getFarthestReferenceBefore`, and
whenever `optimal` calls `getFarthestReferenceAfter`, the call returns a slot `r`
that it assigned, with `r < C`, and the `vector_insert` that follows stores the
page in cell `r`. -/
theorem C18_scan_result_assigned (pages : vector) (C : Nat) (hC : 2 ≤ C)
    (indeterminate : Nat → Int) (i : Nat) (hi : i < pages.count) :
    (∃ s t, lruLoop pages (emptyFrames C) indeterminate i = some s ∧
      lruLoop pages (emptyFrames C) indeterminate (i + 1) = some t ∧
      (isPageInAFrame s.frames (pageAt pages i) = false →
        ¬ s.frames.count < s.frames.size →
        ∃ r, getFarthestReferenceBefore pages s.frames i = some r ∧
          r < C ∧
          t.frames = { array := s.frames.array.set r (pageAt pages i), size := C, count := C } ∧
          t.frames.array.getD r 0 = pageAt pages i)) ∧
    (∃ s t, optimalLoop pages (emptyFrames C) indeterminate i = some s ∧
      optimalLoop pages (emptyFrames C) indeterminate (i + 1) = some t ∧
      (isPageInAFrame s.frames (pageAt pages i) = false →
        ¬ s.frames.count < s.frames.size →
        ∃ r, getFarthestReferenceAfter pages s.frames i = some r ∧
          r < C ∧
          t.frames = { array := s.frames.array.set r (pageAt pages i), size := C, count := C } ∧
          t.frames.array.getD r 0 = pageAt pages i)) := by
  have hu := clamped_nonneg indeterminate
  constructor
  · refine ⟨_, _, lruLoop_two_frames pages hC indeterminate i,
      lruLoop_two_frames pages hC indeterminate (i + 1), ?_⟩
    intro hmiss hfull
    have hok := isRun_framesOk (lru_isRun pages (emptyFrames C) hu) i
    have hcount := count_eq_of_not_free hok hfull
    obtain ⟨r, hr, hget, hf⟩ :=
      lru_proper pages hC hu i (not_mem_of_isPageInAFrame_false hmiss) hfull
    rw [vector_insert_of_lt hr, hok.1, hcount] at hf
    refine ⟨r, hget, by omega, hf, ?_⟩
    rw [hf, getD_set_int _ _ _ _ (by rw [hok.2.1]; omega), if_pos rfl]
  · refine ⟨_, _, optimalLoop_two_frames pages hC indeterminate (Nat.le_of_lt hi),
      optimalLoop_two_frames pages hC indeterminate (Nat.succ_le_of_lt hi), ?_⟩
    intro hmiss hfull
    have hok := isRun_framesOk (optimal_isRun pages (emptyFrames C) hu) i
    have hcount := count_eq_of_not_free hok hfull
    obtain ⟨r, hr, hget, hf⟩ :=
      optimal_proper pages hC hu i hi (not_mem_of_isPageInAFrame_false hmiss) hfull
    rw [vector_insert_of_lt hr, hok.1, hcount] at hf
    refine ⟨r, hget, by omega, hf, ?_⟩
    rw [hf, getD_set_int _ _ _ _ (by rw [hok.2.1]; omega), if_pos rfl]

theorem C18_scan_result_assigned_witness :
    (∃ t r, lruLoop (readPages [1, 2, 3, 1]) (emptyFrames 2) (fun _ => -1) (2 + 1) = some t ∧
      getFarthestReferenceBefore (readPages [1, 2, 3, 1])
        { array := [1, 2], size := 2, count := 2 } 2 = some r ∧
      r < 2 ∧
      t.frames = { array := [1, 2].set r (pageAt (readPages [1, 2, 3, 1]) 2),
                   size := 2, count := 2 } ∧
      t.frames.array.getD r 0 = pageAt (readPages [1, 2, 3, 1]) 2) ∧
    (∃ t r, optimalLoop (readPages [1, 2, 3, 1]) (emptyFrames 2) (fun _ => -1) (2 + 1) = some t ∧
      getFarthestReferenceAfter (readPages [1, 2, 3, 1])
        { array := [1, 2], size := 2, count := 2 } 2 = some r ∧
      r < 2 ∧
      t.frames = { array := [1, 2].set r (pageAt (readPages [1, 2, 3, 1]) 2),
                   size := 2, count := 2 } ∧
      t.frames.array.getD r 0 = pageAt (readPages [1, 2, 3, 1]) 2) := by
  obtain ⟨⟨s, t, hs, ht, h⟩, ⟨s2, t2, hs2, ht2, h2⟩⟩ :=
    C18_scan_result_assigned (readPages [1, 2, 3, 1]) 2 (by decide) (fun _ => -1) 2 (by decide)
  have e : lruLoop (readPages [1, 2, 3, 1]) (emptyFrames 2) (fun _ => -1) 2 =
      some { frames := { array := [1, 2], size := 2, count := 2 }
             numberOfPageFaults := 0
             output := [{ pageNumber := 1, fault := false, content := [1] },
                        { pageNumber := 2, fault := false, content := [1, 2] }] } := by decide
  have e2 : optimalLoop (readPages [1, 2, 3, 1]) (emptyFrames 2) (fun _ => -1) 2 =
      some { frames := { array := [1, 2], size := 2, count := 2 }
             numberOfPageFaults := 0
             output := [{ pageNumber := 1, fault := false, content := [1] },
                        { pageNumber := 2, fault := false, content := [1, 2] }] } := by decide
  rw [e] at hs
  rw [e2] at hs2
  injection hs with hs
  injection hs2 with hs2
  subst hs
  subst hs2
  obtain ⟨r, hr1, hr2, hr3, hr4⟩ := h (by decide) (by decide)
  obtain ⟨q, hq1, hq2, hq3, hq4⟩ := h2 (by decide) (by decide)
  exact ⟨⟨t, r, ht, hr1, hr2, hr3, hr4⟩, ⟨t2, q, ht2, hq1, hq2, hq3, hq4⟩⟩

/-- C19: after reference `i` has been processed the referenced page is resident,
and the line printed for it shows that page among the frames: for
`firstInFirstOut` and `clock` with `C ≥ 1` frames, and for `leastRecentlyUsed`
and `optimal` with `C ≥ 2` frames, where these two reach the state after
reference `i` and the state at the end of the trace whatever the indeterminate
values are. -/
theorem C19_referenced_page_resident (pages : vector) (C : Nat) (hC : 1 ≤ C)
    (indeterminate : Nat → Int) (i : Nat) (hi : i < pages.count) :
    (pageAt pages i ∈ resident (fifoLoop pages (emptyFrames C) (i + 1)).frames ∧
      ∃ row, (fifoLoop pages (emptyFrames C) pages.count).output[i]? = some row ∧
        row.pageNumber = pageAt pages i ∧ pageAt pages i ∈ row.content) ∧
    (∃ s t, clockLoop pages (emptyFrames C) (i + 1) = some s ∧
      clockLoop pages (emptyFrames C) pages.count = some t ∧
      pageAt pages i ∈ resident s.frames ∧
      ∃ row, t.output[i]? = some row ∧
        row.pageNumber = pageAt pages i ∧ pageAt pages i ∈ row.content) ∧
    (2 ≤ C →
      (∃ s t, lruLoop pages (emptyFrames C) indeterminate (i + 1) = some s ∧
        lruLoop pages (emptyFrames C) indeterminate pages.count = some t ∧
        pageAt pages i ∈ resident s.frames ∧
        ∃ row, t.output[i]? = some row ∧
          row.pageNumber = pageAt pages i ∧ pageAt pages i ∈ row.content) ∧
      (∃ s t, optimalLoop pages (emptyFrames C) indeterminate (i + 1) = some s ∧
        optimalLoop pages (emptyFrames C) indeterminate pages.count = some t ∧
        pageAt pages i ∈ resident s.frames ∧
        ∃ row, t.output[i]? = some row ∧
          row.pageNumber = pageAt pages i ∧ pageAt pages i ∈ row.content)) := by
  have key : ∀ v : Nat → ScanState, IsRun pages (emptyFrames C) v →
      (∀ j, j < pages.count → pageAt pages j ∉ resident (v j).frames →
        ¬ (v j).frames.count < (v j).frames.size →
        ∃ n : Nat, n < (v j).frames.count ∧
          (v (j + 1)).frames = vector_insert (v j).frames n (pageAt pages j)) →
      pageAt pages i ∈ resident (v (i + 1)).frames ∧
        ∃ row, (v pages.count).output[i]? = some row ∧
          row.pageNumber = pageAt pages i ∧ pageAt pages i ∈ row.content := by
    intro v hv hproper
    obtain ⟨hmem, row, hrow, hpage, hcontent⟩ :=
      step_page_resident (hv.step i) (isRun_framesOk hv i) (hproper i hi)
    exact ⟨hmem, row, isRun_row hv hi hrow, hpage, by rw [hcontent]; exact hmem⟩
  have hu := clamped_nonneg indeterminate
  refine ⟨?_, ?_, ?_⟩
  · exact key _ (fifo_isRun pages _) (fun j _ h1 h2 => fifo_proper pages hC j h1 h2)
  · obtain ⟨s, hs, _⟩ := clockLoop_ok pages hC (i + 1)
    obtain ⟨t, ht, _⟩ := clockLoop_ok pages hC pages.count
    have := key _ (clock_isRun pages hC) (fun j _ h1 h2 => clock_proper pages hC j h1 h2)
    rw [clockView_eq hs, clockView_eq ht] at this
    exact ⟨s, t, hs, ht, this⟩
  · intro h2
    refine ⟨⟨_, _, lruLoop_two_frames pages h2 indeterminate (i + 1),
        lruLoop_two_frames pages h2 indeterminate pages.count,
        key _ (lru_isRun pages _ hu) ?_⟩,
      ⟨_, _, optimalLoop_two_frames pages h2 indeterminate (Nat.succ_le_of_lt hi),
        optimalLoop_two_frames pages h2 indeterminate le_rfl,
        key _ (optimal_isRun pages _ hu) ?_⟩⟩
    · intro j _ h1 h3
      obtain ⟨n, hn, _, hf⟩ := lru_proper pages h2 hu j h1 h3
      exact ⟨n, hn, hf⟩
    · intro j hj h1 h3
      obtain ⟨n, hn, _, hf⟩ := optimal_proper pages h2 hu j hj h1 h3
      exact ⟨n, hn, hf⟩

theorem C19_referenced_page_resident_witness :
    (pageAt (readPages [1, 2, 3, 1]) 2 ∈
        resident (fifoLoop (readPages [1, 2, 3, 1]) (emptyFrames 2) (2 + 1)).frames ∧
      ∃ row, (fifoLoop (readPages [1, 2, 3, 1]) (emptyFrames 2)
          (readPages [1, 2, 3, 1]).count).output[2]? = some row ∧
        row.pageNumber = pageAt (readPages [1, 2, 3, 1]) 2 ∧
        pageAt (readPages [1, 2, 3, 1]) 2 ∈ row.content) ∧
    (∃ s t, clockLoop (readPages [1, 2, 3, 1]) (emptyFrames 2) (2 + 1) = some s ∧
      clockLoop (readPages [1, 2, 3, 1]) (emptyFrames 2) (readPages [1, 2, 3, 1]).count =
        some t ∧
      pageAt (readPages [1, 2, 3, 1]) 2 ∈ resident s.frames ∧
      ∃ row, t.output[2]? = some row ∧
        row.pageNumber = pageAt (readPages [1, 2, 3, 1]) 2 ∧
        pageAt (readPages [1, 2, 3, 1]) 2 ∈ row.content) ∧
    (
      (∃ s t, lruLoop (readPages [1, 2, 3, 1]) (emptyFrames 2) (fun _ => -1) (2 + 1) = some s ∧
        lruLoop (readPages [1, 2, 3, 1]) (emptyFrames 2) (fun _ => -1)
          (readPages [1, 2, 3, 1]).count = some t ∧
        pageAt (readPages [1, 2, 3, 1]) 2 ∈ resident s.frames ∧
        ∃ row, t.output[2]? = some row ∧
          row.pageNumber = pageAt (readPages [1, 2, 3, 1]) 2 ∧
          pageAt (readPages [1, 2, 3, 1]) 2 ∈ row.content) ∧
      (∃ s t, optimalLoop (readPages [1, 2, 3, 1]) (emptyFrames 2) (fun _ => -1) (2 + 1) =
          some s ∧
        optimalLoop (readPages [1, 2, 3, 1]) (emptyFrames 2) (fun _ => -1)
          (readPages [1, 2, 3, 1]).count = some t ∧
        pageAt (readPages [1, 2, 3, 1]) 2 ∈ resident s.frames ∧
        ∃ row, t.output[2]? = some row ∧
          row.pageNumber = pageAt (readPages [1, 2, 3, 1]) 2 ∧
          pageAt (readPages [1, 2, 3, 1]) 2 ∈ row.content)) :=
  ⟨(C19_referenced_page_resident (readPages [1, 2, 3, 1]) 2 (by decide) (fun _ => -1) 2
      (by decide)).1,
    (C19_referenced_page_resident (readPages [1, 2, 3, 1]) 2 (by decide) (fun _ => -1) 2
      (by decide)).2.1,
    (C19_referenced_page_resident (readPages [1, 2, 3, 1]) 2 (by decide) (fun _ => -1) 2
      (by decide)).2.2 (by decide)⟩

/-- C20: in a run of `firstInFirstOut` from an empty frame set of capacity
`C ≥ 1`, an iteration that counts a fault overwrites the slot under the cursor;
the page in that slot was loaded by reference `t`, the most recent store into
that slot, and every other slot has been stored into after `t`: the evicted page
is the resident page that was loaded earliest. -/
theorem C20_fifo_evicts_earliest_loaded (pages : vector) (C : Nat) (hC : 1 ≤ C) (i : Nat)
    (hmiss : isPageInAFrame (fifoLoop pages (emptyFrames C) i).frames (pageAt pages i) = false)
    (hfull : ¬ (fifoLoop pages (emptyFrames C) i).frames.count <
      (fifoLoop pages (emptyFrames C) i).frames.size) :
    ∃ t, fifoLoadedAt pages (emptyFrames C)
        (fifoLoop pages (emptyFrames C) i).oldestPageIndex i = some t ∧
      t < i ∧
      pageAt pages t = (fifoLoop pages (emptyFrames C) i).frames.array.getD
        (fifoLoop pages (emptyFrames C) i).oldestPageIndex 0 ∧
      (fifoLoop pages (emptyFrames C) (i + 1)).frames.array =
        (fifoLoop pages (emptyFrames C) i).frames.array.set
          (fifoLoop pages (emptyFrames C) i).oldestPageIndex (pageAt pages i) ∧
      ∀ slot, slot < C → slot ≠ (fifoLoop pages (emptyFrames C) i).oldestPageIndex →
        ∃ u, fifoLoadedAt pages (emptyFrames C) slot i = some u ∧ t < u ∧ u < i ∧
          pageAt pages u = (fifoLoop pages (emptyFrames C) i).frames.array.getD slot 0 := by
  have hok := isRun_framesOk (fifo_isRun pages (emptyFrames C)) i
  simp only [FifoState.view] at hok
  have hcount := count_eq_of_not_free hok hfull
  have hlt := fifo_oldest_lt pages hC i
  obtain ⟨_, hload, horder⟩ := fifo_load_order pages hC i
  rw [hcount] at hload horder
  obtain ⟨t, ht, hta, htp⟩ := hload _ hlt
  refine ⟨t, hta, ht, htp, ?_, ?_⟩
  · rw [fifo_fault_frames pages hC i hmiss hfull]
  · intro slot hslot hne
    obtain ⟨u, hu, hua, hup⟩ := hload slot hslot
    refine ⟨u, hua, ?_, hu, hup⟩
    refine horder _ slot t u hlt hslot ?_ hta hua
    simp only [cyclicBefore]
    omega

theorem C20_fifo_evicts_earliest_loaded_witness :
    ∃ t, fifoLoadedAt (readPages [1, 2, 3, 1, 4]) (emptyFrames 2)
        (fifoLoop (readPages [1, 2, 3, 1, 4]) (emptyFrames 2) 4).oldestPageIndex 4 = some t ∧
      t < 4 ∧
      pageAt (readPages [1, 2, 3, 1, 4]) t =
        (fifoLoop (readPages [1, 2, 3, 1, 4]) (emptyFrames 2) 4).frames.array.getD
          (fifoLoop (readPages [1, 2, 3, 1, 4]) (emptyFrames 2) 4).oldestPageIndex 0 ∧
      (fifoLoop (readPages [1, 2, 3, 1, 4]) (emptyFrames 2) (4 + 1)).frames.array =
        (fifoLoop (readPages [1, 2, 3, 1, 4]) (emptyFrames 2) 4).frames.array.set
          (fifoLoop (readPages [1, 2, 3, 1, 4]) (emptyFrames 2) 4).oldestPageIndex
          (pageAt (readPages [1, 2, 3, 1, 4]) 4) ∧
      ∀ slot, slot < 2 →
        slot ≠ (fifoLoop (readPages [1, 2, 3, 1, 4]) (emptyFrames 2) 4).oldestPageIndex →
        ∃ u, fifoLoadedAt (readPages [1, 2, 3, 1, 4]) (emptyFrames 2) slot 4 = some u ∧
          t < u ∧ u < 4 ∧
          pageAt (readPages [1, 2, 3, 1, 4]) u =
            (fifoLoop (readPages [1, 2, 3, 1, 4]) (emptyFrames 2) 4).frames.array.getD slot 0 :=
  C20_fifo_evicts_earliest_loaded (readPages [1, 2, 3, 1, 4]) 2 (by decide) 4 (by decide)
    (by decide)

/-- C11, failing input: one frame, trace `[1,2,3,3]`, `leastRecentlyUsed`.  At
reference 2 the scan returns its unassigned `resultIndex`; read as 1, the
overwrite does nothing and page 2 stays.  Reference 3 repeats reference 2, yet
page 3 is not resident: the reference is counted as a fault and printed with the
fault mark. -/
theorem C11_lru_repeated_reference_faults_one_frame :
    pageAt (readPages [1, 2, 3, 3]) 3 = pageAt (readPages [1, 2, 3, 3]) 2 ∧
      (lruLoop (readPages [1, 2, 3, 3]) (emptyFrames 1) (fun _ => 1) 2).map
        (fun s => getFarthestReferenceBefore (readPages [1, 2, 3, 3]) s.frames 2) = some none ∧
      (lruLoop (readPages [1, 2, 3, 3]) (emptyFrames 1) (fun _ => 1) 3).map
        (fun s => resident s.frames) = some [2] ∧
      (lruLoop (readPages [1, 2, 3, 3]) (emptyFrames 1) (fun _ => 1) 3).map
        (fun s => s.numberOfPageFaults) = some 2 ∧
      (lruLoop (readPages [1, 2, 3, 3]) (emptyFrames 1) (fun _ => 1) 4).map
        (fun s => s.numberOfPageFaults) = some 3 ∧
      (lruLoop (readPages [1, 2, 3, 3]) (emptyFrames 1) (fun _ => 1) 4).map
        (fun s => s.output[3]?) =
          some (some { pageNumber := 3, fault := true, content := [3] }) := by
  decide

/-- C16, failing inputs.  In the run of `leastRecentlyUsed` with two frames on
`[1,2,3]`, the call at reference 2 sees the frames `[1,2]`: the scan for slot 0
stops at `j = 0` without reading `pages[0]`, and the call returns slot 0 at once
although page 1 is `pages[0]`.  With the frames `[1,9]` and `currentIndex = 3`
the call returns slot 0 in the same way, although page 9 in slot 1 is the only
resident page that occurs nowhere in the trace. -/
theorem C16_scan_before_skips_first_reference :
    (lruLoop (readPages [1, 2, 3]) (emptyFrames 2) (fun _ => 0) 2).map (fun s => s.frames) =
        some { array := [1, 2], size := 2, count := 2 } ∧
      pageAt (readPages [1, 2, 3]) 0 = vector_get { array := [1, 2], size := 2, count := 2 } 0 ∧
      scanBefore (readPages [1, 2, 3])
        (vector_get { array := [1, 2], size := 2, count := 2 } 0) (2 - 1) = 0 ∧
      getFarthestReferenceBefore (readPages [1, 2, 3])
        { array := [1, 2], size := 2, count := 2 } 2 = some 0 ∧
      pageAt (readPages [1, 2, 3]) 0 = vector_get { array := [1, 9], size := 2, count := 2 } 0 ∧
      (∀ j, j < 3 →
        pageAt (readPages [1, 2, 3]) j ≠
          vector_get { array := [1, 9], size := 2, count := 2 } 1) ∧
      scanBefore (readPages [1, 2, 3])
        (vector_get { array := [1, 9], size := 2, count := 2 } 0) (3 - 1) = 0 ∧
      getFarthestReferenceBefore (readPages [1, 2, 3])
        { array := [1, 9], size := 2, count := 2 } 3 = some 0 := by
  decide

end PageReplacement
